import Mathlib

/-!
Verification development for the radio-playlist-scraper repository.

The Python sources are shallowly embedded as executable Lean definitions:

- src/scraper.py              : unique_key, merge_dedup (and the timestamp sort key)
- src/enrich_artist_country.py: the normalizer, the MusicBrainz candidate scorer,
                                and the enrich_artist_country loop
- src/enrich_itunes.py        : the merge engine (_update_if_missing and friends),
                                the iTunes candidate scorer, and the enrich_items loop
- src/enrich_musicbrainz.py   : the normalizer/_primary_artist pipeline, the scorer
                                weights, and the artist-country portion of main

Network calls (requests.get plus JSON decoding) are opaque collaborators in the
sources; here they are modelled as explicit oracle functions passed to the loops,
or the loop consumes the already-decoded candidate list.  Python floats are
modelled as exact rationals; claims proved about scores concern weights and
thresholds, not floating-point rounding.  time.sleep is a no-op for the state
the claims talk about and is omitted.
-/

/-- A JSON-ish scalar value as stored in playlist items and cache payloads.
Python None (and JSON null) is jnull; strings and ints cover every value the
enrichment scripts read or write into the modelled fields. -/
inductive JVal where
  | jnull : JVal
  | jstr (s : String) : JVal
  | jint (n : Int) : JVal
  deriving DecidableEq, Repr

/-- NOT_FOUND = "Not found" (sentinel written into items). -/
def NOT_FOUND : String := "Not found"

/-- CACHE_MISS = "__MISS__" (sentinel stored in caches). -/
def CACHE_MISS : String := "__MISS__"

/-- The NOT_FOUND sentinel as a JSON value. -/
def NFV : JVal := JVal.jstr NOT_FOUND

/-- Python test "v in (None, :empty:, NOT_FOUND)" on an item field, where an
absent key and a null value both read back as None via dict.get. -/
def isMissingVal : Option JVal → Bool
  | none => true
  | some JVal.jnull => true
  | some (JVal.jstr s) => s = "" || s = NOT_FOUND
  | some (JVal.jint _) => false

/-- Python test "val in (None, :empty:)" on a fetched metadata value. -/
def srcSkip : Option JVal → Bool
  | none => true
  | some JVal.jnull => true
  | some (JVal.jstr s) => s = ""
  | some (JVal.jint _) => false

/-! ## Name normalisation, enrich_artist_country.py / enrich_itunes.py flavour

_ascii_fold does unicodedata NFKD decomposition followed by an ASCII encode
that drops everything non-ASCII.  We embed it as a character table covering the
Latin letters that occur in the repository data; a character with no ASCII
decomposition (for example the multiplication sign) is dropped, exactly as the
encode with errors="ignore" drops it. -/

def asciiFoldChar (c : Char) : List Char :=
  if c.toNat < 128 then [c]
  else
    match c with
    | 'á' => ['a'] | 'Á' => ['A'] | 'à' => ['a'] | 'À' => ['A']
    | 'â' => ['a'] | 'Â' => ['A'] | 'ä' => ['a'] | 'Ä' => ['A']
    | 'ã' => ['a'] | 'å' => ['a']
    | 'č' => ['c'] | 'Č' => ['C'] | 'ç' => ['c'] | 'Ç' => ['C']
    | 'ď' => ['d'] | 'Ď' => ['D']
    | 'é' => ['e'] | 'É' => ['E'] | 'è' => ['e'] | 'È' => ['E']
    | 'ê' => ['e'] | 'ë' => ['e'] | 'ě' => ['e'] | 'Ě' => ['E']
    | 'í' => ['i'] | 'Í' => ['I'] | 'î' => ['i'] | 'ï' => ['i']
    | 'ĺ' => ['l'] | 'Ĺ' => ['L'] | 'ľ' => ['l'] | 'Ľ' => ['L']
    | 'ň' => ['n'] | 'Ň' => ['N'] | 'ñ' => ['n']
    | 'ó' => ['o'] | 'Ó' => ['O'] | 'ô' => ['o'] | 'Ô' => ['O']
    | 'ö' => ['o'] | 'Ö' => ['O'] | 'õ' => ['o']
    | 'ŕ' => ['r'] | 'Ŕ' => ['R'] | 'ř' => ['r'] | 'Ř' => ['R']
    | 'š' => ['s'] | 'Š' => ['S']
    | 'ť' => ['t'] | 'Ť' => ['T']
    | 'ú' => ['u'] | 'Ú' => ['U'] | 'ů' => ['u'] | 'ü' => ['u'] | 'Ü' => ['U']
    | 'ý' => ['y'] | 'Ý' => ['Y']
    | 'ž' => ['z'] | 'Ž' => ['Z']
    | _ => []

/-- _ascii_fold: NFKD decompose and keep only the ASCII part. -/
def ascii_fold (s : String) : String :=
  String.mk (s.data.map asciiFoldChar).flatten

/-- str.strip(): drop whitespace from both ends (structural, so that the
kernel can evaluate it on literals). -/
def trimL (cs : List Char) : List Char :=
  ((cs.dropWhile Char.isWhitespace).reverse.dropWhile Char.isWhitespace).reverse

/-- str.strip() on strings. -/
def pyStrip (s : String) : String :=
  String.mk (trimL s.data)

/-- str.casefold, restricted to its action on the ASCII strings produced by
ascii_fold, where it agrees with lowercasing. -/
def casefoldAscii (s : String) : String :=
  String.mk (s.data.map Char.toLower)

/-- Drop characters up to and including the first closing parenthesis;
none when there is no closing parenthesis in the rest of the input. -/
def dropThroughClose : List Char → Option (List Char)
  | [] => none
  | c :: rest => if c = ')' then some rest else dropThroughClose rest

/-- One regex substitution pass for the pattern: whitespace run, an opening
parenthesis, a shortest run of characters, a closing parenthesis (replaced by
nothing, all occurrences, scanning left to right).  Fuel bounds recursion; the
wrapper passes enough fuel for the whole input. -/
def stripParensAux : Nat → List Char → List Char
  | 0, cs => cs
  | fuel + 1, [] =>
    let _ := fuel
    []
  | fuel + 1, c :: rest =>
    if c.isWhitespace then
      match (c :: rest).dropWhile Char.isWhitespace with
      | '(' :: tail =>
        match dropThroughClose tail with
        | some rest2 => stripParensAux fuel rest2
        | none => ((c :: rest).takeWhile Char.isWhitespace) ++ '(' :: tail
      | other => ((c :: rest).takeWhile Char.isWhitespace) ++ stripParensAux fuel other
    else c :: stripParensAux fuel rest

/-- Case-insensitive (ASCII) test that the pattern is a leading part of cs. -/
def leadsCI (pat : List Char) (cs : List Char) : Bool :=
  decide ((cs.take pat.length).map Char.toLower = pat.map Char.toLower)

/-- The featuring-clause test of enrich_artist_country/enrich_itunes at the
head of cs: one of feat. / ft. / featuring, case-insensitive, followed by at
least one whitespace character. -/
def isFeatMarkerAt (cs : List Char) : Bool :=
  (leadsCI "feat.".data cs && wsAt cs 5) ||
  (leadsCI "ft.".data cs && wsAt cs 3) ||
  (leadsCI "featuring".data cs && wsAt cs 9)
where
  wsAt (cs : List Char) (n : Nat) : Bool :=
    match cs.drop n with
    | c :: _ => c.isWhitespace
    | [] => false

/-- Regex substitution for: whitespace run, feat./ft./featuring, whitespace,
anything to the end (deleted).  The sources never contain newlines in artist
strings, so matching to end of line and end of string coincide. -/
def stripFeatAux : Nat → List Char → List Char
  | 0, cs => cs
  | fuel + 1, [] =>
    let _ := fuel
    []
  | fuel + 1, c :: rest =>
    if c.isWhitespace then
      let after := (c :: rest).dropWhile Char.isWhitespace
      if isFeatMarkerAt after then []
      else ((c :: rest).takeWhile Char.isWhitespace) ++ stripFeatAux fuel after
    else c :: stripFeatAux fuel rest

/-- State machine behind collapseWs: emitted records whether a token character
has been emitted already, pend whether whitespace was seen since. -/
def collapseAux : List Char → Bool → Bool → List Char
  | [], _, _ => []
  | c :: rest, emitted, pend =>
    if c.isWhitespace then collapseAux rest emitted true
    else (if emitted && pend then [' '] else []) ++ c :: collapseAux rest true false

/-- " ".join(s.split()): collapse whitespace runs, drop leading/trailing. -/
def collapseWs (s : String) : String :=
  String.mk (collapseAux s.data false false)

/-- _clean_name of enrich_artist_country.py / enrich_itunes.py: strip
whitespace-preceded parentheticals, strip a featuring clause, collapse
whitespace. -/
def clean_name (s : String) : String :=
  let cs1 := stripParensAux (s.data.length + 1) s.data
  let cs2 := stripFeatAux (cs1.length + 1) cs1
  collapseWs (String.mk cs2)

/-- _norm_for_match of enrich_artist_country.py / enrich_itunes.py
(the two files contain the identical definition). -/
def norm_for_match (s : String) : String :=
  casefoldAscii (ascii_fold (clean_name s))

/-- _cache_key_artist of enrich_artist_country.py. -/
def cache_key_artist (artist : String) : String :=
  norm_for_match artist

/-- _cache_key of enrich_itunes.py. -/
def cache_key (artist title : String) : String :=
  norm_for_match artist ++ "|" ++ norm_for_match title

/-! ## Name normalisation, enrich_musicbrainz.py flavour -/

/-- Python word-character test (ASCII part; the markers checked against it are
all ASCII words). -/
def isWordChar (c : Char) : Bool :=
  c.isAlphanum || c = '_'

/-- The featuring-marker test of enrich_musicbrainz._clean_name at the head of
cs: one of feat/featuring/ft/with/vs as a whole word (word boundary after it),
case-insensitive. -/
def isFeatMarkerMbzAt (cs : List Char) : Bool :=
  wordAt cs "feat".data || wordAt cs "featuring".data || wordAt cs "ft".data ||
  wordAt cs "with".data || wordAt cs "vs".data
where
  wordAt (cs : List Char) (w : List Char) : Bool :=
    leadsCI w cs &&
      (match cs.drop w.length with
       | [] => true
       | c :: _ => ¬ isWordChar c)

/-- Substitution for: whitespace run, a whole-word marker, optional dot,
anything to the end (deleted); used by enrich_musicbrainz._clean_name. -/
def stripFeatMbzAux : Nat → List Char → List Char
  | 0, cs => cs
  | fuel + 1, [] =>
    let _ := fuel
    []
  | fuel + 1, c :: rest =>
    if c.isWhitespace then
      let after := (c :: rest).dropWhile Char.isWhitespace
      if isFeatMarkerMbzAt after then []
      else ((c :: rest).takeWhile Char.isWhitespace) ++ stripFeatMbzAux fuel after
    else c :: stripFeatMbzAux fuel rest

/-- _clean_name of enrich_musicbrainz.py: collapse whitespace and trim, then
delete a trailing whole-word featuring clause.  Note: unlike the other two
files, this variant does NOT strip parentheticals. -/
def clean_name_mbz (s : String) : String :=
  let s1 := collapseWs s
  String.mk (stripFeatMbzAux (s1.data.length + 1) s1.data)

/-- _clean_title of enrich_musicbrainz.py. -/
def clean_title_mbz (s : String) : String :=
  collapseWs s

/-- _norm of enrich_musicbrainz.py. -/
def norm_mbz (s : String) : String :=
  casefoldAscii (ascii_fold (clean_name_mbz s))

/-- _norm_title of enrich_musicbrainz.py. -/
def norm_title_mbz (s : String) : String :=
  casefoldAscii (ascii_fold (clean_title_mbz s))

/-- SEPARATORS of enrich_musicbrainz.py, in source order. -/
def SEPARATORS : List String :=
  [" & ", " × ", " x ", " + ", " / ", ";", " and "]

/-- Substring containment test over character lists. -/
def hasSubstr (pat : List Char) : List Char → Bool
  | [] => pat.isEmpty
  | c :: rest => pat.isPrefixOf (c :: rest) || hasSubstr pat rest

/-- The characters strictly before the first occurrence of pat. -/
def takeBeforeSub (pat : List Char) : List Char → List Char
  | [] => []
  | c :: rest =>
    if pat.isPrefixOf (c :: rest) then [] else c :: takeBeforeSub pat rest

/-- The characters after the first occurrence of the one-character pattern. -/
def dropAfterChar (p : Char) : List Char → List Char
  | [] => []
  | c :: rest => if c = p then rest else dropAfterChar p rest

/-- _reorder_if_surname_first of enrich_musicbrainz.py: on a comma,
"Surname, Given" becomes "Given Surname" when both halves are nonempty. -/
def reorder_if_surname_first (name : String) : String :=
  if hasSubstr [','] name.data then
    let left := pyStrip (String.mk (takeBeforeSub [','] name.data))
    let right := pyStrip (String.mk (dropAfterChar ',' name.data))
    if left ≠ "" && right ≠ "" then right ++ " " ++ left else name
  else name

/-- Split at the first separator of SEPARATORS that occurs in s (source order,
with break after the first hit), keeping the first segment, trimmed. -/
def firstSepSplit : List String → String → String
  | [], s => s
  | sep :: rest, s =>
    if hasSubstr sep.data s.data then pyStrip (String.mk (takeBeforeSub sep.data s.data))
    else firstSepSplit rest s

/-- _primary_artist of enrich_musicbrainz.py. -/
def primary_artist (raw : String) : String :=
  let s0 := clean_name_mbz (pyStrip raw)
  let s1 := firstSepSplit SEPARATORS s0
  reorder_if_surname_first s1

/-! ## Exact fractions

Python float scores are modelled as exact fractions.  Mathlib rationals
normalise through Nat.gcd, which the kernel cannot evaluate, so we use plain
numerator/denominator pairs with cross-multiplication comparisons; every
denominator built below is positive. -/

/-- An exact fraction: numerator and (positive, by construction) denominator. -/
structure Frac where
  num : Int
  den : Int
  deriving DecidableEq, Repr

/-- The fraction n / 1. -/
def fInt (n : Int) : Frac := ⟨n, 1⟩

/-- Fraction zero. -/
def f0 : Frac := ⟨0, 1⟩

/-- Fraction one. -/
def f1 : Frac := ⟨1, 1⟩

/-- Fraction addition (no normalisation). -/
def fadd (x y : Frac) : Frac := ⟨x.num * y.den + y.num * x.den, x.den * y.den⟩

/-- Fraction multiplication (no normalisation). -/
def fmul (x y : Frac) : Frac := ⟨x.num * y.num, x.den * y.den⟩

/-- Strict comparison, valid for positive denominators. -/
def flt (x y : Frac) : Bool := x.num * y.den < y.num * x.den

/-- Non-strict comparison, valid for positive denominators. -/
def fle (x y : Frac) : Bool := x.num * y.den ≤ y.num * x.den

/-- Value equality of fractions (cross multiplication). -/
def feq (x y : Frac) : Bool := x.num * y.den = y.num * x.den

/-! ## difflib.SequenceMatcher ratio

Embedded for the short strings the scorers compare (all far below the autojunk
threshold of 200 characters, and with no junk predicate, so the pure
longest-matching-block recursion is exact).  Recursion is bounded by fuel; the
wrapper supplies fuel larger than the recursion depth, so the value is exact. -/

/-- Positions of c in b, in increasing order (the b2j table of difflib). -/
def charPositions (c : Char) (b : List Char) : List Nat :=
  (List.range b.length).filter (fun j => b.getD j c = c && j < b.length)

/-- Lookup in the j2len association list of difflib, defaulting to zero. -/
def j2lenGet (l : List (Nat × Nat)) (j : Nat) : Nat :=
  match l.find? (fun p => p.1 = j) with
  | some p => p.2
  | none => 0

/-- find_longest_match of difflib on index ranges [alo, ahi) x [blo, bhi):
returns (besti, bestj, bestsize), preferring earliest i then earliest j among
maximal blocks, exactly as the strict greater-than update in the source. -/
def flm (a b : List Char) (alo ahi blo bhi : Nat) : Nat × Nat × Nat :=
  let final :=
    (List.range' alo (ahi - alo)).foldl
      (fun (st : List (Nat × Nat) × Nat × Nat × Nat) i =>
        let js := (charPositions (a.getD i (Char.ofNat 0)) b).filter
          (fun j => blo ≤ j && j < bhi)
        js.foldl
          (fun (st2 : List (Nat × Nat) × Nat × Nat × Nat) j =>
            let k := if j = 0 then 1 else j2lenGet st.1 (j - 1) + 1
            let nj2 := (j, k) :: st2.1
            if k > st2.2.2.2 then (nj2, i + 1 - k, j + 1 - k, k)
            else (nj2, st2.2.1, st2.2.2.1, st2.2.2.2))
          ([], st.2.1, st.2.2.1, st.2.2.2))
      ([], alo, blo, 0)
  (final.2.1, final.2.2.1, final.2.2.2)

/-- Total size of the matching blocks of difflib (the recursion of
get_matching_blocks, keeping only the sum of block sizes, which is all that
ratio uses). -/
def matchSum (a b : List Char) : Nat → Nat → Nat → Nat → Nat → Nat
  | 0, _, _, _, _ => 0
  | fuel + 1, alo, ahi, blo, bhi =>
    let r := flm a b alo ahi blo bhi
    if r.2.2 = 0 then 0
    else
      matchSum a b fuel alo r.1 blo r.2.1 + r.2.2 +
        matchSum a b fuel (r.1 + r.2.2) ahi (r.2.1 + r.2.2) bhi

/-- SequenceMatcher(a, b).ratio(): twice the matched size over the total
length, and 1 on two empty sequences (the guard of _calculate_ratio). -/
def ratioF (sa sb : String) : Frac :=
  let a := sa.data
  let b := sb.data
  if a.length + b.length = 0 then f1
  else
    ⟨2 * (matchSum a b (a.length + b.length + 1) 0 a.length 0 b.length : Int),
      (a.length + b.length : Int)⟩

/-! ## Cached metadata payloads -/

/-- The metadata dict produced by itunes_lookup / mb_lookup_fallback and
stored in the caches of enrich_itunes.py.  A field holds none when the dict
has no such key (itunes payloads have no artist_country_code, for example). -/
structure Meta where
  year : Option JVal
  duration_ms : Option JVal
  genre : Option JVal
  album : Option JVal
  track_number : Option JVal
  artist_country_code : Option JVal
  itunes_track_id : Option JVal
  deriving DecidableEq, Repr

/-- dict.get with empty-string default collapsed through "or": absent and
null both give the empty string. -/
def orEmpty : Option String → String
  | none => ""
  | some s => s

/-! ## iTunes candidate scorer (enrich_itunes.py, itunes_lookup) -/

/-- 0.55, the s_title coefficient in itunes_lookup. -/
def itunesTitleWeight : Frac := ⟨55, 100⟩

/-- 0.45, the s_artist coefficient in itunes_lookup. -/
def itunesArtistWeight : Frac := ⟨45, 100⟩

/-- 0.72, the acceptance threshold of itunes_lookup. -/
def itunesAcceptThreshold : Frac := ⟨72, 100⟩

/-- One decoded result object of the iTunes search response (the fields
itunes_lookup reads). -/
structure ITRes where
  artistName : Option String
  trackName : Option String
  trackTimeMillis : Option Int
  releaseDate : Option String
  primaryGenreName : Option String
  collectionName : Option String
  trackNumber : Option Int
  trackId : Option Int
  deriving DecidableEq, Repr

/-- The candidate score of itunes_lookup: 0.55 * s_title + 0.45 * s_artist,
with s_artist = ratio(want_a, normalised artistName) and s_title likewise. -/
def itunesScore (wantA wantT : String) (r : ITRes) : Frac :=
  fadd (fmul itunesTitleWeight (ratioF wantT (norm_for_match (orEmpty r.trackName))))
    (fmul itunesArtistWeight (ratioF wantA (norm_for_match (orEmpty r.artistName))))

/-- The running-max scan of itunes_lookup: best starts at None with score 0
and is replaced only on strictly greater score. -/
def itunesBest (wantA wantT : String) (results : List ITRes) : Option ITRes × Frac :=
  results.foldl
    (fun (acc : Option ITRes × Frac) r =>
      let s := itunesScore wantA wantT r
      if flt acc.2 s then (some r, s) else acc)
    (none, f0)

/-- Decimal reading of an all-digit string. -/
def digitsValAux (acc : Nat) : List Char → Nat
  | [] => acc
  | c :: rest => digitsValAux (acc * 10 + (c.toNat - ('0').toNat)) rest

/-- str.isdigit on ASCII content: nonempty and all digits. -/
def allDigits (s : String) : Bool :=
  s ≠ "" && s.data.all Char.isDigit

/-- The metadata dict built from the accepted iTunes candidate
(lines building the return value of itunes_lookup). -/
def itunes_meta_of (best : ITRes) : Meta :=
  let relYear := String.mk ((orEmpty best.releaseDate).data.take 4)
  let yearVal : Option Int :=
    if allDigits relYear then some (digitsValAux 0 relYear.data : Nat) else none
  { year := some (match yearVal with | some y => JVal.jint y | none => NFV)
  , duration_ms := some (match best.trackTimeMillis with | some ms => JVal.jint ms | none => NFV)
  , genre := some (match best.primaryGenreName with
      | some g => if g = "" then NFV else JVal.jstr g
      | none => NFV)
  , album := some (match best.collectionName with
      | some al => if al = "" then NFV else JVal.jstr al
      | none => NFV)
  , track_number := some (match best.trackNumber with | some tn => JVal.jint tn | none => NFV)
  , artist_country_code := none
  , itunes_track_id := some (match best.trackId with | some ti => JVal.jint ti | none => JVal.jnull) }

/-- itunes_lookup of enrich_itunes.py after the HTTP call: score the decoded
results, reject when there is no best candidate or the best score is below
0.72, otherwise build the metadata dict.  (A transport failure in the source
returns None before this point; the run loop models the whole call as an
oracle that may also return none for that reason.) -/
def itunes_lookup (artist title : String) (results : List ITRes) : Option Meta :=
  if artist = "" || title = "" then none
  else
    let bs := itunesBest (norm_for_match artist) (norm_for_match title) results
    match bs.1 with
    | none => none
    | some best =>
      if flt bs.2 itunesAcceptThreshold then none else some (itunes_meta_of best)

/-! ## MusicBrainz artist scorer (enrich_artist_country.py, mb_lookup_country) -/

/-- An area sub-object of a MusicBrainz artist result; nonEmptyDict records
Python truthiness of the dict (a dict with any key at all is truthy; a dict
carrying ISO codes is in particular nonempty). -/
structure MBArea where
  isoCodes : List String
  nonEmptyDict : Bool
  deriving DecidableEq, Repr

/-- One decoded artist object of the MusicBrainz search response. -/
structure MBArtist where
  name : Option String
  score : Option Int
  country : Option String
  area : Option MBArea
  deriving DecidableEq, Repr

/-- 0.7, the similarity-ratio coefficient in
enrich_artist_country.mb_lookup_country. -/
def acRatioWeight : Frac := ⟨7, 10⟩

/-- 0.25, the MusicBrainz own-score coefficient in
enrich_artist_country.mb_lookup_country. -/
def acMbScoreWeight : Frac := ⟨25, 100⟩

/-- 0.05, the has-country bonus in enrich_artist_country.mb_lookup_country. -/
def acCountryBonus : Frac := ⟨5, 100⟩

/-- Python truthiness of an optional string. -/
def truthyStrOpt : Option String → Bool
  | none => false
  | some s => s ≠ ""

/-- Python truthiness of the area value (absent or null is falsy, a dict is
truthy when nonempty). -/
def areaTruthy : Option MBArea → Bool
  | none => false
  | some ar => ar.nonEmptyDict

/-- The candidate score of enrich_artist_country.mb_lookup_country:
0.7 * ratio + 0.25 * (score / 100) + 0.05 bonus when country or area present. -/
def ac_score (want : String) (a : MBArtist) : Frac :=
  fadd
    (fadd (fmul acRatioWeight (ratioF (norm_for_match (orEmpty a.name)) want))
      (fmul acMbScoreWeight ⟨(match a.score with | some n => n | none => 0), 100⟩))
    (if truthyStrOpt a.country || areaTruthy a.area then acCountryBonus else f0)

/-- The running-max scan of enrich_artist_country.mb_lookup_country. -/
def ac_best (want : String) (cands : List MBArtist) : Option MBArtist × Frac :=
  cands.foldl
    (fun (acc : Option MBArtist × Frac) a =>
      let s := ac_score want a
      if flt acc.2 s then (some a, s) else acc)
    (none, f0)

/-- Country extraction from the selected artist: the country field when
truthy, else the first ISO 3166-1 code of the area (absent area reads as the
empty dict), else none. -/
def ac_country_of (best : MBArtist) : Option String :=
  let codes := match best.area with
    | some ar => ar.isoCodes
    | none => []
  let fb : Option String := match codes with | c :: _ => some c | [] => none
  match best.country with
  | some c => if c ≠ "" then some c else fb
  | none => fb

/-- mb_lookup_country of enrich_artist_country.py after the HTTP call: pick
the best-scoring artist (the source has no score threshold here) and extract
its country code. -/
def mb_lookup_country (artist : String) (cands : List MBArtist) : Option String :=
  if artist = "" then none
  else
    match (ac_best (norm_for_match artist) cands).1 with
    | none => none
    | some best => ac_country_of best

/-! ## MusicBrainz artist scorer (enrich_musicbrainz.py, mb_lookup_country) -/

/-- 0.7, the similarity-ratio coefficient in
enrich_musicbrainz.mb_lookup_country. -/
def mbzRatioWeight : Frac := ⟨7, 10⟩

/-- 0.3, the MusicBrainz own-score coefficient in
enrich_musicbrainz.mb_lookup_country. -/
def mbzMbScoreWeight : Frac := ⟨3, 10⟩

/-- 0.05, the has-country bonus in enrich_musicbrainz.mb_lookup_country
(this variant checks only the country field). -/
def mbzCountryBonus : Frac := ⟨5, 100⟩

/-- The candidate score of enrich_musicbrainz.mb_lookup_country. -/
def mbz_score (want : String) (a : MBArtist) : Frac :=
  fadd
    (fadd (fmul mbzRatioWeight (ratioF (norm_mbz (orEmpty a.name)) want))
      (fmul mbzMbScoreWeight ⟨(match a.score with | some n => n | none => 0), 100⟩))
    (if truthyStrOpt a.country then mbzCountryBonus else f0)

/-- The running-max scan of enrich_musicbrainz.mb_lookup_country. -/
def mbz_best (want : String) (cands : List MBArtist) : Option MBArtist × Frac :=
  cands.foldl
    (fun (acc : Option MBArtist × Frac) a =>
      let s := mbz_score want a
      if flt acc.2 s then (some a, s) else acc)
    (none, f0)

/-- mb_lookup_country of enrich_musicbrainz.py after the HTTP call. -/
def mbz_lookup_country (artist : String) (cands : List MBArtist) : Option String :=
  if artist = "" then none
  else
    match (mbz_best (norm_mbz artist) cands).1 with
    | none => none
    | some best =>
      match best.country with
      | some c =>
        if c ≠ "" then some c
        else (match best.area with
          | some ar => (match ar.isoCodes with | c2 :: _ => some c2 | [] => none)
          | none => none)
      | none =>
        match best.area with
        | some ar => (match ar.isoCodes with | c2 :: _ => some c2 | [] => none)
        | none => none

/-! ## Playlist items and the field merge engine (enrich_itunes.py) -/

/-- The enrichable field names that enrich_items touches: META_KEYS plus
artist_country_code. -/
inductive MKey where
  | year | duration_ms | genre | album | track_number | artist_country_code
  deriving DecidableEq, Repr

/-- One playlist record as enrich_items sees it.  An enrichable field holds
none when the JSON object has no such key; some jnull when the key is present
with value null.  date and time are identity fields the loop never touches. -/
structure Item where
  date : String
  time : String
  artist : Option String
  title : Option String
  year : Option JVal
  duration_ms : Option JVal
  genre : Option JVal
  album : Option JVal
  track_number : Option JVal
  artist_country_code : Option JVal
  deriving DecidableEq, Repr

/-- item.get(k) for the enrichable keys. -/
def Item.getKey (it : Item) : MKey → Option JVal
  | .year => it.year
  | .duration_ms => it.duration_ms
  | .genre => it.genre
  | .album => it.album
  | .track_number => it.track_number
  | .artist_country_code => it.artist_country_code

/-- item[k] = v for the enrichable keys. -/
def Item.setKey (it : Item) : MKey → JVal → Item
  | .year, v => { it with year := some v }
  | .duration_ms, v => { it with duration_ms := some v }
  | .genre, v => { it with genre := some v }
  | .album, v => { it with album := some v }
  | .track_number, v => { it with track_number := some v }
  | .artist_country_code, v => { it with artist_country_code := some v }

/-- meta.get(k) on a cached metadata payload. -/
def Meta.getKey (m : Meta) : MKey → Option JVal
  | .year => m.year
  | .duration_ms => m.duration_ms
  | .genre => m.genre
  | .album => m.album
  | .track_number => m.track_number
  | .artist_country_code => m.artist_country_code

/-- META_KEYS of enrich_itunes.py, in source order. -/
def META_KEYS : List MKey :=
  [MKey.year, MKey.duration_ms, MKey.genre, MKey.album, MKey.track_number]

/-- The body of the _update_if_missing loop for one key. -/
def uimStep (meta : Meta) (acc : Item × Bool × Bool) (k : MKey) : Item × Bool × Bool :=
  if isMissingVal (acc.1.getKey k) then
    match meta.getKey k with
    | some v =>
      if srcSkip (some v) then acc
      else (acc.1.setKey k v, true, acc.2.2 || decide (v ≠ NFV))
    | none => acc
  else acc

/-- _update_if_missing of enrich_itunes.py: for each key, write meta[k] into
the item only when the current value is empty or the NOT_FOUND placeholder and
the fetched value is not empty; returns (item, changed_any, changed_real),
where changed_real is set only by a write of a value other than NOT_FOUND. -/
def update_if_missing (item : Item) (meta : Meta) (keys : List MKey) :
    Item × Bool × Bool :=
  keys.foldl (uimStep meta) (item, false, false)

/-- Python test "v in (None, :empty:)" on an item field (used by
_apply_not_found, which deliberately leaves the NOT_FOUND placeholder alone). -/
def isNoneOrEmpty : Option JVal → Bool := srcSkip

/-- The body of the _apply_not_found loop for one key. -/
def anfStep (it : Item) (k : MKey) : Item :=
  if isNoneOrEmpty (it.getKey k) then it.setKey k NFV else it

/-- _apply_not_found of enrich_itunes.py: stamp NOT_FOUND on every META key
that is currently absent, null or the empty string. -/
def apply_not_found (item : Item) : Item :=
  META_KEYS.foldl anfStep item

/-- _has_all_meta of enrich_itunes.py. -/
def has_all_meta (item : Item) : Bool :=
  META_KEYS.all (fun k => ¬ isMissingVal (item.getKey k))

/-- The still_missing computation inside enrich_items. -/
def still_missing (item : Item) : Bool :=
  META_KEYS.any (fun k => isMissingVal (item.getKey k))

/-- it.setdefault("artist_country_code", NOT_FOUND): writes only when the key
is absent; a key present with value null is left as null. -/
def setdefault_acc (item : Item) : Item :=
  match item.artist_country_code with
  | none => { item with artist_country_code := some NFV }
  | some _ => item

theorem getKey_setKey_same (it : Item) (k : MKey) (v : JVal) :
    (it.setKey k v).getKey k = some v := by
  cases k <;> rfl

theorem getKey_setKey_ne (it : Item) (k k' : MKey) (v : JVal) (h : k ≠ k') :
    (it.setKey k v).getKey k' = it.getKey k' := by
  cases k <;> cases k' <;> simp_all [Item.setKey, Item.getKey]

theorem setKey_self (it : Item) (k : MKey) (v : JVal) (h : it.getKey k = some v) :
    it.setKey k v = it := by
  cases it
  cases k <;> simp_all [Item.setKey, Item.getKey]

theorem setKey_artist (it : Item) (k : MKey) (v : JVal) :
    (it.setKey k v).artist = it.artist := by cases k <;> rfl

theorem setKey_title (it : Item) (k : MKey) (v : JVal) :
    (it.setKey k v).title = it.title := by cases k <;> rfl

theorem setKey_date (it : Item) (k : MKey) (v : JVal) :
    (it.setKey k v).date = it.date := by cases k <;> rfl

theorem setKey_time (it : Item) (k : MKey) (v : JVal) :
    (it.setKey k v).time = it.time := by cases k <;> rfl

theorem uimStep_other (meta : Meta) (acc : Item × Bool × Bool) (k k' : MKey)
    (h : k ≠ k') : ((uimStep meta acc k).1).getKey k' = acc.1.getKey k' := by
  unfold uimStep
  by_cases hm : isMissingVal (acc.1.getKey k) = true
  · simp only [hm, if_true]
    cases hv : meta.getKey k with
    | none => rfl
    | some v =>
      by_cases hs : srcSkip (some v) = true
      · simp [hs]
      · simp only [hs, Bool.false_eq_true, if_false]
        exact getKey_setKey_ne _ _ _ _ h
  · simp [hm]

theorem uimStep_preserve (meta : Meta) (acc : Item × Bool × Bool) (k k' : MKey)
    (h : isMissingVal (acc.1.getKey k') = false) :
    ((uimStep meta acc k).1).getKey k' = acc.1.getKey k' := by
  by_cases hk : k = k'
  · subst hk
    unfold uimStep
    simp [h]
  · exact uimStep_other meta acc k k' hk

theorem uimStep_cases (meta : Meta) (acc : Item × Bool × Bool) (k k' : MKey) :
    ((uimStep meta acc k).1).getKey k' = acc.1.getKey k' ∨
      (isMissingVal (acc.1.getKey k') = true ∧
        ((uimStep meta acc k).1).getKey k' = meta.getKey k' ∧
        srcSkip (meta.getKey k') = false) := by
  by_cases hk : k = k'
  · subst hk
    by_cases hm : isMissingVal (acc.1.getKey k) = true
    · cases hv : meta.getKey k with
      | none => left; unfold uimStep; simp [hm, hv]
      | some v =>
        by_cases hs : srcSkip (some v) = true
        · left; unfold uimStep; simp [hm, hv, hs]
        · right
          refine ⟨hm, ?_, ?_⟩
          · unfold uimStep
            simp [hm, hv, hs, getKey_setKey_same]
          · simpa [hv] using hs
    · left
      unfold uimStep
      simp [hm]
  · left; exact uimStep_other meta acc k k' hk

theorem uimFold_preserve (keys : List MKey) (meta : Meta) (acc : Item × Bool × Bool)
    (k : MKey) (h : isMissingVal (acc.1.getKey k) = false) :
    ((keys.foldl (uimStep meta) acc).1).getKey k = acc.1.getKey k := by
  induction keys generalizing acc with
  | nil => rfl
  | cons k0 rest ih =>
    have h1 := uimStep_preserve meta acc k0 k h
    rw [List.foldl_cons, ih (uimStep meta acc k0) (by rw [h1]; exact h), h1]

theorem uimFold_cases (keys : List MKey) (meta : Meta) (acc : Item × Bool × Bool)
    (k : MKey) :
    ((keys.foldl (uimStep meta) acc).1).getKey k = acc.1.getKey k ∨
      (isMissingVal (acc.1.getKey k) = true ∧
        ((keys.foldl (uimStep meta) acc).1).getKey k = meta.getKey k ∧
        srcSkip (meta.getKey k) = false) := by
  induction keys generalizing acc with
  | nil => left; rfl
  | cons k0 rest ih =>
    rw [List.foldl_cons]
    rcases uimStep_cases meta acc k0 k with h1 | ⟨hm, h1, hs⟩
    · rcases ih (uimStep meta acc k0) with h2 | ⟨hm2, h2, hs2⟩
      · left; rw [h2, h1]
      · right; exact ⟨by rw [h1] at hm2; exact hm2, h2, hs2⟩
    · rcases ih (uimStep meta acc k0) with h2 | ⟨hm2, h2, hs2⟩
      · right; exact ⟨hm, by rw [h2, h1], hs⟩
      · right; exact ⟨hm, h2, hs2⟩

theorem uimFold_write (keys : List MKey) (meta : Meta) (acc : Item × Bool × Bool)
    (k : MKey) (hmem : k ∈ keys) (hm : isMissingVal (acc.1.getKey k) = true)
    (hs : srcSkip (meta.getKey k) = false) :
    ((keys.foldl (uimStep meta) acc).1).getKey k = meta.getKey k := by
  induction keys generalizing acc with
  | nil => cases hmem
  | cons k0 rest ih =>
    rw [List.foldl_cons]
    by_cases hk : k0 = k
    · subst hk
      have hwrote : ((uimStep meta acc k0).1).getKey k0 = meta.getKey k0 := by
        unfold uimStep
        simp only [hm, if_true]
        cases hv : meta.getKey k0 with
        | none => rw [hv] at hs; simp [srcSkip] at hs
        | some v =>
          have : srcSkip (some v) = false := by rw [hv] at hs; exact hs
          simp only [this, Bool.false_eq_true, if_false]
          simp [getKey_setKey_same]
      rcases uimFold_cases rest meta (uimStep meta acc k0) k0 with h2 | ⟨_, h2, _⟩
      · rw [h2, hwrote]
      · exact h2
    · have hmem2 : k ∈ rest := by
        rcases List.mem_cons.mp hmem with h | h
        · exact absurd h.symm hk
        · exact h
      have h1 := uimStep_other meta acc k0 k hk
      exact ih (uimStep meta acc k0) hmem2 (by rw [h1]; exact hm)

/-- Compatibility of a metadata payload with an item: every still-missing key
of the item is either skipped by the payload or is the NOT_FOUND placeholder
on both sides.  update_if_missing leaves such an item unchanged. -/
def Compat (meta : Meta) (it : Item) (keys : List MKey) : Prop :=
  ∀ k ∈ keys, isMissingVal (it.getKey k) = true →
    srcSkip (meta.getKey k) = true ∨
      (meta.getKey k = some NFV ∧ it.getKey k = some NFV)

theorem uimFold_compat_id (keys : List MKey) (meta : Meta) (acc : Item × Bool × Bool)
    (h : ∀ k ∈ keys, isMissingVal (acc.1.getKey k) = true →
      srcSkip (meta.getKey k) = true ∨
        (meta.getKey k = some NFV ∧ acc.1.getKey k = some NFV)) :
    ((keys.foldl (uimStep meta) acc).1) = acc.1 := by
  induction keys generalizing acc with
  | nil => rfl
  | cons k0 rest ih =>
    rw [List.foldl_cons]
    have hstep : ((uimStep meta acc k0).1) = acc.1 := by
      unfold uimStep
      by_cases hm : isMissingVal (acc.1.getKey k0) = true
      · simp only [hm, if_true]
        rcases h k0 (List.mem_cons_self k0 rest) hm with hskip | ⟨hnf, hcur⟩
        · cases hv : meta.getKey k0 with
          | none => rfl
          | some v =>
            have : srcSkip (some v) = true := by rw [hv] at hskip; exact hskip
            simp [this]
        · rw [hnf]
          have : srcSkip (some NFV) = false := by decide
          simp only [this, Bool.false_eq_true, if_false]
          simp [setKey_self acc.1 k0 NFV hcur]
      · simp [hm]
    have hrest : ∀ k ∈ rest, isMissingVal ((uimStep meta acc k0).1.getKey k) = true →
        srcSkip (meta.getKey k) = true ∨
          (meta.getKey k = some NFV ∧ (uimStep meta acc k0).1.getKey k = some NFV) := by
      intro k hk hmk
      rw [hstep] at hmk ⊢
      exact h k (List.mem_cons_of_mem k0 hk) hmk
    rw [ih (uimStep meta acc k0) hrest, hstep]

theorem uimFold_real_flag (keys : List MKey) (meta : Meta) (acc : Item × Bool × Bool)
    (h : (keys.foldl (uimStep meta) acc).2.2 = true) :
    acc.2.2 = true ∨
      ∃ k ∈ keys, ∃ v, meta.getKey k = some v ∧ srcSkip (some v) = false ∧
        v ≠ NFV ∧ ((keys.foldl (uimStep meta) acc).1).getKey k = some v := by
  induction keys generalizing acc with
  | nil => left; exact h
  | cons k0 rest ih =>
    rw [List.foldl_cons] at h
    rcases ih (uimStep meta acc k0) h with h2 | ⟨k, hk, v, hv, hs, hnf, hres⟩
    · by_cases hm : isMissingVal (acc.1.getKey k0) = true
      · cases hv : meta.getKey k0 with
        | none =>
          left
          have : uimStep meta acc k0 = acc := by unfold uimStep; simp [hm, hv]
          rw [this] at h2; exact h2
        | some v =>
          by_cases hs : srcSkip (some v) = true
          · left
            have : uimStep meta acc k0 = acc := by unfold uimStep; simp [hm, hv, hs]
            rw [this] at h2; exact h2
          · have hflag : (uimStep meta acc k0).2.2 = (acc.2.2 || decide (v ≠ NFV)) := by
              unfold uimStep; simp [hm, hv, hs]
            rw [hflag] at h2
            rcases Bool.or_eq_true_iff.mp h2 with ha | hb
            · left; exact ha
            · right
              refine ⟨k0, List.mem_cons_self k0 rest, v, hv, by simpa using hs, of_decide_eq_true hb, ?_⟩
              have hwrote : ((uimStep meta acc k0).1).getKey k0 = some v := by
                unfold uimStep
                simp only [hm, if_true, hv]
                simp only [hs, Bool.false_eq_true, if_false]
                simp [getKey_setKey_same]
              rw [List.foldl_cons]
              rcases uimFold_cases rest meta (uimStep meta acc k0) k0 with hc | ⟨_, hc, _⟩
              · rw [hc, hwrote]
              · rw [hc, hv]
      · left
        have : uimStep meta acc k0 = acc := by unfold uimStep; simp [hm]
        rw [this] at h2; exact h2
    · right
      exact ⟨k, List.mem_cons_of_mem k0 hk, v, hv, hs, hnf, by rw [List.foldl_cons]; exact hres⟩

theorem anfStep_cases (it : Item) (k k' : MKey) :
    (anfStep it k).getKey k' = it.getKey k' ∨
      (isNoneOrEmpty (it.getKey k') = true ∧ (anfStep it k).getKey k' = some NFV) := by
  by_cases hk : k = k'
  · subst hk
    by_cases hm : isNoneOrEmpty (it.getKey k) = true
    · right
      refine ⟨hm, ?_⟩
      unfold anfStep
      simp [hm, getKey_setKey_same]
    · left
      unfold anfStep
      simp [hm]
  · left
    unfold anfStep
    by_cases hm : isNoneOrEmpty (it.getKey k) = true
    · simp only [hm, if_true]
      exact getKey_setKey_ne _ _ _ _ hk
    · simp [hm]

theorem anfStep_preserve (it : Item) (k k' : MKey)
    (h : isNoneOrEmpty (it.getKey k') = false) :
    (anfStep it k).getKey k' = it.getKey k' := by
  rcases anfStep_cases it k k' with h1 | ⟨hm, _⟩
  · exact h1
  · rw [hm] at h; cases h

theorem anfFold_cases (keys : List MKey) (it : Item) (k : MKey) :
    (keys.foldl anfStep it).getKey k = it.getKey k ∨
      (isNoneOrEmpty (it.getKey k) = true ∧
        (keys.foldl anfStep it).getKey k = some NFV) := by
  induction keys generalizing it with
  | nil => left; rfl
  | cons k0 rest ih =>
    rw [List.foldl_cons]
    rcases anfStep_cases it k0 k with h1 | ⟨hm, h1⟩
    · rcases ih (anfStep it k0) with h2 | ⟨hm2, h2⟩
      · left; rw [h2, h1]
      · right; exact ⟨by rw [h1] at hm2; exact hm2, h2⟩
    · rcases ih (anfStep it k0) with h2 | ⟨hm2, h2⟩
      · right
        refine ⟨hm, ?_⟩
        rw [h2, h1]
      · right; exact ⟨hm, h2⟩

theorem anfFold_write (keys : List MKey) (it : Item) (k : MKey) (hmem : k ∈ keys)
    (hm : isNoneOrEmpty (it.getKey k) = true) :
    (keys.foldl anfStep it).getKey k = some NFV := by
  induction keys generalizing it with
  | nil => cases hmem
  | cons k0 rest ih =>
    rw [List.foldl_cons]
    by_cases hk : k0 = k
    · subst hk
      have hwrote : (anfStep it k0).getKey k0 = some NFV := by
        unfold anfStep
        simp [hm, getKey_setKey_same]
      rcases anfFold_cases rest (anfStep it k0) k0 with h2 | ⟨_, h2⟩
      · rw [h2, hwrote]
      · exact h2
    · have hmem2 : k ∈ rest := by
        rcases List.mem_cons.mp hmem with h | h
        · exact absurd h.symm hk
        · exact h
      have h1 : (anfStep it k0).getKey k = it.getKey k := by
        unfold anfStep
        by_cases hm0 : isNoneOrEmpty (it.getKey k0) = true
        · simp only [hm0, if_true]
          exact getKey_setKey_ne _ _ _ _ hk
        · simp [hm0]
      exact ih (anfStep it k0) hmem2 (by rw [h1]; exact hm)

theorem anfFold_id (keys : List MKey) (it : Item)
    (h : ∀ k ∈ keys, isNoneOrEmpty (it.getKey k) = false) :
    keys.foldl anfStep it = it := by
  induction keys with
  | nil => rfl
  | cons k0 rest ih =>
    rw [List.foldl_cons]
    have hstep : anfStep it k0 = it := by
      unfold anfStep
      simp [h k0 (List.mem_cons_self k0 rest)]
    rw [hstep]
    exact ih (fun k hk => h k (List.mem_cons_of_mem k0 hk))

theorem anfFold_artist (keys : List MKey) (it : Item) :
    (keys.foldl anfStep it).artist = it.artist := by
  induction keys generalizing it with
  | nil => rfl
  | cons k0 rest ih =>
    rw [List.foldl_cons, ih (anfStep it k0)]
    unfold anfStep
    by_cases hm : isNoneOrEmpty (it.getKey k0) = true
    · simp [hm, setKey_artist]
    · simp [hm]

theorem anfFold_title (keys : List MKey) (it : Item) :
    (keys.foldl anfStep it).title = it.title := by
  induction keys generalizing it with
  | nil => rfl
  | cons k0 rest ih =>
    rw [List.foldl_cons, ih (anfStep it k0)]
    unfold anfStep
    by_cases hm : isNoneOrEmpty (it.getKey k0) = true
    · simp [hm, setKey_title]
    · simp [hm]

theorem uimFold_artist (keys : List MKey) (meta : Meta) (acc : Item × Bool × Bool) :
    ((keys.foldl (uimStep meta) acc).1).artist = acc.1.artist := by
  induction keys generalizing acc with
  | nil => rfl
  | cons k0 rest ih =>
    rw [List.foldl_cons, ih (uimStep meta acc k0)]
    unfold uimStep
    by_cases hm : isMissingVal (acc.1.getKey k0) = true
    · simp only [hm, if_true]
      cases hv : meta.getKey k0 with
      | none => rfl
      | some v =>
        by_cases hs : srcSkip (some v) = true
        · simp [hs]
        · simp [hs, setKey_artist]
    · simp [hm]

theorem uimFold_title (keys : List MKey) (meta : Meta) (acc : Item × Bool × Bool) :
    ((keys.foldl (uimStep meta) acc).1).title = acc.1.title := by
  induction keys generalizing acc with
  | nil => rfl
  | cons k0 rest ih =>
    rw [List.foldl_cons, ih (uimStep meta acc k0)]
    unfold uimStep
    by_cases hm : isMissingVal (acc.1.getKey k0) = true
    · simp only [hm, if_true]
      cases hv : meta.getKey k0 with
      | none => rfl
      | some v =>
        by_cases hs : srcSkip (some v) = true
        · simp [hs]
        · simp [hs, setKey_title]
    · simp [hm]

theorem setdefault_acc_meta (it : Item) (k : MKey) (h : k ≠ MKey.artist_country_code) :
    (setdefault_acc it).getKey k = it.getKey k := by
  unfold setdefault_acc
  cases hacc : it.artist_country_code with
  | none => cases k <;> simp_all [Item.getKey]
  | some v => rfl

theorem setdefault_acc_acc (it : Item) :
    (setdefault_acc it).artist_country_code =
      (match it.artist_country_code with
       | none => some NFV
       | some v => some v) := by
  unfold setdefault_acc
  cases hacc : it.artist_country_code with
  | none => simp [hacc]
  | some v => simp [hacc]

theorem setdefault_acc_id (it : Item) (h : it.artist_country_code ≠ none) :
    setdefault_acc it = it := by
  unfold setdefault_acc
  cases hacc : it.artist_country_code with
  | none => exact absurd hacc h
  | some v => rfl

theorem setdefault_acc_artist (it : Item) :
    (setdefault_acc it).artist = it.artist := by
  unfold setdefault_acc
  cases it.artist_country_code <;> rfl

theorem setdefault_acc_title (it : Item) :
    (setdefault_acc it).title = it.title := by
  unfold setdefault_acc
  cases it.artist_country_code <;> rfl

/-! ## Python dicts as association lists -/

/-- dict.get(k): the stored value, or none when the key is absent. -/
def cacheGet {α : Type} (c : List (String × α)) (k : String) : Option α :=
  match c.find? (fun p => p.1 = k) with
  | some p => some p.2
  | none => none

/-- dict[k] = v: replace in place, else append (insertion order kept, as in a
Python dict). -/
def cacheSet {α : Type} : List (String × α) → String → α → List (String × α)
  | [], k, v => [(k, v)]
  | (k0, v0) :: rest, k, v =>
    if k0 = k then (k0, v) :: rest else (k0, v0) :: cacheSet rest k v

theorem cacheGet_set_same {α : Type} (c : List (String × α)) (k : String) (v : α) :
    cacheGet (cacheSet c k v) k = some v := by
  induction c with
  | nil => simp [cacheSet, cacheGet, List.find?]
  | cons p rest ih =>
    obtain ⟨k0, v0⟩ := p
    by_cases hk : k0 = k
    · subst hk
      simp [cacheSet, cacheGet, List.find?]
    · simp only [cacheSet, hk, if_false]
      unfold cacheGet at ih ⊢
      simp only [List.find?]
      have : (decide (k0 = k)) = false := by simp [hk]
      rw [this]
      exact ih

theorem cacheGet_set_ne {α : Type} (c : List (String × α)) (k k' : String) (v : α)
    (h : k ≠ k') : cacheGet (cacheSet c k v) k' = cacheGet c k' := by
  induction c with
  | nil => simp [cacheSet, cacheGet, List.find?, h]
  | cons p rest ih =>
    obtain ⟨k0, v0⟩ := p
    by_cases hk : k0 = k
    · subst hk
      have : (decide (k0 = k')) = false := by simp [h]
      simp [cacheSet, cacheGet, List.find?, this]
    · simp only [cacheSet, hk, if_false]
      unfold cacheGet at ih ⊢
      simp only [List.find?]
      cases hd : decide (k0 = k') with
      | true => rfl
      | false => exact ih

/-! ## The enrich_artist_country loop (enrich_artist_country.py) -/

/-- A value stored in artist_cache.json: a string (a country code, the
CACHE_MISS sentinel, or the empty string) or any other JSON value; the loop
tests the latter with isinstance and falls through to a fresh lookup. -/
inductive CVal where
  | str (s : String) : CVal
  | other : CVal
  deriving DecidableEq, Repr

/-- A playlist record as enrich_artist_country sees it: the artist identity
field, the artist_country field it maintains, and an opaque remainder the loop
never touches. -/
structure ACItem where
  artist : Option String
  artist_country : Option String
  extra : String
  deriving DecidableEq, Repr

/-- The loop state: the cache dict (mutated in place in the source), and the
enriched and lookups counters returned by enrich_artist_country. -/
structure ACState where
  cache : List (String × CVal)
  enriched : Nat
  lookups : Nat
  deriving DecidableEq, Repr

/-- it.get("artist_country") not in (None, :empty:, NOT_FOUND). -/
def acResolved : Option String → Bool
  | none => false
  | some s => s ≠ "" && s ≠ NOT_FOUND

/-- The lookup tail of one iteration of enrich_artist_country (from the budget
check onwards): on exhausted budget stamp NOT_FOUND and leave cache untouched;
otherwise call the oracle (mb_lookup_country over the network), count the
lookup, and store either the country or the CACHE_MISS sentinel. -/
def acStepLookup (oracle : String → Option String) (limit : Nat)
    (s : ACState) (it : ACItem) (artist key : String) : ACItem × ACState :=
  if limit ≤ s.lookups then ({ it with artist_country := some NOT_FOUND }, s)
  else
    let s1 : ACState := { s with lookups := s.lookups + 1 }
    match oracle artist with
    | some c =>
      if c ≠ "" then
        ({ it with artist_country := some c },
          { s1 with cache := cacheSet s1.cache key (CVal.str c),
                    enriched := s1.enriched + 1 })
      else
        ({ it with artist_country := some NOT_FOUND },
          { s1 with cache := cacheSet s1.cache key (CVal.str CACHE_MISS) })
    | none =>
      ({ it with artist_country := some NOT_FOUND },
        { s1 with cache := cacheSet s1.cache key (CVal.str CACHE_MISS) })

/-- One iteration of the enrich_artist_country loop body. -/
def acStep (oracle : String → Option String) (limit : Nat) (force : Bool)
    (s : ACState) (it : ACItem) : ACItem × ACState :=
  if ¬ force ∧ acResolved it.artist_country then (it, s)
  else
    let artist := pyStrip (orEmpty it.artist)
    if artist = "" then ({ it with artist_country := some NOT_FOUND }, s)
    else
      let key := cache_key_artist artist
      let state := cacheGet s.cache key
      if state = some (CVal.str CACHE_MISS) ∧ ¬ force then
        ({ it with artist_country := some NOT_FOUND }, s)
      else
        match state with
        | some (CVal.str v) =>
          if v ≠ CACHE_MISS ∧ v ≠ "" then ({ it with artist_country := some v }, s)
          else acStepLookup oracle limit s it artist key
        | _ => acStepLookup oracle limit s it artist key

/-- The enrich_artist_country loop over the item list. -/
def acRun (oracle : String → Option String) (limit : Nat) (force : Bool) :
    ACState → List ACItem → List ACItem × ACState
  | s, [] => ([], s)
  | s, it :: rest =>
    let r := acStep oracle limit force s it
    let r2 := acRun oracle limit force r.2 rest
    (r.1 :: r2.1, r2.2)

/-- enrich_artist_country of enrich_artist_country.py: both counters start at
zero; email and pause only shape the HTTP call and the sleep, which live
inside the oracle here. -/
def enrich_artist_country (items : List ACItem) (cache : List (String × CVal))
    (limit : Nat) (force : Bool) (oracle : String → Option String) :
    List ACItem × ACState :=
  acRun oracle limit force ⟨cache, 0, 0⟩ items

/-! ## The artist-country portion of main (enrich_musicbrainz.py)

The songwriters block of the same loop never reads or writes the
artist_country map or the artist_country_code field, so the claims about that
map are decided by this portion alone (lines 299 to 337 of the source). -/

/-- A playlist record as the country portion of enrich_musicbrainz.main sees
it.  artist_country_code and the legacy artist_country distinguish an absent
key (outer none) from a null value (some none). -/
structure MbzItem where
  artist : Option String
  title : Option String
  artist_country_code : Option (Option String)
  artist_country : Option (Option String)
  deriving DecidableEq, Repr

/-- The state of the country portion: the public artist map
(artist_country.json, values null or a country string) and the two counters. -/
structure MbzState where
  artistMap : List (String × Option String)
  lookups : Nat
  enriched : Nat
  deriving DecidableEq, Repr

/-- str.lower on the ASCII strings compared against "not found". -/
def lowerAscii (s : String) : String :=
  String.mk (s.data.map Char.toLower)

/-- The migration prologue of the loop body: move a legacy artist_country
value into artist_country_code when that key is absent (normalising a literal
"Not found" to null and dropping the legacy key), then normalise a literal
"Not found" in artist_country_code to null. -/
def mbzMigrate (it : MbzItem) : MbzItem :=
  let it1 :=
    if it.artist_country_code = none ∧ it.artist_country ≠ none then
      match it.artist_country with
      | some v =>
        let v2 := match v with
          | some str => if lowerAscii (pyStrip str) = "not found" then none else some str
          | none => none
        { it with artist_country_code := some v2, artist_country := none }
      | none => it
    else it
  match it1.artist_country_code with
  | some (some str) =>
    if lowerAscii (pyStrip str) = "not found" then
      { it1 with artist_country_code := some none }
    else it1
  | _ => it1

/-- The country block of one iteration of the enrich_musicbrainz.main loop:
public-map hit first, then a budget-guarded MusicBrainz lookup, else stamp
null; in the stamping branch an artist not yet in the map is written into the
map as null even though no lookup was performed. -/
def mbzCountryStep (oracle : String → Option String) (limit : Nat)
    (s : MbzState) (it0 : MbzItem) : MbzItem × MbzState :=
  let artistRaw := pyStrip (orEmpty it0.artist)
  let it := mbzMigrate it0
  if it.artist_country_code = none ∨ it.artist_country_code = some none ∨
      it.artist_country_code = some (some "") then
    if artistRaw ≠ "" ∧ (cacheGet s.artistMap artistRaw).isSome then
      let mapVal : Option String :=
        match cacheGet s.artistMap artistRaw with
        | some v => v
        | none => none
      ({ it with artist_country_code := some mapVal }, s)
    else if artistRaw ≠ "" ∧ s.lookups < limit then
      let country := oracle artistRaw
      ({ it with artist_country_code := some country },
        { artistMap := cacheSet s.artistMap artistRaw country,
          lookups := s.lookups + 1,
          enriched := s.enriched + (if truthyStrOpt country then 1 else 0) })
    else
      ({ it with artist_country_code := some none },
        { s with artistMap :=
            if artistRaw ≠ "" ∧ cacheGet s.artistMap artistRaw = none then
              cacheSet s.artistMap artistRaw none
            else s.artistMap })
  else (it, s)

/-- The country portion of the enrich_musicbrainz.main loop over the items. -/
def mbzCountryRun (oracle : String → Option String) (limit : Nat) :
    MbzState → List MbzItem → List MbzItem × MbzState
  | s, [] => ([], s)
  | s, it :: rest =>
    let r := mbzCountryStep oracle limit s it
    let r2 := mbzCountryRun oracle limit r.2 rest
    (r.1 :: r2.1, r2.2)

/-! ## The enrich_items loop (enrich_itunes.py) -/

/-- A value stored in the enrich_itunes caches: the CACHE_MISS sentinel or a
metadata payload (any other stored value would crash the source on access,
so the model carries exactly these two forms). -/
inductive ICVal where
  | miss : ICVal
  | meta (m : Meta) : ICVal
  deriving DecidableEq, Repr

/-- The enrich_items loop state: both caches, both lookup counters, the
changed-items counter, and the two enriched id sets (indices stand in for the
Python object ids). -/
structure ItState where
  itCache : List (String × ICVal)
  mbCache : List (String × ICVal)
  itLookups : Nat
  mbLookups : Nat
  changedItems : Nat
  enrichedIt : List Nat
  enrichedMb : List Nat
  deriving DecidableEq, Repr

/-- set.add on the id sets. -/
def idInsert (l : List Nat) (i : Nat) : List Nat :=
  if i ∈ l then l else i :: l

/-- The budget-guarded iTunes lookup attempt inside the iTunes phase. -/
def itunesTry (itF : String → String → Option Meta) (itLimit : Nat) (idx : Nat)
    (s : ItState) (it0 : Item) (artist title key : String) : Item × ItState :=
  if s.itLookups < itLimit then
    let s1 := { s with itLookups := s.itLookups + 1 }
    match itF artist title with
    | some m =>
      let s2 := { s1 with itCache := cacheSet s1.itCache key (ICVal.meta m) }
      let r := update_if_missing it0 m META_KEYS
      (r.1,
        { s2 with
          changedItems := s2.changedItems + (if r.2.1 then 1 else 0),
          enrichedIt := if r.2.2 then idInsert s2.enrichedIt idx else s2.enrichedIt })
    | none => (it0, { s1 with itCache := cacheSet s1.itCache key ICVal.miss })
  else (it0, s)

/-- The iTunes phase of one enrich_items iteration: skipped when all META
fields are already present (unless force); a cached CACHE_MISS passes, a
cached payload is merged, an absent key attempts a lookup. -/
def itunesPhase (itF : String → String → Option Meta) (itLimit : Nat)
    (force : Bool) (idx : Nat) (s : ItState) (it0 : Item)
    (artist title key : String) : Item × ItState :=
  if force || ¬ has_all_meta it0 then
    match cacheGet s.itCache key with
    | some ICVal.miss =>
      if ¬ force then (it0, s)
      else itunesTry itF itLimit idx s it0 artist title key
    | none => itunesTry itF itLimit idx s it0 artist title key
    | some (ICVal.meta m) =>
      if force then itunesTry itF itLimit idx s it0 artist title key
      else
        let r := update_if_missing it0 m META_KEYS
        (r.1,
          { s with
            changedItems := s.changedItems + (if r.2.1 then 1 else 0),
            enrichedIt := if r.2.2 then idInsert s.enrichedIt idx else s.enrichedIt })
  else (it0, s)

/-- The budget-guarded MusicBrainz fallback lookup attempt. -/
def mbTry (mbF : String → String → Option Meta) (mbLimit : Nat) (idx : Nat)
    (s : ItState) (it1 : Item) (artist title key : String) : Item × ItState :=
  if s.mbLookups < mbLimit then
    let s1 := { s with mbLookups := s.mbLookups + 1 }
    match mbF artist title with
    | some m =>
      let s2 := { s1 with mbCache := cacheSet s1.mbCache key (ICVal.meta m) }
      let ra := update_if_missing it1 m META_KEYS
      let rb := update_if_missing ra.1 m [MKey.artist_country_code]
      (rb.1,
        { s2 with
          changedItems := s2.changedItems + (if ra.2.1 || rb.2.1 then 1 else 0),
          enrichedMb := if ra.2.2 || rb.2.2 then idInsert s2.enrichedMb idx else s2.enrichedMb })
    | none =>
      (setdefault_acc it1, { s1 with mbCache := cacheSet s1.mbCache key ICVal.miss })
  else (setdefault_acc it1, s)

/-- The MusicBrainz fallback phase of one enrich_items iteration. -/
def mbPhase (mbF : String → String → Option Meta) (mbLimit : Nat) (force : Bool)
    (idx : Nat) (s : ItState) (it1 : Item) (artist title key : String) :
    Item × ItState :=
  if still_missing it1 || isMissingVal it1.artist_country_code || force then
    match cacheGet s.mbCache key with
    | some ICVal.miss =>
      if ¬ force then (setdefault_acc it1, s)
      else mbTry mbF mbLimit idx s it1 artist title key
    | none => mbTry mbF mbLimit idx s it1 artist title key
    | some (ICVal.meta m) =>
      if force then mbTry mbF mbLimit idx s it1 artist title key
      else
        let ra := update_if_missing it1 m META_KEYS
        let rb := update_if_missing ra.1 m [MKey.artist_country_code]
        (rb.1,
          { s with
            changedItems := s.changedItems + (if ra.2.1 || rb.2.1 then 1 else 0),
            enrichedMb := if ra.2.2 || rb.2.2 then idInsert s.enrichedMb idx else s.enrichedMb })
  else (it1, s)

/-- The META-field tuple whose JSON dump the source compares around
_apply_not_found; on the values involved, dump equality coincides with
field-tuple equality. -/
def metaFields (it : Item) : List (Option JVal) :=
  META_KEYS.map it.getKey

/-- The closing lines of one enrich_items iteration: stamp NOT_FOUND on any
still-empty META field, counting the item as changed when that altered it,
then setdefault the artist_country_code key. -/
def finishStep (s : ItState) (it2 : Item) : Item × ItState :=
  let r :=
    if ¬ has_all_meta it2 then
      let it3 := apply_not_found it2
      (it3,
        if metaFields it3 ≠ metaFields it2 then
          { s with changedItems := s.changedItems + 1 }
        else s)
    else (it2, s)
  (setdefault_acc r.1, r.2)

/-- One iteration of the enrich_items loop body. -/
def enrichStep (itF mbF : String → String → Option Meta) (itLimit mbLimit : Nat)
    (force : Bool) (idx : Nat) (s : ItState) (it0 : Item) : Item × ItState :=
  let artist := pyStrip (orEmpty it0.artist)
  let title := pyStrip (orEmpty it0.title)
  if artist = "" ∨ title = "" then
    (setdefault_acc (apply_not_found it0), s)
  else
    let key := cache_key artist title
    let r1 := itunesPhase itF itLimit force idx s it0 artist title key
    let r2 := mbPhase mbF mbLimit force idx r1.2 r1.1 artist title key
    finishStep r2.2 r2.1

/-- The enrich_items loop over the item list (idx stands in for id(it)). -/
def enrichRunAux (itF mbF : String → String → Option Meta)
    (itLimit mbLimit : Nat) (force : Bool) :
    Nat → ItState → List Item → List Item × ItState
  | _, s, [] => ([], s)
  | idx, s, it :: rest =>
    let r := enrichStep itF mbF itLimit mbLimit force idx s it
    let r2 := enrichRunAux itF mbF itLimit mbLimit force (idx + 1) r.2 rest
    (r.1 :: r2.1, r2.2)

/-- enrich_items of enrich_itunes.py: all counters start at zero; the two
oracles stand for itunes_lookup and mb_lookup_fallback over the network. -/
def enrich_items (items : List Item) (itCache mbCache : List (String × ICVal))
    (itLimit mbLimit : Nat) (force : Bool)
    (itF mbF : String → String → Option Meta) : List Item × ItState :=
  enrichRunAux itF mbF itLimit mbLimit force 0
    ⟨itCache, mbCache, 0, 0, 0, [], []⟩ items

/-! ## merge_dedup (scraper.py) -/

/-- One scraped playlist record: the four key fields of unique_key, plus an
opaque remainder (track_url and friends) that distinguishes records with
equal keys. -/
structure PlayRec where
  date : String
  time : String
  artist : String
  title : String
  extra : String
  deriving DecidableEq, Repr

/-- unique_key of scraper.py: date, time, artist and title glued together. -/
def unique_key (it : PlayRec) : String :=
  it.date ++ " " ++ it.time ++ " | " ++ it.artist ++ " | " ++ it.title

/-- Digit value of an ASCII digit character. -/
def digitVal (c : Char) : Nat := c.toNat - ('0').toNat

/-- A one-or-two-digit numeric field of strptime: two digits must land in
[min2, max2] (with no one-digit fallback possible, since the next character
is a digit), one digit must be at least min1. -/
def parseNum2 (min2 max2 min1 : Nat) : List Char → Option (Nat × List Char)
  | c1 :: c2 :: rest =>
    if c1.isDigit && c2.isDigit then
      let v := digitVal c1 * 10 + digitVal c2
      if min2 ≤ v ∧ v ≤ max2 then some (v, rest) else none
    else if c1.isDigit then
      let v := digitVal c1
      if min1 ≤ v then some (v, c2 :: rest) else none
    else none
  | [c1] =>
    if c1.isDigit then
      let v := digitVal c1
      if min1 ≤ v then some (v, ([] : List Char)) else none
    else none
  | [] => none

/-- The four-digit year field of strptime. -/
def parseYear4 : List Char → Option (Nat × List Char)
  | c1 :: c2 :: c3 :: c4 :: rest =>
    if c1.isDigit && c2.isDigit && c3.isDigit && c4.isDigit then
      some (digitVal c1 * 1000 + digitVal c2 * 100 + digitVal c3 * 10 + digitVal c4, rest)
    else none
  | _ => none

/-- A literal separator character of the format string. -/
def expectChar (ch : Char) : List Char → Option (List Char)
  | c :: rest => if c = ch then some rest else none
  | [] => none

/-- Gregorian leap year, as datetime validates it. -/
def isLeap (y : Nat) : Bool :=
  (y % 4 = 0 && y % 100 ≠ 0) || y % 400 = 0

/-- Days in a month, as datetime validates day-of-month. -/
def daysInMonth (y m : Nat) : Nat :=
  if m = 2 then (if isLeap y then 29 else 28)
  else if m = 4 ∨ m = 6 ∨ m = 9 ∨ m = 11 then 30
  else 31

/-- datetime.strptime(s, "%d.%m.%Y %H:%M") followed by the datetime
constructor checks: day bounded by the month length, year at least 1, and no
unconverted trailing input. -/
def parseDT (s : String) : Option (Nat × Nat × Nat × Nat × Nat) :=
  (parseNum2 1 31 1 s.data).bind fun p1 =>
  (expectChar '.' p1.2).bind fun r2 =>
  (parseNum2 1 12 1 r2).bind fun p2 =>
  (expectChar '.' p2.2).bind fun r4 =>
  (parseYear4 r4).bind fun p3 =>
  (expectChar ' ' p3.2).bind fun r6 =>
  (parseNum2 0 23 0 r6).bind fun p4 =>
  (expectChar ':' p4.2).bind fun r8 =>
  (parseNum2 0 59 0 r8).bind fun p5 =>
  if p5.2 = [] ∧ 1 ≤ p3.1 ∧ p1.1 ≤ daysInMonth p3.1 p2.1 then
    some (p3.1, p2.1, p1.1, p4.1, p5.1)
  else none

/-- Injective monotone encoding of (year, month, day, hour, minute) into Nat
(each later component stays below its radix). -/
def dtKey (t : Nat × Nat × Nat × Nat × Nat) : Nat :=
  (((t.1 * 16 + t.2.1) * 32 + t.2.2.1) * 32 + t.2.2.2.1) * 64 + t.2.2.2.2

/-- datetime.min, the sort key of an unparseable timestamp. -/
def datetimeMin : Nat × Nat × Nat × Nat × Nat := (1, 1, 1, 0, 0)

/-- The sort_key closure of merge_dedup: parse "date time", defaulting to
datetime.min on any failure. -/
def sort_key (it : PlayRec) : Nat :=
  match parseDT (it.date ++ " " ++ it.time) with
  | some t => dtKey t
  | none => dtKey datetimeMin

/-- seen[key] = value on the record dict: a later record with an existing key
replaces the stored record in place (dict semantics). -/
def dictInsertRec : List PlayRec → PlayRec → List PlayRec
  | [], it => [it]
  | x :: rest, it =>
    if unique_key x = unique_key it then it :: rest else x :: dictInsertRec rest it

/-- The second loop of merge_dedup: append each new record whose key is
unseen, counting the additions. -/
def addNew : List PlayRec → List PlayRec → Nat → List PlayRec × Nat
  | seen, [], added => (seen, added)
  | seen, it :: rest, added =>
    if seen.any (fun x => unique_key x = unique_key it) then addNew seen rest added
    else addNew (seen ++ [it]) rest (added + 1)

/-- Descending comparison on the parsed timestamps, the order of
merged.sort(key=sort_key, reverse=True). -/
def recGE (a b : PlayRec) : Prop := sort_key b ≤ sort_key a

instance : DecidableRel recGE :=
  fun a b => inferInstanceAs (Decidable (sort_key b ≤ sort_key a))

instance : IsTotal PlayRec recGE :=
  ⟨fun a b => (Nat.le_total (sort_key b) (sort_key a)).imp id id⟩

instance : IsTrans PlayRec recGE :=
  ⟨fun _ _ _ hab hbc => Nat.le_trans hbc hab⟩

/-- merge_dedup of scraper.py: build the dict over old (later duplicate keys
overwrite in place), append unseen new records counting them, then sort in
descending timestamp order.  Python uses a stable sort; insertionSort is also
stable, and no statement below depends on the order of equal keys. -/
def merge_dedup (old new : List PlayRec) : List PlayRec × Nat :=
  let seen := old.foldl dictInsertRec []
  let r := addNew seen new 0
  (List.insertionSort recGE r.1, r.2)

/-! ## Frac ordering facts used by the scorer claims -/

theorem flt_trans (x y z : Frac) (hx : 0 < x.den) (hy : 0 < y.den) (hz : 0 < z.den)
    (h1 : flt x y = true) (h2 : flt y z = true) : flt x z = true := by
  unfold flt at h1 h2 ⊢
  rw [decide_eq_true_iff] at h1 h2 ⊢
  nlinarith [mul_pos hx hz, mul_pos hx hy, mul_pos hy hz]

theorem ratioF_den_pos (a b : String) : 0 < (ratioF a b).den := by
  unfold ratioF
  simp only []
  split
  · decide
  · next h =>
    have hpos : 0 < a.data.length + b.data.length := Nat.pos_of_ne_zero h
    simp only []
    omega

theorem fadd_den_pos (x y : Frac) (hx : 0 < x.den) (hy : 0 < y.den) :
    0 < (fadd x y).den := mul_pos hx hy

theorem fmul_den_pos (x y : Frac) (hx : 0 < x.den) (hy : 0 < y.den) :
    0 < (fmul x y).den := mul_pos hx hy

theorem ac_score_den_pos (want : String) (a : MBArtist) : 0 < (ac_score want a).den := by
  unfold ac_score
  apply fadd_den_pos
  · apply fadd_den_pos
    · exact fmul_den_pos _ _ (by decide) (ratioF_den_pos _ _)
    · exact fmul_den_pos _ _ (by decide) (by show (0 : Int) < 100; norm_num)
  · by_cases h : (truthyStrOpt a.country || areaTruthy a.area) = true
    · rw [if_pos h]; decide
    · rw [if_neg (by simp [h])]; decide

/-- The body of the ac_best scan, named for the induction below. -/
def acBestStep (want : String) (acc : Option MBArtist × Frac) (a : MBArtist) :
    Option MBArtist × Frac :=
  let s := ac_score want a
  if flt acc.2 s then (some a, s) else acc

theorem ac_best_eq_foldl (want : String) (cands : List MBArtist) :
    ac_best want cands = cands.foldl (acBestStep want) (none, f0) := rfl

theorem ac_best_pos_aux (want : String) (cands : List MBArtist)
    (acc : Option MBArtist × Frac) (hden : 0 < acc.2.den)
    (hnone : acc.1 = none → acc.2 = f0)
    (hsome : acc.1 ≠ none → flt f0 acc.2 = true) :
    ((cands.foldl (acBestStep want) acc).1 ≠ none →
      flt f0 (cands.foldl (acBestStep want) acc).2 = true) ∧
      0 < (cands.foldl (acBestStep want) acc).2.den := by
  induction cands generalizing acc with
  | nil => exact ⟨hsome, hden⟩
  | cons c rest ih =>
    rw [List.foldl_cons]
    by_cases hup : flt acc.2 (ac_score want c) = true
    · have hstep : acBestStep want acc c = (some c, ac_score want c) := by
        unfold acBestStep
        simp [hup]
      rw [hstep]
      refine ih (some c, ac_score want c) (ac_score_den_pos want c) (by intro h; cases h) ?_
      intro _
      by_cases hacc : acc.1 = none
      · rw [hnone hacc] at hup
        exact hup
      · exact flt_trans f0 acc.2 (ac_score want c) (by decide) hden
          (ac_score_den_pos want c) (hsome hacc) hup
    · have hstep : acBestStep want acc c = acc := by
        unfold acBestStep
        simp [hup]
      rw [hstep]
      exact ih acc hden hnone hsome

theorem ac_best_pos (want : String) (cands : List MBArtist) :
    (ac_best want cands).1 ≠ none → flt f0 (ac_best want cands).2 = true := by
  rw [ac_best_eq_foldl]
  exact (ac_best_pos_aux want cands (none, f0) (by decide)
    (fun _ => rfl) (fun h => absurd rfl h)).1

/-- C3: update_if_missing writes a fetched value only into a field whose
current value is unset (absent, null, empty) or the NOT_FOUND placeholder; a
field holding a resolved value is never overwritten even when the fetched
value differs; and the changed_real flag is true only when some written value
is a genuine value distinct from the NOT_FOUND placeholder. -/
theorem c3_update_if_missing_non_clobber (it : Item) (m : Meta) (keys : List MKey) :
    (∀ k, isMissingVal (it.getKey k) = false →
      ((update_if_missing it m keys).1).getKey k = it.getKey k) ∧
    ((update_if_missing it m keys).2.2 = true →
      ∃ k ∈ keys, ∃ v, m.getKey k = some v ∧ srcSkip (some v) = false ∧ v ≠ NFV ∧
        ((update_if_missing it m keys).1).getKey k = some v) := by
  constructor
  · intro k hk
    exact uimFold_preserve keys m (it, false, false) k hk
  · intro h
    rcases uimFold_real_flag keys m (it, false, false) h with h2 | h2
    · simp at h2
    · exact h2

/-- Witness for C3 at the merge non-clobber example of the specification: a
record with genre "Rock" merged with a fetched genre "Pop" keeps "Rock". -/
theorem c3_witness :
    ((update_if_missing
        ⟨"d", "t", some "Queen", some "Song", none, none, some (JVal.jstr "Rock"), none, none, none⟩
        ⟨none, none, some (JVal.jstr "Pop"), none, none, none, none⟩ META_KEYS).1).getKey
      MKey.genre = some (JVal.jstr "Rock") := by
  have h := (c3_update_if_missing_non_clobber
    ⟨"d", "t", some "Queen", some "Song", none, none, some (JVal.jstr "Rock"), none, none, none⟩
    ⟨none, none, some (JVal.jstr "Pop"), none, none, none, none⟩ META_KEYS).1 MKey.genre
    (by decide)
  exact h.trans (by decide)

/-- C5 counterexample: the artist-only scorer of
enrich_artist_country.mb_lookup_country has no acceptance threshold.  A
candidate with weighted score one tenth (similarity ratio zero, source score
twenty, country bonus) is accepted and its country returned, although one
tenth is below the whole claimed 0.60 to 0.72 threshold range. -/
theorem c5_counterexample :
    mb_lookup_country "abcdefgh" [⟨some "zzzz", some 20, some "DE", none⟩] = some "DE" ∧
      flt (ac_best (norm_for_match "abcdefgh")
        [⟨some "zzzz", some 20, some "DE", none⟩]).2 ⟨3, 5⟩ = true := by
  decide

/-- C5 amended: both scorers return none on an empty candidate list; the
title-and-artist scorer of itunes_lookup rejects whenever the best weighted
score is below its 0.72 threshold; the artist-only scorer of
enrich_artist_country.mb_lookup_country applies no score threshold at all: it
selects a candidate exactly when some candidate scores above zero. -/
theorem c5_threshold_amended :
    (∀ a t : String, itunes_lookup a t [] = none) ∧
    (∀ (a t : String) (results : List ITRes),
      flt (itunesBest (norm_for_match a) (norm_for_match t) results).2
          itunesAcceptThreshold = true →
        itunes_lookup a t results = none) ∧
    (∀ artist : String, mb_lookup_country artist [] = none) ∧
    (∀ (artist : String) (cands : List MBArtist),
      (ac_best (norm_for_match artist) cands).1 ≠ none →
        flt f0 (ac_best (norm_for_match artist) cands).2 = true) := by
  refine ⟨?_, ?_, ?_, ?_⟩
  · intro a t
    unfold itunes_lookup
    by_cases h : (a = "" || t = "") = true
    · simp [h]
    · simp [h, itunesBest]
  · intro a t results hlt
    unfold itunes_lookup
    by_cases h : (a = "" || t = "") = true
    · simp [h]
    · simp only [h, Bool.false_eq_true, if_false]
      cases hbest : (itunesBest (norm_for_match a) (norm_for_match t) results).1 with
      | none => rfl
      | some b =>
        simp only []
        rw [hlt]
        simp
  · intro artist
    unfold mb_lookup_country
    by_cases h : artist = ""
    · simp [h]
    · simp [h, ac_best]
  · intro artist cands
    exact ac_best_pos (norm_for_match artist) cands

/-- Witness for C5 amended: a candidate pair with zero similarity scores zero,
below the 0.72 threshold, so itunes_lookup rejects it. -/
theorem c5_witness :
    itunes_lookup "abcd" "efgh"
      [⟨some "zzzz", some "qqqq", none, none, none, none, none, none⟩] = none :=
  c5_threshold_amended.2.1 "abcd" "efgh"
    [⟨some "zzzz", some "qqqq", none, none, none, none, none, none⟩] (by decide)

/-- C6 counterexample: the similarity weight of both artist-only scorers is
0.7, which is below 0.75 and therefore not approximately 0.95 under any
tolerance up to 0.2. -/
theorem c6_counterexample :
    acRatioWeight = ⟨7, 10⟩ ∧ mbzRatioWeight = ⟨7, 10⟩ ∧
      flt acRatioWeight ⟨3, 4⟩ = true ∧ flt mbzRatioWeight ⟨3, 4⟩ = true := by
  decide

/-- C6 amended: the scorer weights are the fixed constants used verbatim in
the score expressions; the combined title-plus-artist similarity weight of the
track-matching scorer is 1 (at least 0.8, and that scorer uses no
source-supplied relevance score at all); the artist-only scorers weight the
name similarity 0.7, which dominates their 0.25 and 0.3 relevance-score
weights but is not approximately 0.95. -/
theorem c6_weights_amended :
    (∀ (wa wt : String) (r : ITRes), itunesScore wa wt r =
      fadd (fmul itunesTitleWeight (ratioF wt (norm_for_match (orEmpty r.trackName))))
        (fmul itunesArtistWeight (ratioF wa (norm_for_match (orEmpty r.artistName))))) ∧
    feq (fadd itunesTitleWeight itunesArtistWeight) f1 = true ∧
    fle ⟨4, 5⟩ (fadd itunesTitleWeight itunesArtistWeight) = true ∧
    acRatioWeight = ⟨7, 10⟩ ∧ acMbScoreWeight = ⟨25, 100⟩ ∧
    flt acMbScoreWeight acRatioWeight = true ∧
    mbzRatioWeight = ⟨7, 10⟩ ∧ mbzMbScoreWeight = ⟨3, 10⟩ ∧
    flt mbzMbScoreWeight mbzRatioWeight = true :=
  ⟨fun _ _ _ => rfl, by decide, by decide, rfl, rfl, by decide, rfl, rfl, by decide⟩

/-- C7 counterexample: the normaliser used for the artist cache key does not
reorder a "Surname, Given" string, so the two spellings produce different
cache keys. -/
theorem c7_counterexample :
    ¬ (cache_key_artist "Novák, Ján" = cache_key_artist "Ján Novák") := by
  decide

/-- C7 amended: the two equivalences of the claim hold in two different
normalisers.  The parenthetical-stripping equivalence holds for
norm_for_match (the cache-key normaliser of enrich_artist_country and
enrich_itunes), which does not reorder on a comma; the comma-reorder
equivalence holds for the enrich_musicbrainz pipeline norm_mbz after
primary_artist, which in turn does not strip parentheticals.  No single
normaliser in the sources satisfies both. -/
theorem c7_normalizer_amended :
    norm_for_match "Iron   Maiden (Live)" = norm_for_match "iron maiden" ∧
    norm_mbz (primary_artist "Novák, Ján") = norm_mbz (primary_artist "Ján Novák") ∧
    ¬ (norm_for_match "Novák, Ján" = norm_for_match "Ján Novák") ∧
    ¬ (norm_mbz (primary_artist "Iron   Maiden (Live)") =
        norm_mbz (primary_artist "iron maiden")) := by
  decide

/-! ## State effects of the loop bodies -/

theorem acStepLookup_exhausted (oracle : String → Option String) (limit : Nat)
    (s : ACState) (it : ACItem) (artist key : String) (h : limit ≤ s.lookups) :
    acStepLookup oracle limit s it artist key =
      ({ it with artist_country := some NOT_FOUND }, s) := by
  unfold acStepLookup
  simp [h]

theorem acStepLookup_counts (oracle : String → Option String) (limit : Nat)
    (s : ACState) (it : ACItem) (artist key : String) (h : s.lookups < limit) :
    (acStepLookup oracle limit s it artist key).2.lookups = s.lookups + 1 := by
  unfold acStepLookup
  rw [if_neg (Nat.not_le.mpr h)]
  cases oracle artist with
  | none => rfl
  | some c =>
    by_cases hc : c ≠ ""
    · simp [hc]
    · simp [hc]

theorem acStepLookup_cache_or (oracle : String → Option String) (limit : Nat)
    (s : ACState) (it : ACItem) (artist key : String) :
    ((acStepLookup oracle limit s it artist key).2.cache = s.cache ∧
      (acStepLookup oracle limit s it artist key).2.lookups = s.lookups) ∨
    (s.lookups < limit ∧
      (acStepLookup oracle limit s it artist key).2.lookups = s.lookups + 1) := by
  by_cases h : limit ≤ s.lookups
  · left
    rw [acStepLookup_exhausted oracle limit s it artist key h]
    exact ⟨rfl, rfl⟩
  · right
    exact ⟨Nat.not_le.mp h, acStepLookup_counts oracle limit s it artist key (Nat.not_le.mp h)⟩

theorem acStep_effects (oracle : String → Option String) (limit : Nat) (force : Bool)
    (s : ACState) (it : ACItem) :
    ((acStep oracle limit force s it).2.cache = s.cache ∧
      (acStep oracle limit force s it).2.lookups = s.lookups) ∨
    (s.lookups < limit ∧
      (acStep oracle limit force s it).2.lookups = s.lookups + 1) := by
  unfold acStep
  by_cases h1 : ¬ force ∧ acResolved it.artist_country
  · left; simp [h1]
  · simp only [h1, if_false]
    by_cases h2 : pyStrip (orEmpty it.artist) = ""
    · left; simp [h2]
    · simp only [h2, Bool.false_eq_true, if_false]
      by_cases h3 : cacheGet s.cache (cache_key_artist (pyStrip (orEmpty it.artist))) =
          some (CVal.str CACHE_MISS) ∧ ¬ force
      · left; simp [h3]
      · simp only [h3, if_false]
        cases hst : cacheGet s.cache (cache_key_artist (pyStrip (orEmpty it.artist))) with
        | none => exact acStepLookup_cache_or oracle limit s it _ _
        | some cv =>
          cases cv with
          | other => exact acStepLookup_cache_or oracle limit s it _ _
          | str v =>
            by_cases h4 : v ≠ CACHE_MISS ∧ v ≠ ""
            · left; simp [h4]
            · simp only [h4, if_false]
              exact acStepLookup_cache_or oracle limit s it _ _

theorem itunesTry_exhausted (itF : String → String → Option Meta) (itLimit : Nat)
    (idx : Nat) (s : ItState) (it0 : Item) (a t k : String)
    (h : itLimit ≤ s.itLookups) :
    itunesTry itF itLimit idx s it0 a t k = (it0, s) := by
  unfold itunesTry
  simp [Nat.not_lt.mpr h]

theorem itunesTry_effects (itF : String → String → Option Meta) (itLimit : Nat)
    (idx : Nat) (s : ItState) (it0 : Item) (a t k : String) :
    (itunesTry itF itLimit idx s it0 a t k).2.mbCache = s.mbCache ∧
    (itunesTry itF itLimit idx s it0 a t k).2.mbLookups = s.mbLookups ∧
    (((itunesTry itF itLimit idx s it0 a t k).2.itCache = s.itCache ∧
        (itunesTry itF itLimit idx s it0 a t k).2.itLookups = s.itLookups) ∨
      (s.itLookups < itLimit ∧
        (itunesTry itF itLimit idx s it0 a t k).2.itLookups = s.itLookups + 1)) := by
  unfold itunesTry
  by_cases h : s.itLookups < itLimit
  · rw [if_pos h]
    cases itF a t with
    | none => exact ⟨rfl, rfl, Or.inr ⟨h, rfl⟩⟩
    | some m => exact ⟨rfl, rfl, Or.inr ⟨h, rfl⟩⟩
  · rw [if_neg h]
    exact ⟨rfl, rfl, Or.inl ⟨rfl, rfl⟩⟩

theorem itunesPhase_effects (itF : String → String → Option Meta) (itLimit : Nat)
    (force : Bool) (idx : Nat) (s : ItState) (it0 : Item) (a t k : String) :
    (itunesPhase itF itLimit force idx s it0 a t k).2.mbCache = s.mbCache ∧
    (itunesPhase itF itLimit force idx s it0 a t k).2.mbLookups = s.mbLookups ∧
    (((itunesPhase itF itLimit force idx s it0 a t k).2.itCache = s.itCache ∧
        (itunesPhase itF itLimit force idx s it0 a t k).2.itLookups = s.itLookups) ∨
      (s.itLookups < itLimit ∧
        (itunesPhase itF itLimit force idx s it0 a t k).2.itLookups = s.itLookups + 1)) := by
  unfold itunesPhase
  by_cases h1 : (force || ¬ has_all_meta it0) = true
  · simp only [h1, if_true]
    cases hst : cacheGet s.itCache k with
    | none => exact itunesTry_effects itF itLimit idx s it0 a t k
    | some cv =>
      cases cv with
      | miss =>
        by_cases hf : ¬ force = true
        · simp only [hf, if_true]
          exact ⟨rfl, rfl, Or.inl ⟨rfl, rfl⟩⟩
        · simp only [hf, if_false]
          exact itunesTry_effects itF itLimit idx s it0 a t k
      | meta m =>
        by_cases hf : force = true
        · simp only [hf, if_true]
          exact itunesTry_effects itF itLimit idx s it0 a t k
        · simp only [hf, if_false]
          exact ⟨rfl, rfl, Or.inl ⟨rfl, rfl⟩⟩
  · simp only [h1, if_false]
    exact ⟨rfl, rfl, Or.inl ⟨rfl, rfl⟩⟩

theorem mbTry_effects (mbF : String → String → Option Meta) (mbLimit : Nat)
    (idx : Nat) (s : ItState) (it1 : Item) (a t k : String) :
    (mbTry mbF mbLimit idx s it1 a t k).2.itCache = s.itCache ∧
    (mbTry mbF mbLimit idx s it1 a t k).2.itLookups = s.itLookups ∧
    (((mbTry mbF mbLimit idx s it1 a t k).2.mbCache = s.mbCache ∧
        (mbTry mbF mbLimit idx s it1 a t k).2.mbLookups = s.mbLookups) ∨
      (s.mbLookups < mbLimit ∧
        (mbTry mbF mbLimit idx s it1 a t k).2.mbLookups = s.mbLookups + 1)) := by
  unfold mbTry
  by_cases h : s.mbLookups < mbLimit
  · rw [if_pos h]
    cases mbF a t with
    | none => exact ⟨rfl, rfl, Or.inr ⟨h, rfl⟩⟩
    | some m => exact ⟨rfl, rfl, Or.inr ⟨h, rfl⟩⟩
  · rw [if_neg h]
    exact ⟨rfl, rfl, Or.inl ⟨rfl, rfl⟩⟩

theorem mbPhase_effects (mbF : String → String → Option Meta) (mbLimit : Nat)
    (force : Bool) (idx : Nat) (s : ItState) (it1 : Item) (a t k : String) :
    (mbPhase mbF mbLimit force idx s it1 a t k).2.itCache = s.itCache ∧
    (mbPhase mbF mbLimit force idx s it1 a t k).2.itLookups = s.itLookups ∧
    (((mbPhase mbF mbLimit force idx s it1 a t k).2.mbCache = s.mbCache ∧
        (mbPhase mbF mbLimit force idx s it1 a t k).2.mbLookups = s.mbLookups) ∨
      (s.mbLookups < mbLimit ∧
        (mbPhase mbF mbLimit force idx s it1 a t k).2.mbLookups = s.mbLookups + 1)) := by
  unfold mbPhase
  by_cases h1 : (still_missing it1 || isMissingVal it1.artist_country_code || force) = true
  · simp only [h1, if_true]
    cases hst : cacheGet s.mbCache k with
    | none => exact mbTry_effects mbF mbLimit idx s it1 a t k
    | some cv =>
      cases cv with
      | miss =>
        by_cases hf : ¬ force = true
        · simp only [hf, if_true]
          exact ⟨rfl, rfl, Or.inl ⟨rfl, rfl⟩⟩
        · simp only [hf, if_false]
          exact mbTry_effects mbF mbLimit idx s it1 a t k
      | meta m =>
        by_cases hf : force = true
        · simp only [hf, if_true]
          exact mbTry_effects mbF mbLimit idx s it1 a t k
        · simp only [hf, if_false]
          exact ⟨rfl, rfl, Or.inl ⟨rfl, rfl⟩⟩
  · simp only [h1, if_false]
    exact ⟨rfl, rfl, Or.inl ⟨rfl, rfl⟩⟩

theorem finishStep_effects (s : ItState) (it2 : Item) :
    (finishStep s it2).2.itCache = s.itCache ∧
    (finishStep s it2).2.itLookups = s.itLookups ∧
    (finishStep s it2).2.mbCache = s.mbCache ∧
    (finishStep s it2).2.mbLookups = s.mbLookups := by
  unfold finishStep
  by_cases h1 : ¬ has_all_meta it2 = true
  · simp only [h1, if_true]
    by_cases h2 : metaFields (apply_not_found it2) ≠ metaFields it2
    · simp [h2]
    · simp [h2]
  · simp [h1]

theorem enrichStep_effects (itF mbF : String → String → Option Meta)
    (itLimit mbLimit : Nat) (force : Bool) (idx : Nat) (s : ItState) (it : Item) :
    (((enrichStep itF mbF itLimit mbLimit force idx s it).2.itCache = s.itCache ∧
        (enrichStep itF mbF itLimit mbLimit force idx s it).2.itLookups = s.itLookups) ∨
      (s.itLookups < itLimit ∧
        (enrichStep itF mbF itLimit mbLimit force idx s it).2.itLookups = s.itLookups + 1)) ∧
    (((enrichStep itF mbF itLimit mbLimit force idx s it).2.mbCache = s.mbCache ∧
        (enrichStep itF mbF itLimit mbLimit force idx s it).2.mbLookups = s.mbLookups) ∨
      (s.mbLookups < mbLimit ∧
        (enrichStep itF mbF itLimit mbLimit force idx s it).2.mbLookups = s.mbLookups + 1)) := by
  unfold enrichStep
  by_cases h0 : pyStrip (orEmpty it.artist) = "" ∨ pyStrip (orEmpty it.title) = ""
  · rw [if_pos h0]
    exact ⟨Or.inl ⟨rfl, rfl⟩, Or.inl ⟨rfl, rfl⟩⟩
  · rw [if_neg h0]
    set a := pyStrip (orEmpty it.artist)
    set t := pyStrip (orEmpty it.title)
    set key := cache_key a t
    obtain ⟨hi1, hi2, hi3⟩ := itunesPhase_effects itF itLimit force idx s it a t key
    set r1 := itunesPhase itF itLimit force idx s it a t key
    obtain ⟨hm1, hm2, hm3⟩ := mbPhase_effects mbF mbLimit force idx r1.2 r1.1 a t key
    set r2 := mbPhase mbF mbLimit force idx r1.2 r1.1 a t key
    obtain ⟨hf1, hf2, hf3, hf4⟩ := finishStep_effects r2.2 r2.1
    constructor
    · rcases hi3 with ⟨hc, hl⟩ | ⟨hlt, hl⟩
      · left
        constructor
        · rw [hf1, hm1, hc]
        · rw [hf2, hm2, hl]
      · right
        refine ⟨hlt, ?_⟩
        rw [hf2, hm2, hl]
    · rcases hm3 with ⟨hc, hl⟩ | ⟨hlt, hl⟩
      · left
        constructor
        · rw [hf3, hc, hi1]
        · rw [hf4, hl, hi2]
      · right
        refine ⟨by rw [hi2] at hlt; exact hlt, ?_⟩
        rw [hf4, hl, hi2]

theorem acRun_lookups_le (oracle : String → Option String) (limit : Nat) (force : Bool)
    (items : List ACItem) (s : ACState) (h : s.lookups ≤ limit) :
    (acRun oracle limit force s items).2.lookups ≤ limit := by
  induction items generalizing s with
  | nil => exact h
  | cons it rest ih =>
    show (acRun oracle limit force (acStep oracle limit force s it).2 rest).2.lookups ≤ limit
    apply ih
    rcases acStep_effects oracle limit force s it with ⟨_, hl⟩ | ⟨hlt, hl⟩
    · rw [hl]; exact h
    · rw [hl]; exact hlt

theorem enrichRun_lookups_le (itF mbF : String → String → Option Meta)
    (itLimit mbLimit : Nat) (force : Bool) (items : List Item) (idx : Nat)
    (s : ItState) (h1 : s.itLookups ≤ itLimit) (h2 : s.mbLookups ≤ mbLimit) :
    (enrichRunAux itF mbF itLimit mbLimit force idx s items).2.itLookups ≤ itLimit ∧
    (enrichRunAux itF mbF itLimit mbLimit force idx s items).2.mbLookups ≤ mbLimit := by
  induction items generalizing idx s with
  | nil => exact ⟨h1, h2⟩
  | cons it rest ih =>
    show (enrichRunAux itF mbF itLimit mbLimit force (idx + 1)
        (enrichStep itF mbF itLimit mbLimit force idx s it).2 rest).2.itLookups ≤ itLimit ∧ _
    obtain ⟨he1, he2⟩ := enrichStep_effects itF mbF itLimit mbLimit force idx s it
    apply ih
    · rcases he1 with ⟨_, hl⟩ | ⟨hlt, hl⟩
      · rw [hl]; exact h1
      · rw [hl]; exact hlt
    · rcases he2 with ⟨_, hl⟩ | ⟨hlt, hl⟩
      · rw [hl]; exact h2
      · rw [hl]; exact hlt

/-- C2 (confirmed): the per-source lookup counters never exceed the per-run
limits (starting from zero as in the entry points); each of the three
outbound-attempt sites increments its counter by exactly one whenever the
budget guard admits it, for every oracle outcome, success or failure alike;
and a guard-refused site leaves the whole state untouched: no increment and
no cache write.  In the sources the oracle is consulted in exactly the
guarded branch that increments, so the counter is the number of outbound
calls of the run. -/
theorem c2_budget_respect :
    (∀ (items : List ACItem) (cache : List (String × CVal)) (limit : Nat)
        (force : Bool) (oracle : String → Option String),
      (enrich_artist_country items cache limit force oracle).2.lookups ≤ limit) ∧
    (∀ (items : List Item) (itC mbC : List (String × ICVal)) (itLimit mbLimit : Nat)
        (force : Bool) (itF mbF : String → String → Option Meta),
      (enrich_items items itC mbC itLimit mbLimit force itF mbF).2.itLookups ≤ itLimit ∧
      (enrich_items items itC mbC itLimit mbLimit force itF mbF).2.mbLookups ≤ mbLimit) ∧
    (∀ (oracle : String → Option String) (limit : Nat) (s : ACState) (it : ACItem)
        (artist key : String), s.lookups < limit →
      (acStepLookup oracle limit s it artist key).2.lookups = s.lookups + 1) ∧
    (∀ (itF : String → String → Option Meta) (itLimit idx : Nat) (s : ItState)
        (it0 : Item) (a t k : String), s.itLookups < itLimit →
      (itunesTry itF itLimit idx s it0 a t k).2.itLookups = s.itLookups + 1) ∧
    (∀ (mbF : String → String → Option Meta) (mbLimit idx : Nat) (s : ItState)
        (it1 : Item) (a t k : String), s.mbLookups < mbLimit →
      (mbTry mbF mbLimit idx s it1 a t k).2.mbLookups = s.mbLookups + 1) ∧
    (∀ (oracle : String → Option String) (limit : Nat) (s : ACState) (it : ACItem)
        (artist key : String), limit ≤ s.lookups →
      acStepLookup oracle limit s it artist key =
        ({ it with artist_country := some NOT_FOUND }, s)) ∧
    (∀ (itF : String → String → Option Meta) (itLimit idx : Nat) (s : ItState)
        (it0 : Item) (a t k : String), itLimit ≤ s.itLookups →
      itunesTry itF itLimit idx s it0 a t k = (it0, s)) ∧
    (∀ (mbF : String → String → Option Meta) (mbLimit idx : Nat) (s : ItState)
        (it1 : Item) (a t k : String), mbLimit ≤ s.mbLookups →
      mbTry mbF mbLimit idx s it1 a t k = (setdefault_acc it1, s)) := by
  refine ⟨?_, ?_, ?_, ?_, ?_, ?_, ?_, ?_⟩
  · intro items cache limit force oracle
    exact acRun_lookups_le oracle limit force items ⟨cache, 0, 0⟩ (Nat.zero_le limit)
  · intro items itC mbC itLimit mbLimit force itF mbF
    exact enrichRun_lookups_le itF mbF itLimit mbLimit force items 0
      ⟨itC, mbC, 0, 0, 0, [], []⟩ (Nat.zero_le itLimit) (Nat.zero_le mbLimit)
  · intro oracle limit s it artist key h
    exact acStepLookup_counts oracle limit s it artist key h
  · intro itF itLimit idx s it0 a t k h
    unfold itunesTry
    rw [if_pos h]
    cases itF a t with
    | none => rfl
    | some m => rfl
  · intro mbF mbLimit idx s it1 a t k h
    unfold mbTry
    rw [if_pos h]
    cases mbF a t with
    | none => rfl
    | some m => rfl
  · intro oracle limit s it artist key h
    exact acStepLookup_exhausted oracle limit s it artist key h
  · intro itF itLimit idx s it0 a t k h
    exact itunesTry_exhausted itF itLimit idx s it0 a t k h
  · intro mbF mbLimit idx s it1 a t k h
    unfold mbTry
    rw [if_neg (Nat.not_lt.mpr h)]

/-- Witness for C2: each attempt site increments its counter to exactly one
more, whether the oracle answers (artist-country site shown both ways) or
not; and an exhausted artist-country site returns the state unchanged with
the record merely stamped. -/
theorem c2_witness :
    (acStepLookup (fun _ => none) 1 ⟨[], 0, 0⟩ ⟨some "Queen", none, "x"⟩ "Queen"
        "queen").2.lookups = 0 + 1 ∧
    (acStepLookup (fun _ => some "GB") 1 ⟨[], 0, 0⟩ ⟨some "Queen", none, "x"⟩ "Queen"
        "queen").2.lookups = 0 + 1 ∧
    (itunesTry (fun _ _ => none) 3 0 ⟨[], [], 1, 0, 0, [], []⟩
        ⟨"d", "t", some "Queen", some "Song", none, none, none, none, none, none⟩
        "Queen" "Song" "k").2.itLookups = 1 + 1 ∧
    (mbTry (fun _ _ => none) 2 0 ⟨[], [], 0, 1, 0, [], []⟩
        ⟨"d", "t", some "Queen", some "Song", none, none, none, none, none, none⟩
        "Queen" "Song" "k").2.mbLookups = 1 + 1 ∧
    acStepLookup (fun _ => some "GB") 1 ⟨[], 0, 1⟩ ⟨some "Queen", none, "x"⟩ "Queen"
        "queen" = (⟨some "Queen", some NOT_FOUND, "x"⟩, ⟨[], 0, 1⟩) :=
  ⟨c2_budget_respect.2.2.1 (fun _ => none) 1 ⟨[], 0, 0⟩ ⟨some "Queen", none, "x"⟩
     "Queen" "queen" (by decide),
   c2_budget_respect.2.2.1 (fun _ => some "GB") 1 ⟨[], 0, 0⟩ ⟨some "Queen", none, "x"⟩
     "Queen" "queen" (by decide),
   c2_budget_respect.2.2.2.1 (fun _ _ => none) 3 0 ⟨[], [], 1, 0, 0, [], []⟩
     ⟨"d", "t", some "Queen", some "Song", none, none, none, none, none, none⟩
     "Queen" "Song" "k" (by decide),
   c2_budget_respect.2.2.2.2.1 (fun _ _ => none) 2 0 ⟨[], [], 0, 1, 0, [], []⟩
     ⟨"d", "t", some "Queen", some "Song", none, none, none, none, none, none⟩
     "Queen" "Song" "k" (by decide),
   c2_budget_respect.2.2.2.2.2.1 (fun _ => some "GB") 1 ⟨[], 0, 1⟩
     ⟨some "Queen", none, "x"⟩ "Queen" "queen" (by decide)⟩

theorem acStep_exhausted_cache (oracle : String → Option String) (limit : Nat)
    (force : Bool) (s : ACState) (it : ACItem) (h : limit ≤ s.lookups) :
    (acStep oracle limit force s it).2.cache = s.cache := by
  rcases acStep_effects oracle limit force s it with ⟨hc, _⟩ | ⟨hlt, _⟩
  · exact hc
  · exact absurd h (Nat.not_le.mpr hlt)

theorem acStep_exhausted_untried (oracle : String → Option String) (limit : Nat)
    (force : Bool) (s : ACState) (it : ACItem) (h : limit ≤ s.lookups)
    (hkey : cacheGet s.cache (cache_key_artist (pyStrip (orEmpty it.artist))) = none) :
    (acStep oracle limit force s it).1 = it ∨
      (acStep oracle limit force s it).1.artist_country = some NOT_FOUND := by
  unfold acStep
  by_cases h1 : ¬ force ∧ acResolved it.artist_country
  · left; simp [h1]
  · rw [if_neg h1]
    by_cases h2 : pyStrip (orEmpty it.artist) = ""
    · right; simp [h2]
    · rw [if_neg (by simpa using h2)]
      rw [if_neg (by rw [hkey]; simp)]
      rw [hkey]
      right
      simp only []
      rw [acStepLookup_exhausted oracle limit s it _ _ h]

/-- C1 amended: in enrich_artist_country and enrich_items, an exhausted budget
never changes the persistent cache, a record whose key is untried at
exhaustion is at most stamped NOT_FOUND for the run, and any cache change is
the outcome of exactly one counted lookup.  (The enrich_musicbrainz variant
violates the original claim; see the counterexample.) -/
theorem c1_no_poison_amended :
    (∀ (oracle : String → Option String) (limit : Nat) (force : Bool)
        (s : ACState) (it : ACItem),
      (limit ≤ s.lookups →
        (acStep oracle limit force s it).2.cache = s.cache ∧
        (cacheGet s.cache (cache_key_artist (pyStrip (orEmpty it.artist))) = none →
          (acStep oracle limit force s it).1 = it ∨
          (acStep oracle limit force s it).1.artist_country = some NOT_FOUND)) ∧
      ((acStep oracle limit force s it).2.cache ≠ s.cache →
        (acStep oracle limit force s it).2.lookups = s.lookups + 1)) ∧
    (∀ (itF mbF : String → String → Option Meta) (itLimit mbLimit : Nat)
        (force : Bool) (idx : Nat) (s : ItState) (it : Item),
      (itLimit ≤ s.itLookups →
        (enrichStep itF mbF itLimit mbLimit force idx s it).2.itCache = s.itCache) ∧
      (mbLimit ≤ s.mbLookups →
        (enrichStep itF mbF itLimit mbLimit force idx s it).2.mbCache = s.mbCache) ∧
      ((enrichStep itF mbF itLimit mbLimit force idx s it).2.itCache ≠ s.itCache →
        (enrichStep itF mbF itLimit mbLimit force idx s it).2.itLookups = s.itLookups + 1) ∧
      ((enrichStep itF mbF itLimit mbLimit force idx s it).2.mbCache ≠ s.mbCache →
        (enrichStep itF mbF itLimit mbLimit force idx s it).2.mbLookups = s.mbLookups + 1)) := by
  constructor
  · intro oracle limit force s it
    constructor
    · intro h
      exact ⟨acStep_exhausted_cache oracle limit force s it h,
        acStep_exhausted_untried oracle limit force s it h⟩
    · intro hne
      rcases acStep_effects oracle limit force s it with ⟨hc, _⟩ | ⟨_, hl⟩
      · exact absurd hc hne
      · exact hl
  · intro itF mbF itLimit mbLimit force idx s it
    obtain ⟨he1, he2⟩ := enrichStep_effects itF mbF itLimit mbLimit force idx s it
    refine ⟨?_, ?_, ?_, ?_⟩
    · intro h
      rcases he1 with ⟨hc, _⟩ | ⟨hlt, _⟩
      · exact hc
      · exact absurd h (Nat.not_le.mpr hlt)
    · intro h
      rcases he2 with ⟨hc, _⟩ | ⟨hlt, _⟩
      · exact hc
      · exact absurd h (Nat.not_le.mpr hlt)
    · intro hne
      rcases he1 with ⟨hc, _⟩ | ⟨_, hl⟩
      · exact absurd hc hne
      · exact hl
    · intro hne
      rcases he2 with ⟨hc, _⟩ | ⟨_, hl⟩
      · exact absurd hc hne
      · exact hl

/-- Witness for C1 amended: a zero budget and an untried artist leave the
cache empty and stamp the record NOT_FOUND. -/
theorem c1_witness :
    (acStep (fun _ => some "GB") 0 false ⟨[], 0, 0⟩ ⟨some "Queen", none, "x"⟩).2.cache = [] ∧
      ((acStep (fun _ => some "GB") 0 false ⟨[], 0, 0⟩ ⟨some "Queen", none, "x"⟩).1 =
          ⟨some "Queen", none, "x"⟩ ∨
        (acStep (fun _ => some "GB") 0 false ⟨[], 0, 0⟩
            ⟨some "Queen", none, "x"⟩).1.artist_country = some NOT_FOUND) := by
  have h := (c1_no_poison_amended.1 (fun _ => some "GB") 0 false ⟨[], 0, 0⟩
    ⟨some "Queen", none, "x"⟩).1 (by decide)
  exact ⟨h.1, h.2 (by decide)⟩

/-- C1 counterexample: in enrich_musicbrainz.main, with the country-lookup
budget already exhausted (limit zero), a record whose artist is not in the
persistent artist map gets a null entry (the miss representation of that map)
written for its key even though no lookup was performed. -/
theorem c1_counterexample :
    (mbzCountryRun (fun _ => none) 0 ⟨[], 0, 0⟩
        [⟨some "Queen", some "Song", none, none⟩]).2 =
      ⟨[("Queen", none)], 0, 0⟩ := by
  decide

theorem meta_keys_ne_acc : ∀ k ∈ META_KEYS, k ≠ MKey.artist_country_code := by
  decide

theorem anfFold_acc (keys : List MKey) (it : Item)
    (h : ∀ k ∈ keys, k ≠ MKey.artist_country_code) :
    (keys.foldl anfStep it).artist_country_code = it.artist_country_code := by
  induction keys generalizing it with
  | nil => rfl
  | cons k0 rest ih =>
    rw [List.foldl_cons, ih _ (fun k hk => h k (List.mem_cons_of_mem _ hk))]
    unfold anfStep
    by_cases hm : isNoneOrEmpty (it.getKey k0) = true
    · rw [if_pos hm]
      show (it.setKey k0 NFV).getKey MKey.artist_country_code =
        it.getKey MKey.artist_country_code
      exact getKey_setKey_ne it k0 MKey.artist_country_code NFV
        (h k0 (List.mem_cons_self k0 rest))
    · rw [if_neg hm]

/-- C9 amended: a record with an empty (after trimming) artist or title
identity field performs no lookup, consumes no budget, changes no cache, and
is stamped with the not-found placeholder on every enrichable field that is
currently unset; a field already holding a resolved value (or the placeholder)
keeps its value, and an artist_country_code key present with a null value is
left null.  The same holds for the artist-country loop, which stamps its one
enrichable field. -/
theorem c9_skip_amended :
    (∀ (itF mbF : String → String → Option Meta) (itLimit mbLimit : Nat)
        (force : Bool) (idx : Nat) (s : ItState) (it : Item),
      (pyStrip (orEmpty it.artist) = "" ∨ pyStrip (orEmpty it.title) = "") →
        (enrichStep itF mbF itLimit mbLimit force idx s it).2 = s ∧
        (∀ k ∈ META_KEYS, isNoneOrEmpty (it.getKey k) = true →
          ((enrichStep itF mbF itLimit mbLimit force idx s it).1).getKey k = some NFV) ∧
        (∀ k ∈ META_KEYS, isNoneOrEmpty (it.getKey k) = false →
          ((enrichStep itF mbF itLimit mbLimit force idx s it).1).getKey k = it.getKey k) ∧
        (it.artist_country_code = none →
          ((enrichStep itF mbF itLimit mbLimit force idx s it).1).artist_country_code =
            some NFV) ∧
        (it.artist_country_code ≠ none →
          ((enrichStep itF mbF itLimit mbLimit force idx s it).1).artist_country_code =
            it.artist_country_code)) ∧
    (∀ (oracle : String → Option String) (limit : Nat) (force : Bool)
        (s : ACState) (it : ACItem),
      pyStrip (orEmpty it.artist) = "" →
      (force = true ∨ acResolved it.artist_country = false) →
        acStep oracle limit force s it =
          ({ it with artist_country := some NOT_FOUND }, s)) := by
  constructor
  · intro itF mbF itLimit mbLimit force idx s it hempty
    have hstep : enrichStep itF mbF itLimit mbLimit force idx s it =
        (setdefault_acc (apply_not_found it), s) := by
      unfold enrichStep
      rw [if_pos hempty]
    rw [hstep]
    refine ⟨rfl, ?_, ?_, ?_, ?_⟩
    · intro k hk hnoe
      have h1 : (apply_not_found it).getKey k = some NFV :=
        anfFold_write META_KEYS it k hk hnoe
      rw [setdefault_acc_meta (apply_not_found it) k (meta_keys_ne_acc k hk)]
      exact h1
    · intro k hk hnoe
      rw [setdefault_acc_meta (apply_not_found it) k (meta_keys_ne_acc k hk)]
      rcases anfFold_cases META_KEYS it k with h1 | ⟨h2, _⟩
      · exact h1
      · rw [hnoe] at h2; cases h2
    · intro hacc
      have h1 : (apply_not_found it).artist_country_code = none := by
        have h2 : (apply_not_found it).artist_country_code = it.artist_country_code :=
          anfFold_acc META_KEYS it meta_keys_ne_acc
        rw [h2]; exact hacc
      rw [setdefault_acc_acc, h1]
    · intro hacc
      have h1 : (apply_not_found it).artist_country_code = it.artist_country_code :=
        anfFold_acc META_KEYS it meta_keys_ne_acc
      rw [setdefault_acc_acc, h1]
      cases hv : it.artist_country_code with
      | none => exact absurd hv hacc
      | some v => rfl
  · intro oracle limit force s it hempty hres
    unfold acStep
    rw [if_neg (by
      rintro ⟨hf, hr⟩
      rcases hres with hres | hres
      · rw [hres] at hf; exact absurd rfl hf
      · rw [hres] at hr; cases hr)]
    rw [if_pos hempty]

/-- Witness for C9: an all-empty record gets every META field stamped with
the placeholder, no state change. -/
theorem c9_witness :
    (enrichStep (fun _ _ => none) (fun _ _ => none) 5 5 false 0
        ⟨[], [], 0, 0, 0, [], []⟩
        ⟨"d", "t", some "", some "Song", none, none, none, none, none, none⟩).2 =
      ⟨[], [], 0, 0, 0, [], []⟩ ∧
    ((enrichStep (fun _ _ => none) (fun _ _ => none) 5 5 false 0
        ⟨[], [], 0, 0, 0, [], []⟩
        ⟨"d", "t", some "", some "Song", none, none, none, none, none, none⟩).1).getKey
      MKey.genre = some NFV := by
  have h := (c9_skip_amended.1 (fun _ _ => none) (fun _ _ => none) 5 5 false 0
    ⟨[], [], 0, 0, 0, [], []⟩
    ⟨"d", "t", some "", some "Song", none, none, none, none, none, none⟩ (by left; decide))
  exact ⟨h.1, h.2.1 MKey.genre (by decide) (by decide)⟩

/-- C9 counterexample: a record with an empty artist but an already-resolved
genre keeps "Rock" after the run; the claim says every enrichable field is set
to the not-found placeholder, but resolved fields are left alone. -/
theorem c9_counterexample :
    ((enrich_items
        [⟨"d", "t", some "", some "Song", none, none, some (JVal.jstr "Rock"),
          none, none, none⟩]
        [] [] 5 5 false (fun _ _ => none) (fun _ _ => none)).1.map
      (fun x => x.genre)) = [some (JVal.jstr "Rock")] ∧
      JVal.jstr "Rock" ≠ NFV := by
  decide

/-! ## Field monotonicity -/

/-- Relation between a record before and after one mutation of the loop body:
a non-missing field keeps its exact value, and a field that is missing
afterwards was either untouched or was written the NOT_FOUND placeholder. -/
def FieldOk (before after : Item) : Prop :=
  ∀ k, (isMissingVal (before.getKey k) = false → after.getKey k = before.getKey k) ∧
    (isMissingVal (after.getKey k) = true →
      after.getKey k = before.getKey k ∨ after.getKey k = some NFV)

theorem fieldOk_refl (it : Item) : FieldOk it it :=
  fun _ => ⟨fun _ => rfl, fun _ => Or.inl rfl⟩

theorem fieldOk_trans {a b c : Item} (h1 : FieldOk a b) (h2 : FieldOk b c) :
    FieldOk a c := by
  intro k
  constructor
  · intro hm
    have hb := (h1 k).1 hm
    have hmb : isMissingVal (b.getKey k) = false := by rw [hb]; exact hm
    rw [(h2 k).1 hmb, hb]
  · intro hm
    rcases (h2 k).2 hm with hcb | hnf
    · have hmb : isMissingVal (b.getKey k) = true := by rw [← hcb]; exact hm
      rcases (h1 k).2 hmb with hba | hnf2
      · left; rw [hcb, hba]
      · right; rw [hcb, hnf2]
    · right; exact hnf

theorem missing_not_skip_eq_nfv (v : Option JVal) (h1 : isMissingVal v = true)
    (h2 : srcSkip v = false) : v = some NFV := by
  cases v with
  | none => simp [srcSkip] at h2
  | some x => cases x <;> simp_all [isMissingVal, srcSkip, NFV, NOT_FOUND]

theorem noe_false_of_missing_false (v : Option JVal) (h : isMissingVal v = false) :
    isNoneOrEmpty v = false := by
  cases v with
  | none => simp [isMissingVal] at h
  | some x => cases x <;> simp_all [isMissingVal, isNoneOrEmpty, srcSkip]

theorem fieldOk_uim (it : Item) (m : Meta) (keys : List MKey) :
    FieldOk it (update_if_missing it m keys).1 := by
  intro k
  unfold update_if_missing
  constructor
  · intro hm
    exact uimFold_preserve keys m (it, false, false) k hm
  · intro hm
    rcases uimFold_cases keys m (it, false, false) k with h1 | ⟨_, h1, hs⟩
    · left; exact h1
    · right
      rw [h1] at hm ⊢
      exact missing_not_skip_eq_nfv _ hm hs

theorem fieldOk_anf (it : Item) : FieldOk it (apply_not_found it) := by
  intro k
  constructor
  · intro hm
    rcases anfFold_cases META_KEYS it k with h1 | ⟨hnoe, _⟩
    · exact h1
    · rw [noe_false_of_missing_false _ hm] at hnoe; cases hnoe
  · intro _
    rcases anfFold_cases META_KEYS it k with h1 | ⟨_, h1⟩
    · left; exact h1
    · right; exact h1

theorem fieldOk_setdef (it : Item) : FieldOk it (setdefault_acc it) := by
  intro k
  by_cases hk : k = MKey.artist_country_code
  · subst hk
    cases hv : it.artist_country_code with
    | none =>
      constructor
      · intro hm
        rw [show it.getKey MKey.artist_country_code = it.artist_country_code from rfl,
          hv] at hm
        simp [isMissingVal] at hm
      · intro _
        right
        show (setdefault_acc it).artist_country_code = some NFV
        rw [setdefault_acc_acc, hv]
    | some v =>
      constructor
      · intro _
        show (setdefault_acc it).getKey MKey.artist_country_code =
          it.getKey MKey.artist_country_code
        rw [setdefault_acc_id it (by rw [hv]; exact fun h => by cases h)]
      · intro _
        left
        show (setdefault_acc it).getKey MKey.artist_country_code =
          it.getKey MKey.artist_country_code
        rw [setdefault_acc_id it (by rw [hv]; exact fun h => by cases h)]
  · have h := setdefault_acc_meta it k hk
    exact ⟨fun _ => h, fun _ => Or.inl h⟩

theorem fieldOk_itunesTry (itF : String → String → Option Meta) (itLimit idx : Nat)
    (s : ItState) (it0 : Item) (a t k : String) :
    FieldOk it0 (itunesTry itF itLimit idx s it0 a t k).1 := by
  unfold itunesTry
  by_cases h : s.itLookups < itLimit
  · rw [if_pos h]
    cases itF a t with
    | none => exact fieldOk_refl it0
    | some m => exact fieldOk_uim it0 m META_KEYS
  · rw [if_neg h]
    exact fieldOk_refl it0

theorem fieldOk_itunesPhase (itF : String → String → Option Meta) (itLimit : Nat)
    (force : Bool) (idx : Nat) (s : ItState) (it0 : Item) (a t k : String) :
    FieldOk it0 (itunesPhase itF itLimit force idx s it0 a t k).1 := by
  unfold itunesPhase
  by_cases h1 : (force || ¬ has_all_meta it0) = true
  · rw [if_pos h1]
    cases hst : cacheGet s.itCache k with
    | none => exact fieldOk_itunesTry itF itLimit idx s it0 a t k
    | some cv =>
      cases cv with
      | miss =>
        by_cases hf : ¬ force = true
        · dsimp only
          rw [if_pos hf]; exact fieldOk_refl it0
        · dsimp only
          rw [if_neg hf]; exact fieldOk_itunesTry itF itLimit idx s it0 a t k
      | meta m =>
        by_cases hf : force = true
        · dsimp only
          rw [if_pos hf]; exact fieldOk_itunesTry itF itLimit idx s it0 a t k
        · dsimp only
          rw [if_neg hf]; exact fieldOk_uim it0 m META_KEYS
  · rw [if_neg h1]
    exact fieldOk_refl it0

theorem fieldOk_mbTry (mbF : String → String → Option Meta) (mbLimit idx : Nat)
    (s : ItState) (it1 : Item) (a t k : String) :
    FieldOk it1 (mbTry mbF mbLimit idx s it1 a t k).1 := by
  unfold mbTry
  by_cases h : s.mbLookups < mbLimit
  · rw [if_pos h]
    cases mbF a t with
    | none => exact fieldOk_setdef it1
    | some m =>
      exact fieldOk_trans (fieldOk_uim it1 m META_KEYS)
        (fieldOk_uim (update_if_missing it1 m META_KEYS).1 m [MKey.artist_country_code])
  · rw [if_neg h]
    exact fieldOk_setdef it1

theorem fieldOk_mbPhase (mbF : String → String → Option Meta) (mbLimit : Nat)
    (force : Bool) (idx : Nat) (s : ItState) (it1 : Item) (a t k : String) :
    FieldOk it1 (mbPhase mbF mbLimit force idx s it1 a t k).1 := by
  unfold mbPhase
  by_cases h1 : (still_missing it1 || isMissingVal it1.artist_country_code || force) = true
  · rw [if_pos h1]
    cases hst : cacheGet s.mbCache k with
    | none => exact fieldOk_mbTry mbF mbLimit idx s it1 a t k
    | some cv =>
      cases cv with
      | miss =>
        by_cases hf : ¬ force = true
        · dsimp only
          rw [if_pos hf]; exact fieldOk_setdef it1
        · dsimp only
          rw [if_neg hf]; exact fieldOk_mbTry mbF mbLimit idx s it1 a t k
      | meta m =>
        by_cases hf : force = true
        · dsimp only
          rw [if_pos hf]; exact fieldOk_mbTry mbF mbLimit idx s it1 a t k
        · dsimp only
          rw [if_neg hf]
          exact fieldOk_trans (fieldOk_uim it1 m META_KEYS)
            (fieldOk_uim (update_if_missing it1 m META_KEYS).1 m [MKey.artist_country_code])
  · rw [if_neg h1]
    exact fieldOk_refl it1

theorem fieldOk_finishStep (s : ItState) (it2 : Item) :
    FieldOk it2 (finishStep s it2).1 := by
  unfold finishStep
  by_cases h1 : ¬ has_all_meta it2 = true
  · rw [if_pos h1]
    exact fieldOk_trans (fieldOk_anf it2) (fieldOk_setdef (apply_not_found it2))
  · rw [if_neg h1]
    exact fieldOk_setdef it2

theorem fieldOk_enrichStep (itF mbF : String → String → Option Meta)
    (itLimit mbLimit : Nat) (force : Bool) (idx : Nat) (s : ItState) (it : Item) :
    FieldOk it (enrichStep itF mbF itLimit mbLimit force idx s it).1 := by
  unfold enrichStep
  by_cases h0 : pyStrip (orEmpty it.artist) = "" ∨ pyStrip (orEmpty it.title) = ""
  · rw [if_pos h0]
    exact fieldOk_trans (fieldOk_anf it) (fieldOk_setdef (apply_not_found it))
  · rw [if_neg h0]
    exact fieldOk_trans
      (fieldOk_trans
        (fieldOk_itunesPhase itF itLimit force idx s it _ _ _)
        (fieldOk_mbPhase mbF mbLimit force idx _ _ _ _ _))
      (fieldOk_finishStep _ _)

theorem acStepLookup_country_cases (oracle : String → Option String) (limit : Nat)
    (s : ACState) (it : ACItem) (artist key : String) :
    (acStepLookup oracle limit s it artist key).1.artist_country = some NOT_FOUND ∨
      (∃ v, (acStepLookup oracle limit s it artist key).1.artist_country = some v ∧
        v ≠ "" ∧ v ≠ NOT_FOUND) := by
  unfold acStepLookup
  by_cases h : limit ≤ s.lookups
  · rw [if_pos h]; left; rfl
  · rw [if_neg h]
    cases oracle artist with
    | none => left; rfl
    | some c =>
      dsimp only
      by_cases hc : c ≠ ""
      · rw [if_pos hc]
        by_cases hnf : c = NOT_FOUND
        · left; simp [hnf]
        · right; exact ⟨c, rfl, hc, hnf⟩
      · rw [if_neg hc]; left; rfl

theorem acStep_country_cases (oracle : String → Option String) (limit : Nat)
    (force : Bool) (s : ACState) (it : ACItem) :
    (acStep oracle limit force s it).1 = it ∨
      (acStep oracle limit force s it).1.artist_country = some NOT_FOUND ∨
      (∃ v, (acStep oracle limit force s it).1.artist_country = some v ∧
        v ≠ "" ∧ v ≠ NOT_FOUND) := by
  unfold acStep
  by_cases h1 : ¬ force ∧ acResolved it.artist_country
  · rw [if_pos h1]; left; rfl
  · rw [if_neg h1]
    by_cases h2 : pyStrip (orEmpty it.artist) = ""
    · rw [if_pos h2]; right; left; rfl
    · rw [if_neg h2]
      by_cases h3 : cacheGet s.cache (cache_key_artist (pyStrip (orEmpty it.artist))) =
          some (CVal.str CACHE_MISS) ∧ ¬ force
      · rw [if_pos h3]; right; left; rfl
      · rw [if_neg h3]
        cases hst : cacheGet s.cache (cache_key_artist (pyStrip (orEmpty it.artist))) with
        | none =>
          rcases acStepLookup_country_cases oracle limit s it _ _ with h | h
          · right; left; exact h
          · right; right; exact h
        | some cv =>
          cases cv with
          | other =>
            rcases acStepLookup_country_cases oracle limit s it _ _ with h | h
            · right; left; exact h
            · right; right; exact h
          | str v =>
            by_cases h4 : v ≠ CACHE_MISS ∧ v ≠ ""
            · dsimp only
              rw [if_pos h4]
              by_cases hnf : v = NOT_FOUND
              · right; left; simp [hnf]
              · right; right; exact ⟨v, rfl, h4.2, hnf⟩
            · dsimp only
              rw [if_neg h4]
              rcases acStepLookup_country_cases oracle limit s it _ _ with h | h
              · right; left; exact h
              · right; right; exact h

/-- C4 amended: with force off, a field holding a resolved value keeps that
exact value through a step of either enrichment loop (never downgraded to the
placeholder, never replaced by a different resolved value); a field holding
the NOT_FOUND placeholder either keeps it or moves to a resolved value (the
placeholder is not terminal: the MusicBrainz fallback and cached payloads may
upgrade it, which refutes the original "and then stays").  Allowed moves are
therefore UNSET to NOT_FOUND, UNSET to RESOLVED, and NOT_FOUND to RESOLVED. -/
theorem c4_monotonic_amended :
    (∀ (itF mbF : String → String → Option Meta) (itLimit mbLimit : Nat)
        (idx : Nat) (s : ItState) (it : Item),
      (∀ k, isMissingVal (it.getKey k) = false →
        ((enrichStep itF mbF itLimit mbLimit false idx s it).1).getKey k = it.getKey k) ∧
      (∀ k, it.getKey k = some NFV →
        ((enrichStep itF mbF itLimit mbLimit false idx s it).1).getKey k = some NFV ∨
          isMissingVal (((enrichStep itF mbF itLimit mbLimit false idx s it).1).getKey k) =
            false)) ∧
    (∀ (oracle : String → Option String) (limit : Nat) (s : ACState) (it : ACItem),
      (acResolved it.artist_country = true → (acStep oracle limit false s it).1 = it) ∧
      (it.artist_country = some NOT_FOUND →
        (acStep oracle limit false s it).1.artist_country = some NOT_FOUND ∨
          acResolved ((acStep oracle limit false s it).1.artist_country) = true)) := by
  constructor
  · intro itF mbF itLimit mbLimit idx s it
    have hok := fieldOk_enrichStep itF mbF itLimit mbLimit false idx s it
    constructor
    · intro k hm
      exact (hok k).1 hm
    · intro k hnf
      by_cases hm : isMissingVal
          (((enrichStep itF mbF itLimit mbLimit false idx s it).1).getKey k) = true
      · left
        rcases (hok k).2 hm with h | h
        · rw [h, hnf]
        · exact h
      · right
        simpa using hm
  · intro oracle limit s it
    constructor
    · intro hres
      unfold acStep
      rw [if_pos (by exact ⟨by simp, hres⟩)]
    · intro hnf
      rcases acStep_country_cases oracle limit false s it with h | h | ⟨v, hv, hv1, hv2⟩
      · left; rw [h, hnf]
      · left; exact h
      · right
        rw [hv]
        simp [acResolved, hv1, hv2]

/-- Witness for C4 amended: a resolved genre survives a full enrichment step
whose cached payload carries a different genre. -/
theorem c4_witness :
    ((enrichStep (fun _ _ => none) (fun _ _ => none) 5 5 false 0
        ⟨[(cache_key "Queen" "Song",
            ICVal.meta ⟨some NFV, some NFV, some (JVal.jstr "Pop"), some NFV, some NFV,
              none, none⟩)], [], 0, 0, 0, [], []⟩
        ⟨"d", "t", some "Queen", some "Song", some NFV, some NFV,
          some (JVal.jstr "Rock"), some NFV, some NFV, some NFV⟩).1).getKey MKey.genre =
      some (JVal.jstr "Rock") := by
  have h := ((c4_monotonic_amended.1 (fun _ _ => none) (fun _ _ => none) 5 5 0
    ⟨[(cache_key "Queen" "Song",
        ICVal.meta ⟨some NFV, some NFV, some (JVal.jstr "Pop"), some NFV, some NFV,
          none, none⟩)], [], 0, 0, 0, [], []⟩
    ⟨"d", "t", some "Queen", some "Song", some NFV, some NFV,
      some (JVal.jstr "Rock"), some NFV, some NFV, some NFV⟩).1) MKey.genre (by decide)
  exact h.trans (by decide)

/-- C4 counterexample: a genre holding the NOT_FOUND placeholder is upgraded
to "Pop" by a cached iTunes payload within a single run, a NOT_FOUND to
RESOLVED move outside the transition set of the claim. -/
theorem c4_counterexample :
    ((enrich_items
        [⟨"d", "t", some "Queen", some "Song", some NFV, some NFV, some NFV,
          some NFV, some NFV, some NFV⟩]
        [(cache_key "Queen" "Song",
          ICVal.meta ⟨some NFV, some NFV, some (JVal.jstr "Pop"), some NFV, some NFV,
            none, none⟩)]
        [] 5 5 false (fun _ _ => none) (fun _ _ => none)).1.map (fun x => x.genre)) =
      [some (JVal.jstr "Pop")] ∧ JVal.jstr "Pop" ≠ NFV := by
  decide

/-! ## merge_dedup properties -/

theorem dictInsertRec_append (acc : List PlayRec) (it : PlayRec)
    (h : ∀ x ∈ acc, unique_key x ≠ unique_key it) :
    dictInsertRec acc it = acc ++ [it] := by
  induction acc with
  | nil => rfl
  | cons x rest ih =>
    unfold dictInsertRec
    rw [if_neg (h x (List.mem_cons_self x rest))]
    rw [ih (fun y hy => h y (List.mem_cons_of_mem x hy))]
    rfl

theorem buildSeen_eq (old acc : List PlayRec)
    (h : (((acc ++ old).map unique_key)).Nodup) :
    old.foldl dictInsertRec acc = acc ++ old := by
  induction old generalizing acc with
  | nil => simp
  | cons it rest ih =>
    rw [List.foldl_cons]
    have hne : ∀ x ∈ acc, unique_key x ≠ unique_key it := by
      intro x hx heq
      rw [List.map_append] at h
      have h1 := List.disjoint_of_nodup_append h
      exact h1 (List.mem_map_of_mem unique_key hx)
        (by rw [heq]; exact List.mem_map_of_mem unique_key (List.mem_cons_self it rest))
    rw [dictInsertRec_append acc it hne]
    have h2 : (((acc ++ [it]) ++ rest).map unique_key).Nodup := by
      rw [List.append_assoc]
      simpa using h
    rw [ih (acc ++ [it]) h2, List.append_assoc]
    rfl

theorem addNew_seen_mem (new seen : List PlayRec) (n : Nat) (x : PlayRec)
    (hx : x ∈ seen) : x ∈ (addNew seen new n).1 := by
  induction new generalizing seen n with
  | nil => exact hx
  | cons it rest ih =>
    unfold addNew
    by_cases h : seen.any (fun y => unique_key y = unique_key it) = true
    · rw [if_pos h]
      exact ih seen n hx
    · rw [if_neg h]
      exact ih (seen ++ [it]) (n + 1) (List.mem_append_left _ hx)

theorem addNew_nodup (new seen : List PlayRec) (n : Nat)
    (h : (seen.map unique_key).Nodup) :
    ((addNew seen new n).1.map unique_key).Nodup := by
  induction new generalizing seen n with
  | nil => exact h
  | cons it rest ih =>
    unfold addNew
    by_cases hmem : seen.any (fun y => unique_key y = unique_key it) = true
    · rw [if_pos hmem]
      exact ih seen n h
    · rw [if_neg hmem]
      refine ih (seen ++ [it]) (n + 1) ?_
      rw [List.map_append]
      rw [List.nodup_append]
      refine ⟨h, List.nodup_singleton _, ?_⟩
      intro a ha hb
      rcases List.mem_map.mp ha with ⟨y, hy, hyk⟩
      simp only [List.map_cons, List.map_nil, List.mem_singleton] at hb
      apply hmem
      rw [List.any_eq_true]
      exact ⟨y, hy, by rw [decide_eq_true_iff, hyk, hb]⟩

theorem addNew_count (new seen : List PlayRec) (n : Nat) :
    (addNew seen new n).2 =
      n + ((new.map unique_key).toFinset \ (seen.map unique_key).toFinset).card := by
  induction new generalizing seen n with
  | nil => simp [addNew]
  | cons it rest ih =>
    unfold addNew
    by_cases hmem : seen.any (fun y => unique_key y = unique_key it) = true
    · rw [if_pos hmem]
      rw [ih seen n]
      congr 1
      have hk : unique_key it ∈ (seen.map unique_key).toFinset := by
        rw [List.mem_toFinset]
        rw [List.any_eq_true] at hmem
        rcases hmem with ⟨y, hy, hyk⟩
        rw [decide_eq_true_iff] at hyk
        exact hyk ▸ List.mem_map_of_mem unique_key hy
      rw [List.map_cons, List.toFinset_cons, Finset.insert_sdiff_of_mem _ hk]
    · rw [if_neg hmem]
      rw [ih (seen ++ [it]) (n + 1)]
      have hk : unique_key it ∉ (seen.map unique_key).toFinset := by
        rw [List.mem_toFinset]
        intro hin
        rcases List.mem_map.mp hin with ⟨y, hy, hyk⟩
        apply hmem
        rw [List.any_eq_true]
        exact ⟨y, hy, by rw [decide_eq_true_iff, hyk]⟩
      have hS : ((seen ++ [it]).map unique_key).toFinset =
          insert (unique_key it) (seen.map unique_key).toFinset := by
        rw [List.map_append, List.toFinset_append]
        simp [Finset.union_comm, Finset.insert_eq]
      rw [hS, List.map_cons, List.toFinset_cons]
      rw [Finset.insert_sdiff_of_not_mem _ hk, Finset.sdiff_insert]
      set X := (rest.map unique_key).toFinset \ (seen.map unique_key).toFinset with hX
      by_cases hkX : unique_key it ∈ X
      · rw [Finset.card_insert_of_mem hkX, Finset.card_erase_of_mem hkX]
        have : 0 < X.card := Finset.card_pos.mpr ⟨_, hkX⟩
        omega
      · rw [Finset.card_insert_of_not_mem hkX, Finset.erase_eq_of_not_mem hkX]
        omega

/-- C10 counterexample: two records of old share the deduplication key but
differ elsewhere; the dict comprehension keeps only the later one, so the
first old record does not appear in the result, contradicting "every item of
old appears unchanged". -/
theorem c10_counterexample :
    ¬ ((⟨"01.01.2024", "10:00", "A", "T", "u1"⟩ : PlayRec) ∈
      (merge_dedup
        [⟨"01.01.2024", "10:00", "A", "T", "u1"⟩,
         ⟨"01.01.2024", "10:00", "A", "T", "u2"⟩]
        []).1) := by
  decide

/-- C10 amended: provided the records of old have pairwise distinct keys (as
the output of a previous merge always does), merge_dedup returns a list with
pairwise distinct keys in which every record of old appears unchanged (a new
record with a seen key is discarded), the added count equals the number of
distinct keys of new that do not occur in old, and the result is sorted in
non-increasing order of the parsed "date time" timestamp, records with
unparseable timestamps taking the minimal key (so they sort after every
record with a later parseable timestamp, tied only with timestamps equal to
the minimal datetime). -/
theorem c10_merge_dedup_amended (old new : List PlayRec)
    (h : (old.map unique_key).Nodup) :
    ((merge_dedup old new).1.map unique_key).Nodup ∧
    (∀ x ∈ old, x ∈ (merge_dedup old new).1) ∧
    (merge_dedup old new).2 =
      ((new.map unique_key).toFinset \ (old.map unique_key).toFinset).card ∧
    List.Sorted recGE (merge_dedup old new).1 := by
  have hseen : old.foldl dictInsertRec [] = old := by
    have := buildSeen_eq old [] (by simpa using h)
    simpa using this
  have hperm : (merge_dedup old new).1.Perm (addNew old new 0).1 := by
    unfold merge_dedup
    rw [hseen]
    exact List.perm_insertionSort recGE (addNew old new 0).1
  refine ⟨?_, ?_, ?_, ?_⟩
  · have h1 := addNew_nodup new old 0 h
    exact ((hperm.map unique_key).nodup_iff).mpr h1
  · intro x hx
    exact hperm.mem_iff.mpr (addNew_seen_mem new old 0 x hx)
  · show (addNew (old.foldl dictInsertRec []) new 0).2 = _
    rw [hseen, addNew_count new old 0]
    omega
  · unfold merge_dedup
    exact List.sorted_insertionSort recGE (addNew (old.foldl dictInsertRec []) new 0).1

/-- Witness for C10 amended at a concrete merge: the old record survives and
the added count is one (one fresh key, one duplicate-of-old key in new). -/
theorem c10_witness :
    ((⟨"01.01.2024", "10:00", "A", "T", "u1"⟩ : PlayRec) ∈
      (merge_dedup
        [⟨"01.01.2024", "10:00", "A", "T", "u1"⟩]
        [⟨"02.01.2024", "09:00", "B", "T2", "u2"⟩,
         ⟨"01.01.2024", "10:00", "A", "T", "u3"⟩]).1) ∧
    (merge_dedup
        [⟨"01.01.2024", "10:00", "A", "T", "u1"⟩]
        [⟨"02.01.2024", "09:00", "B", "T2", "u2"⟩,
         ⟨"01.01.2024", "10:00", "A", "T", "u3"⟩]).2 = 1 := by
  have h := c10_merge_dedup_amended
    [⟨"01.01.2024", "10:00", "A", "T", "u1"⟩]
    [⟨"02.01.2024", "09:00", "B", "T2", "u2"⟩,
     ⟨"01.01.2024", "10:00", "A", "T", "u3"⟩] (by decide)
  refine ⟨h.2.1 _ (List.mem_singleton.mpr rfl), ?_⟩
  rw [h.2.2.1]
  decide

/-! ## Idempotence of the artist-country pass -/

theorem acitem_set_self (it : ACItem) (v : Option String)
    (h : it.artist_country = v) : ({ it with artist_country := v } : ACItem) = it := by
  cases it
  simp_all

/-- The stable shape a record has after a non-exhausted artist-country run:
either its country field is resolved, or the artist is empty and the field is
NOT_FOUND, or the cache holds a usable string for its key agreeing with the
field (CACHE_MISS paired with NOT_FOUND, any other string echoed verbatim).
A second pass over such a record is the identity. -/
def GoodAC (c : List (String × CVal)) (it : ACItem) : Prop :=
  acResolved it.artist_country = true ∨
  (pyStrip (orEmpty it.artist) = "" ∧ it.artist_country = some NOT_FOUND) ∨
  (pyStrip (orEmpty it.artist) ≠ "" ∧
    ∃ v, cacheGet c (cache_key_artist (pyStrip (orEmpty it.artist))) =
        some (CVal.str v) ∧ v ≠ "" ∧
      ((v = CACHE_MISS ∧ it.artist_country = some NOT_FOUND) ∨
       (v ≠ CACHE_MISS ∧ it.artist_country = some v)))

theorem acStep_fix (oracle : String → Option String) (limit : Nat) (s : ACState)
    (it : ACItem) (hg : GoodAC s.cache it) :
    acStep oracle limit false s it = (it, s) := by
  rcases hg with hres | ⟨hemp, hnf⟩ | ⟨hne, v, hget, hv, hcase⟩
  · unfold acStep
    rw [if_pos ⟨by simp, hres⟩]
  · unfold acStep
    by_cases h1 : ¬ false = true ∧ acResolved it.artist_country = true
    · rw [if_pos h1]
    · rw [if_neg h1, if_pos hemp]
      rw [acitem_set_self it (some NOT_FOUND) hnf]
  · unfold acStep
    by_cases h1 : ¬ false = true ∧ acResolved it.artist_country = true
    · rw [if_pos h1]
    · rw [if_neg h1]
      rw [if_neg (by simpa using hne)]
      rcases hcase with ⟨hm, hnf⟩ | ⟨hm, heq⟩
      · rw [if_pos ⟨by rw [hget, hm], by simp⟩]
        rw [acitem_set_self it (some NOT_FOUND) hnf]
      · rw [if_neg (by
          rintro ⟨hc, _⟩
          rw [hget] at hc
          injection hc with h2
          injection h2 with h3
          exact hm h3)]
        rw [hget]
        dsimp only
        rw [if_pos ⟨hm, hv⟩]
        rw [acitem_set_self it (some v) heq]

theorem acStep_post (oracle : String → Option String) (limit : Nat) (s : ACState)
    (it : ACItem)
    (hlt : (acStep oracle limit false s it).2.lookups < limit) :
    GoodAC (acStep oracle limit false s it).2.cache
      (acStep oracle limit false s it).1 := by
  unfold acStep at hlt ⊢
  by_cases h1 : ¬ false = true ∧ acResolved it.artist_country = true
  · rw [if_pos h1] at hlt ⊢
    left
    exact h1.2
  · rw [if_neg h1] at hlt ⊢
    by_cases h2 : pyStrip (orEmpty it.artist) = ""
    · rw [if_pos h2] at hlt ⊢
      right; left
      exact ⟨h2, rfl⟩
    · rw [if_neg h2] at hlt ⊢
      by_cases h3 : cacheGet s.cache (cache_key_artist (pyStrip (orEmpty it.artist))) =
          some (CVal.str CACHE_MISS) ∧ ¬ false = true
      · rw [if_pos h3] at hlt ⊢
        right; right
        refine ⟨h2, CACHE_MISS, h3.1, by decide, Or.inl ⟨rfl, rfl⟩⟩
      · rw [if_neg h3] at hlt ⊢
        have hlook : ∀ st, st = cacheGet s.cache
              (cache_key_artist (pyStrip (orEmpty it.artist))) →
            (acStepLookup oracle limit s it (pyStrip (orEmpty it.artist))
              (cache_key_artist (pyStrip (orEmpty it.artist)))).2.lookups < limit →
            GoodAC (acStepLookup oracle limit s it (pyStrip (orEmpty it.artist))
                (cache_key_artist (pyStrip (orEmpty it.artist)))).2.cache
              (acStepLookup oracle limit s it (pyStrip (orEmpty it.artist))
                (cache_key_artist (pyStrip (orEmpty it.artist)))).1 := by
          intro st _ hlt2
          unfold acStepLookup at hlt2 ⊢
          by_cases h4 : limit ≤ s.lookups
          · rw [if_pos h4] at hlt2
            exact absurd hlt2 (Nat.not_lt.mpr h4)
          · rw [if_neg h4] at hlt2 ⊢
            cases hc : oracle (pyStrip (orEmpty it.artist)) with
            | none =>
              right; right
              refine ⟨h2, CACHE_MISS, ?_, by decide, Or.inl ⟨rfl, rfl⟩⟩
              exact cacheGet_set_same _ _ _
            | some c =>
              dsimp only
              by_cases hce : c ≠ ""
              · rw [if_pos hce]
                by_cases hres : acResolved (some c) = true
                · left; exact hres
                · right; right
                  have hcnf : c = NOT_FOUND := by
                    unfold acResolved at hres
                    simp only [Bool.and_eq_true, decide_eq_true_eq] at hres
                    by_cases hnf : c = NOT_FOUND
                    · exact hnf
                    · exact absurd ⟨hce, hnf⟩ hres
                  refine ⟨h2, c, ?_, hce, Or.inr ⟨by rw [hcnf]; decide, rfl⟩⟩
                  exact cacheGet_set_same _ _ _
              · rw [if_neg hce]
                right; right
                refine ⟨h2, CACHE_MISS, ?_, by decide, Or.inl ⟨rfl, rfl⟩⟩
                exact cacheGet_set_same _ _ _
        cases hst : cacheGet s.cache (cache_key_artist (pyStrip (orEmpty it.artist))) with
        | none =>
          rw [hst] at hlt
          exact hlook none hst.symm hlt
        | some cv =>
          cases cv with
          | other =>
            rw [hst] at hlt
            exact hlook (some CVal.other) hst.symm hlt
          | str v =>
            rw [hst] at hlt
            dsimp only at hlt ⊢
            by_cases h4 : v ≠ CACHE_MISS ∧ v ≠ ""
            · rw [if_pos h4] at hlt ⊢
              right; right
              exact ⟨h2, v, hst, h4.2, Or.inr ⟨h4.1, rfl⟩⟩
            · rw [if_neg h4] at hlt ⊢
              exact hlook (some (CVal.str v)) hst.symm hlt

theorem goodAC_mono (c c2 : List (String × CVal)) (it : ACItem)
    (hsub : ∀ k v, cacheGet c k = some (CVal.str v) → v ≠ "" →
      cacheGet c2 k = some (CVal.str v))
    (hg : GoodAC c it) : GoodAC c2 it := by
  rcases hg with h | h | ⟨hne, v, hget, hv, hcase⟩
  · left; exact h
  · right; left; exact h
  · right; right
    exact ⟨hne, v, hsub _ v hget hv, hv, hcase⟩

theorem acStep_cache_ext (oracle : String → Option String) (limit : Nat)
    (s : ACState) (it : ACItem) (k : String) (v : String)
    (hget : cacheGet s.cache k = some (CVal.str v)) (hv : v ≠ "") :
    cacheGet (acStep oracle limit false s it).2.cache k = some (CVal.str v) := by
  unfold acStep
  by_cases h1 : ¬ false = true ∧ acResolved it.artist_country = true
  · rw [if_pos h1]; exact hget
  · rw [if_neg h1]
    by_cases h2 : pyStrip (orEmpty it.artist) = ""
    · rw [if_pos h2]; exact hget
    · rw [if_neg h2]
      by_cases h3 : cacheGet s.cache (cache_key_artist (pyStrip (orEmpty it.artist))) =
          some (CVal.str CACHE_MISS) ∧ ¬ false = true
      · rw [if_pos h3]; exact hget
      · rw [if_neg h3]
        have hlook : (∀ w, cacheGet s.cache
              (cache_key_artist (pyStrip (orEmpty it.artist))) =
              some (CVal.str w) → w = "") →
            cacheGet (acStepLookup oracle limit s it (pyStrip (orEmpty it.artist))
              (cache_key_artist (pyStrip (orEmpty it.artist)))).2.cache k =
              some (CVal.str v) := by
          intro hbad
          unfold acStepLookup
          by_cases h4 : limit ≤ s.lookups
          · rw [if_pos h4]; exact hget
          · rw [if_neg h4]
            have hkne : cache_key_artist (pyStrip (orEmpty it.artist)) ≠ k := by
              intro heq
              rw [heq, hget] at hbad
              exact hv (hbad v rfl)
            cases hc : oracle (pyStrip (orEmpty it.artist)) with
            | none =>
              dsimp only
              rw [cacheGet_set_ne _ _ _ _ hkne]
              exact hget
            | some c =>
              dsimp only
              by_cases hce : c ≠ ""
              · rw [if_pos hce]
                dsimp only
                rw [cacheGet_set_ne _ _ _ _ hkne]
                exact hget
              · rw [if_neg hce]
                dsimp only
                rw [cacheGet_set_ne _ _ _ _ hkne]
                exact hget
        cases hst : cacheGet s.cache (cache_key_artist (pyStrip (orEmpty it.artist))) with
        | none =>
          exact hlook (by intro w hw; rw [hw] at hst; cases hst)
        | some cv =>
          cases cv with
          | other =>
            exact hlook (by intro w hw; rw [hw] at hst; cases hst)
          | str w =>
            dsimp only
            by_cases h4 : w ≠ CACHE_MISS ∧ w ≠ ""
            · rw [if_pos h4]; exact hget
            · rw [if_neg h4]
              refine hlook ?_
              intro w2 hw2
              rw [hst] at hw2
              injection hw2 with hw3
              injection hw3 with hw4
              subst hw4
              by_cases hm : w = CACHE_MISS
              · exact absurd (by rw [hm] at hst; exact ⟨hst, by simp⟩) h3
              · by_cases hemp : w = ""
                · exact hemp
                · exact absurd ⟨hm, hemp⟩ h4

theorem acRun_lookups_mono (oracle : String → Option String) (limit : Nat)
    (force : Bool) (items : List ACItem) (s : ACState) :
    s.lookups ≤ (acRun oracle limit force s items).2.lookups := by
  induction items generalizing s with
  | nil => exact Nat.le_refl _
  | cons it rest ih =>
    show s.lookups ≤ (acRun oracle limit force (acStep oracle limit force s it).2 rest).2.lookups
    refine Nat.le_trans ?_ (ih (acStep oracle limit force s it).2)
    rcases acStep_effects oracle limit force s it with ⟨_, hl⟩ | ⟨_, hl⟩
    · rw [hl]
    · rw [hl]; exact Nat.le_succ _

theorem acRun_cache_ext (oracle : String → Option String) (limit : Nat)
    (items : List ACItem) (s : ACState) (k : String) (v : String)
    (hget : cacheGet s.cache k = some (CVal.str v)) (hv : v ≠ "") :
    cacheGet (acRun oracle limit false s items).2.cache k = some (CVal.str v) := by
  induction items generalizing s with
  | nil => exact hget
  | cons it rest ih =>
    show cacheGet (acRun oracle limit false (acStep oracle limit false s it).2 rest).2.cache k =
      some (CVal.str v)
    exact ih (acStep oracle limit false s it).2
      (acStep_cache_ext oracle limit s it k v hget hv)

theorem acRun_post (oracle : String → Option String) (limit : Nat)
    (items : List ACItem) (s : ACState)
    (hlt : (acRun oracle limit false s items).2.lookups < limit) :
    ∀ x ∈ (acRun oracle limit false s items).1,
      GoodAC (acRun oracle limit false s items).2.cache x := by
  induction items generalizing s with
  | nil => intro x hx; cases hx
  | cons it rest ih =>
    intro x hx
    have hshape : acRun oracle limit false s (it :: rest) =
        ((acStep oracle limit false s it).1 ::
          (acRun oracle limit false (acStep oracle limit false s it).2 rest).1,
         (acRun oracle limit false (acStep oracle limit false s it).2 rest).2) := rfl
    rw [hshape] at hx hlt ⊢
    rcases List.mem_cons.mp hx with hx1 | hx2
    · subst hx1
      have hstep_lt : (acStep oracle limit false s it).2.lookups < limit :=
        Nat.lt_of_le_of_lt
          (acRun_lookups_mono oracle limit false rest (acStep oracle limit false s it).2) hlt
      have hg := acStep_post oracle limit s it hstep_lt
      refine goodAC_mono _ _ _ ?_ hg
      intro k v hget hv
      exact acRun_cache_ext oracle limit rest (acStep oracle limit false s it).2 k v hget hv
    · exact ih (acStep oracle limit false s it).2 hlt x hx2

theorem acRun_fix (oracle : String → Option String) (limit : Nat)
    (items : List ACItem) (s : ACState)
    (hg : ∀ x ∈ items, GoodAC s.cache x) :
    acRun oracle limit false s items = (items, s) := by
  induction items with
  | nil => rfl
  | cons it rest ih =>
    have hstep : acStep oracle limit false s it = (it, s) :=
      acStep_fix oracle limit s it (hg it (List.mem_cons_self it rest))
    show ((acStep oracle limit false s it).1 ::
        (acRun oracle limit false (acStep oracle limit false s it).2 rest).1,
       (acRun oracle limit false (acStep oracle limit false s it).2 rest).2) = _
    rw [hstep]
    rw [ih (fun x hx => hg x (List.mem_cons_of_mem it hx))]

theorem has_all_meta_iff (it : Item) :
    has_all_meta it = true ↔
      ∀ k ∈ META_KEYS, isMissingVal (it.getKey k) = false := by
  unfold has_all_meta
  rw [List.all_eq_true]
  constructor
  · intro h k hk
    have h2 := h k hk
    simp only [decide_eq_true_eq] at h2
    cases hmv : isMissingVal (it.getKey k)
    · rfl
    · exact absurd hmv h2
  · intro h k hk
    simp only [decide_eq_true_eq]
    rw [h k hk]
    simp

theorem still_missing_false_iff (it : Item) :
    still_missing it = false ↔
      ∀ k ∈ META_KEYS, isMissingVal (it.getKey k) = false := by
  unfold still_missing
  constructor
  · intro h k hk
    cases hmv : isMissingVal (it.getKey k)
    · rfl
    · exfalso
      have h2 : META_KEYS.any (fun k => isMissingVal (it.getKey k)) = true :=
        List.any_eq_true.mpr ⟨k, hk, hmv⟩
      rw [h] at h2
      cases h2
  · intro h
    cases ha : META_KEYS.any (fun k => isMissingVal (it.getKey k))
    · rfl
    · obtain ⟨k, hk, hmv⟩ := List.any_eq_true.mp ha
      rw [h k hk] at hmv
      cases hmv

theorem has_all_meta_mono (a b : Item) (hf : FieldOk a b)
    (h : has_all_meta a = true) : has_all_meta b = true := by
  rw [has_all_meta_iff] at h ⊢
  intro k hk
  rw [(hf k).1 (h k hk)]
  exact h k hk

theorem still_missing_mono (a b : Item) (hf : FieldOk a b)
    (h : still_missing a = false) : still_missing b = false := by
  rw [still_missing_false_iff] at h ⊢
  intro k hk
  rw [(hf k).1 (h k hk)]
  exact h k hk

theorem acc_missing_mono (a b : Item) (hf : FieldOk a b)
    (h : isMissingVal a.artist_country_code = false) :
    isMissingVal b.artist_country_code = false := by
  show isMissingVal (b.getKey MKey.artist_country_code) = false
  rw [(hf MKey.artist_country_code).1 h]
  exact h

theorem anf_post (it : Item) :
    ∀ k ∈ META_KEYS, isNoneOrEmpty ((apply_not_found it).getKey k) = false := by
  intro k hk
  unfold apply_not_found
  by_cases hm : isNoneOrEmpty (it.getKey k) = true
  · rw [anfFold_write META_KEYS it k hk hm]
    decide
  · rcases anfFold_cases META_KEYS it k with h1 | ⟨_, h1⟩
    · rw [h1]
      cases hv : isNoneOrEmpty (it.getKey k)
      · rfl
      · exact absurd hv hm
    · rw [h1]
      decide

theorem setdefault_post (it : Item) :
    (setdefault_acc it).artist_country_code ≠ none := by
  unfold setdefault_acc
  cases h : it.artist_country_code with
  | none => simp
  | some v => simp [h]

theorem uim_compat_post (it : Item) (m : Meta) (keys : List MKey) :
    Compat m (update_if_missing it m keys).1 keys := by
  intro k hk hmiss
  unfold update_if_missing at hmiss ⊢
  by_cases hs : srcSkip (m.getKey k) = true
  · left
    exact hs
  · right
    have hs2 : srcSkip (m.getKey k) = false := by
      cases hv : srcSkip (m.getKey k)
      · rfl
      · exact absurd hv hs
    have hres : ((keys.foldl (uimStep m) (it, false, false)).1).getKey k = m.getKey k := by
      rcases uimFold_cases keys m (it, false, false) k with h1 | ⟨_, h1, _⟩
      · exact uimFold_write keys m (it, false, false) k hk
          (by rw [← h1]; exact hmiss) hs2
      · exact h1
    have hnf : m.getKey k = some NFV := by
      rw [← hres]
      exact missing_not_skip_eq_nfv _ hmiss (by rw [hres]; exact hs2)
    exact ⟨hnf, by rw [hres, hnf]⟩

theorem compat_lift (m : Meta) (b c : Item) (keys : List MKey)
    (hc : Compat m b keys) (hf : FieldOk b c) : Compat m c keys := by
  intro k hk hmiss
  by_cases hmb : isMissingVal (b.getKey k) = true
  · rcases hc k hk hmb with hs | ⟨h1, h2⟩
    · left
      exact hs
    · rcases (hf k).2 hmiss with hcb | hnf
      · right
        exact ⟨h1, by rw [hcb]; exact h2⟩
      · right
        exact ⟨h1, hnf⟩
  · have hmb2 : isMissingVal (b.getKey k) = false := by
      cases hv : isMissingVal (b.getKey k)
      · rfl
      · exact absurd hv hmb
    have := (hf k).1 hmb2
    rw [this] at hmiss
    exact absurd hmiss hmb

theorem uim_artist (it : Item) (m : Meta) (keys : List MKey) :
    (update_if_missing it m keys).1.artist = it.artist :=
  uimFold_artist keys m (it, false, false)

theorem uim_title (it : Item) (m : Meta) (keys : List MKey) :
    (update_if_missing it m keys).1.title = it.title :=
  uimFold_title keys m (it, false, false)

theorem anf_artist (it : Item) : (apply_not_found it).artist = it.artist :=
  anfFold_artist META_KEYS it

theorem anf_title (it : Item) : (apply_not_found it).title = it.title :=
  anfFold_title META_KEYS it

theorem itunesTry_ident (itF : String → String → Option Meta) (itLimit idx : Nat)
    (s : ItState) (it0 : Item) (a t k : String) :
    (itunesTry itF itLimit idx s it0 a t k).1.artist = it0.artist ∧
    (itunesTry itF itLimit idx s it0 a t k).1.title = it0.title := by
  unfold itunesTry
  by_cases h : s.itLookups < itLimit
  · rw [if_pos h]
    cases itF a t with
    | none => exact ⟨rfl, rfl⟩
    | some m => exact ⟨uim_artist it0 m META_KEYS, uim_title it0 m META_KEYS⟩
  · rw [if_neg h]
    exact ⟨rfl, rfl⟩

theorem itunesPhase_ident (itF : String → String → Option Meta) (itLimit : Nat)
    (force : Bool) (idx : Nat) (s : ItState) (it0 : Item) (a t k : String) :
    (itunesPhase itF itLimit force idx s it0 a t k).1.artist = it0.artist ∧
    (itunesPhase itF itLimit force idx s it0 a t k).1.title = it0.title := by
  unfold itunesPhase
  by_cases h1 : (force || ¬ has_all_meta it0) = true
  · rw [if_pos h1]
    cases hst : cacheGet s.itCache k with
    | none => exact itunesTry_ident itF itLimit idx s it0 a t k
    | some cv =>
      cases cv with
      | miss =>
        by_cases hf : ¬ force = true
        · dsimp only
          rw [if_pos hf]
          exact ⟨rfl, rfl⟩
        · dsimp only
          rw [if_neg hf]
          exact itunesTry_ident itF itLimit idx s it0 a t k
      | meta m =>
        by_cases hf : force = true
        · dsimp only
          rw [if_pos hf]
          exact itunesTry_ident itF itLimit idx s it0 a t k
        · dsimp only
          rw [if_neg hf]
          exact ⟨uim_artist it0 m META_KEYS, uim_title it0 m META_KEYS⟩
  · rw [if_neg h1]
    exact ⟨rfl, rfl⟩

theorem mbTry_ident (mbF : String → String → Option Meta) (mbLimit idx : Nat)
    (s : ItState) (it1 : Item) (a t k : String) :
    (mbTry mbF mbLimit idx s it1 a t k).1.artist = it1.artist ∧
    (mbTry mbF mbLimit idx s it1 a t k).1.title = it1.title := by
  unfold mbTry
  by_cases h : s.mbLookups < mbLimit
  · rw [if_pos h]
    cases mbF a t with
    | none => exact ⟨setdefault_acc_artist it1, setdefault_acc_title it1⟩
    | some m =>
      constructor
      · show (update_if_missing (update_if_missing it1 m META_KEYS).1 m
            [MKey.artist_country_code]).1.artist = it1.artist
        rw [uim_artist, uim_artist]
      · show (update_if_missing (update_if_missing it1 m META_KEYS).1 m
            [MKey.artist_country_code]).1.title = it1.title
        rw [uim_title, uim_title]
  · rw [if_neg h]
    exact ⟨setdefault_acc_artist it1, setdefault_acc_title it1⟩

theorem mbPhase_ident (mbF : String → String → Option Meta) (mbLimit : Nat)
    (force : Bool) (idx : Nat) (s : ItState) (it1 : Item) (a t k : String) :
    (mbPhase mbF mbLimit force idx s it1 a t k).1.artist = it1.artist ∧
    (mbPhase mbF mbLimit force idx s it1 a t k).1.title = it1.title := by
  unfold mbPhase
  by_cases h1 : (still_missing it1 || isMissingVal it1.artist_country_code || force) = true
  · rw [if_pos h1]
    cases hst : cacheGet s.mbCache k with
    | none => exact mbTry_ident mbF mbLimit idx s it1 a t k
    | some cv =>
      cases cv with
      | miss =>
        by_cases hf : ¬ force = true
        · dsimp only
          rw [if_pos hf]
          exact ⟨setdefault_acc_artist it1, setdefault_acc_title it1⟩
        · dsimp only
          rw [if_neg hf]
          exact mbTry_ident mbF mbLimit idx s it1 a t k
      | meta m =>
        by_cases hf : force = true
        · dsimp only
          rw [if_pos hf]
          exact mbTry_ident mbF mbLimit idx s it1 a t k
        · dsimp only
          rw [if_neg hf]
          constructor
          · show (update_if_missing (update_if_missing it1 m META_KEYS).1 m
                [MKey.artist_country_code]).1.artist = it1.artist
            rw [uim_artist, uim_artist]
          · show (update_if_missing (update_if_missing it1 m META_KEYS).1 m
                [MKey.artist_country_code]).1.title = it1.title
            rw [uim_title, uim_title]
  · rw [if_neg h1]
    exact ⟨rfl, rfl⟩

theorem finishStep_ident (s : ItState) (it2 : Item) :
    (finishStep s it2).1.artist = it2.artist ∧
    (finishStep s it2).1.title = it2.title := by
  unfold finishStep
  by_cases h1 : ¬ has_all_meta it2 = true
  · rw [if_pos h1]
    constructor
    · show (setdefault_acc (apply_not_found it2)).artist = it2.artist
      rw [setdefault_acc_artist, anf_artist]
    · show (setdefault_acc (apply_not_found it2)).title = it2.title
      rw [setdefault_acc_title, anf_title]
  · rw [if_neg h1]
    exact ⟨setdefault_acc_artist it2, setdefault_acc_title it2⟩

theorem finishStep_post (s : ItState) (it2 : Item) :
    (∀ k ∈ META_KEYS, isNoneOrEmpty ((finishStep s it2).1.getKey k) = false) ∧
    (finishStep s it2).1.artist_country_code ≠ none := by
  unfold finishStep
  by_cases h1 : ¬ has_all_meta it2 = true
  · rw [if_pos h1]
    constructor
    · intro k hk
      show isNoneOrEmpty ((setdefault_acc (apply_not_found it2)).getKey k) = false
      rw [setdefault_acc_meta _ _ (meta_keys_ne_acc k hk)]
      exact anf_post it2 k hk
    · exact setdefault_post (apply_not_found it2)
  · rw [if_neg h1]
    constructor
    · intro k hk
      show isNoneOrEmpty ((setdefault_acc it2).getKey k) = false
      rw [setdefault_acc_meta _ _ (meta_keys_ne_acc k hk)]
      apply noe_false_of_missing_false
      have h2 : has_all_meta it2 = true := by
        cases hv : has_all_meta it2
        · exact absurd (by rw [hv]; exact fun h => by cases h) h1
        · rfl
      exact (has_all_meta_iff it2).mp h2 k hk
    · exact setdefault_post it2

theorem itunesPhase_post (itF : String → String → Option Meta) (itLimit idx : Nat)
    (s : ItState) (it0 : Item) (a t k : String)
    (hlt : (itunesPhase itF itLimit false idx s it0 a t k).2.itLookups < itLimit)
    (hm : has_all_meta (itunesPhase itF itLimit false idx s it0 a t k).1 = false) :
    cacheGet (itunesPhase itF itLimit false idx s it0 a t k).2.itCache k =
        some ICVal.miss ∨
      ∃ m, cacheGet (itunesPhase itF itLimit false idx s it0 a t k).2.itCache k =
          some (ICVal.meta m) ∧
        Compat m (itunesPhase itF itLimit false idx s it0 a t k).1 META_KEYS := by
  unfold itunesPhase at hlt hm ⊢
  by_cases h1 : (false || ¬ has_all_meta it0) = true
  · rw [if_pos h1] at hlt hm ⊢
    cases hst : cacheGet s.itCache k with
    | none =>
      rw [hst] at hlt hm
      dsimp only at hlt hm ⊢
      unfold itunesTry at hlt hm ⊢
      by_cases hg : s.itLookups < itLimit
      · rw [if_pos hg] at hlt hm ⊢
        cases hc : itF a t with
        | none =>
          left
          exact cacheGet_set_same _ _ _
        | some m =>
          right
          exact ⟨m, cacheGet_set_same _ _ _, uim_compat_post it0 m META_KEYS⟩
      · rw [if_neg hg] at hlt
        exact absurd hlt hg
    | some cv =>
      cases cv with
      | miss =>
        rw [hst] at hlt hm
        dsimp only at hlt hm ⊢
        rw [if_pos (by decide : ¬ false = true)] at hlt hm ⊢
        left
        exact hst
      | meta m =>
        rw [hst] at hlt hm
        dsimp only at hlt hm ⊢
        rw [if_neg (by decide : ¬ false = true)] at hlt hm ⊢
        right
        exact ⟨m, hst, uim_compat_post it0 m META_KEYS⟩
  · rw [if_neg h1] at hm
    exfalso
    apply h1
    have hm2 : has_all_meta it0 = false := hm
    simp [hm2]

theorem mbPhase_post (mbF : String → String → Option Meta) (mbLimit idx : Nat)
    (s : ItState) (it1 : Item) (a t k : String)
    (hlt : (mbPhase mbF mbLimit false idx s it1 a t k).2.mbLookups < mbLimit)
    (hg : (still_missing (mbPhase mbF mbLimit false idx s it1 a t k).1 ||
        isMissingVal (mbPhase mbF mbLimit false idx s it1 a t k).1.artist_country_code)
        = true) :
    cacheGet (mbPhase mbF mbLimit false idx s it1 a t k).2.mbCache k =
        some ICVal.miss ∨
      ∃ m, cacheGet (mbPhase mbF mbLimit false idx s it1 a t k).2.mbCache k =
          some (ICVal.meta m) ∧
        Compat m (mbPhase mbF mbLimit false idx s it1 a t k).1 META_KEYS ∧
        Compat m (mbPhase mbF mbLimit false idx s it1 a t k).1
          [MKey.artist_country_code] := by
  unfold mbPhase at hlt hg ⊢
  by_cases h1 : (still_missing it1 || isMissingVal it1.artist_country_code || false) = true
  · rw [if_pos h1] at hlt hg ⊢
    cases hst : cacheGet s.mbCache k with
    | none =>
      rw [hst] at hlt hg
      dsimp only at hlt hg ⊢
      unfold mbTry at hlt hg ⊢
      by_cases hgd : s.mbLookups < mbLimit
      · rw [if_pos hgd] at hlt hg ⊢
        cases hc : mbF a t with
        | none =>
          left
          exact cacheGet_set_same _ _ _
        | some m =>
          right
          refine ⟨m, cacheGet_set_same _ _ _, ?_, ?_⟩
          · exact compat_lift m _ _ META_KEYS (uim_compat_post it1 m META_KEYS)
              (fieldOk_uim _ m [MKey.artist_country_code])
          · exact uim_compat_post _ m [MKey.artist_country_code]
      · rw [if_neg hgd] at hlt
        exact absurd hlt hgd
    | some cv =>
      cases cv with
      | miss =>
        rw [hst] at hlt hg
        dsimp only at hlt hg ⊢
        rw [if_pos (by decide : ¬ false = true)] at hlt hg ⊢
        left
        exact hst
      | meta m =>
        rw [hst] at hlt hg
        dsimp only at hlt hg ⊢
        rw [if_neg (by decide : ¬ false = true)] at hlt hg ⊢
        right
        refine ⟨m, hst, ?_, ?_⟩
        · exact compat_lift m _ _ META_KEYS (uim_compat_post it1 m META_KEYS)
            (fieldOk_uim _ m [MKey.artist_country_code])
        · exact uim_compat_post _ m [MKey.artist_country_code]
  · rw [if_neg h1] at hg
    exfalso
    apply h1
    have hg2 : (still_missing it1 || isMissingVal it1.artist_country_code) = true := hg
    simp only [Bool.or_false]
    exact hg2

/-- The enrich_items fixpoint invariant: every META field already holds a
value (possibly the NOT_FOUND placeholder), the artist_country_code key is
present, and whenever the loop would consult a cache, the consulted entry is
present and compatible with the item, so no lookup and no field change can
result. -/
def GoodIt (cit cmb : List (String × ICVal)) (it : Item) : Prop :=
  (∀ k ∈ META_KEYS, isNoneOrEmpty (it.getKey k) = false) ∧
  it.artist_country_code ≠ none ∧
  (pyStrip (orEmpty it.artist) ≠ "" → pyStrip (orEmpty it.title) ≠ "" →
    has_all_meta it = false →
    (cacheGet cit (cache_key (pyStrip (orEmpty it.artist))
        (pyStrip (orEmpty it.title))) = some ICVal.miss ∨
     ∃ m, cacheGet cit (cache_key (pyStrip (orEmpty it.artist))
        (pyStrip (orEmpty it.title))) = some (ICVal.meta m) ∧
       Compat m it META_KEYS)) ∧
  (pyStrip (orEmpty it.artist) ≠ "" → pyStrip (orEmpty it.title) ≠ "" →
    (still_missing it || isMissingVal it.artist_country_code) = true →
    (cacheGet cmb (cache_key (pyStrip (orEmpty it.artist))
        (pyStrip (orEmpty it.title))) = some ICVal.miss ∨
     ∃ m, cacheGet cmb (cache_key (pyStrip (orEmpty it.artist))
        (pyStrip (orEmpty it.title))) = some (ICVal.meta m) ∧
       Compat m it META_KEYS ∧ Compat m it [MKey.artist_country_code]))

theorem itunesPhase_fix (itF : String → String → Option Meta) (itLimit idx : Nat)
    (s : ItState) (it : Item) (a t k : String)
    (hF3 : has_all_meta it = false →
      (cacheGet s.itCache k = some ICVal.miss ∨
       ∃ m, cacheGet s.itCache k = some (ICVal.meta m) ∧ Compat m it META_KEYS)) :
    (itunesPhase itF itLimit false idx s it a t k).1 = it ∧
    (itunesPhase itF itLimit false idx s it a t k).2.itCache = s.itCache ∧
    (itunesPhase itF itLimit false idx s it a t k).2.mbCache = s.mbCache ∧
    (itunesPhase itF itLimit false idx s it a t k).2.itLookups = s.itLookups ∧
    (itunesPhase itF itLimit false idx s it a t k).2.mbLookups = s.mbLookups := by
  unfold itunesPhase
  by_cases hall : has_all_meta it = true
  · rw [if_neg (by simp [hall])]
    exact ⟨rfl, rfl, rfl, rfl, rfl⟩
  · have hallf : has_all_meta it = false := by
      cases hv : has_all_meta it
      · rfl
      · exact absurd hv hall
    rw [if_pos (by simp [hallf])]
    rcases hF3 hallf with hmiss | ⟨m, hmeta, hcompat⟩
    · rw [hmiss]
      dsimp only
      rw [if_pos (by decide : ¬ false = true)]
      exact ⟨rfl, rfl, rfl, rfl, rfl⟩
    · rw [hmeta]
      dsimp only
      rw [if_neg (by decide : ¬ false = true)]
      refine ⟨?_, rfl, rfl, rfl, rfl⟩
      exact uimFold_compat_id META_KEYS m (it, false, false) hcompat

theorem mbPhase_fix (mbF : String → String → Option Meta) (mbLimit idx : Nat)
    (s : ItState) (it : Item) (a t k : String)
    (hP2 : it.artist_country_code ≠ none)
    (hF4 : (still_missing it || isMissingVal it.artist_country_code) = true →
      (cacheGet s.mbCache k = some ICVal.miss ∨
       ∃ m, cacheGet s.mbCache k = some (ICVal.meta m) ∧
         Compat m it META_KEYS ∧ Compat m it [MKey.artist_country_code])) :
    (mbPhase mbF mbLimit false idx s it a t k).1 = it ∧
    (mbPhase mbF mbLimit false idx s it a t k).2.itCache = s.itCache ∧
    (mbPhase mbF mbLimit false idx s it a t k).2.mbCache = s.mbCache ∧
    (mbPhase mbF mbLimit false idx s it a t k).2.itLookups = s.itLookups ∧
    (mbPhase mbF mbLimit false idx s it a t k).2.mbLookups = s.mbLookups := by
  unfold mbPhase
  by_cases hgd : (still_missing it || isMissingVal it.artist_country_code) = true
  · rw [if_pos (by simp only [Bool.or_false]; exact hgd)]
    rcases hF4 hgd with hmiss | ⟨m, hmeta, hc1, hc2⟩
    · rw [hmiss]
      dsimp only
      rw [if_pos (by decide : ¬ false = true)]
      exact ⟨setdefault_acc_id it hP2, rfl, rfl, rfl, rfl⟩
    · rw [hmeta]
      dsimp only
      rw [if_neg (by decide : ¬ false = true)]
      refine ⟨?_, rfl, rfl, rfl, rfl⟩
      have hra : (update_if_missing it m META_KEYS).1 = it :=
        uimFold_compat_id META_KEYS m (it, false, false) hc1
      show (update_if_missing (update_if_missing it m META_KEYS).1 m
          [MKey.artist_country_code]).1 = it
      rw [hra]
      exact uimFold_compat_id [MKey.artist_country_code] m (it, false, false) hc2
  · rw [if_neg (by simp only [Bool.or_false]; exact hgd)]
    exact ⟨rfl, rfl, rfl, rfl, rfl⟩

theorem finishStep_fix (s : ItState) (it : Item)
    (hP1 : ∀ k ∈ META_KEYS, isNoneOrEmpty (it.getKey k) = false)
    (hP2 : it.artist_country_code ≠ none) :
    finishStep s it = (it, s) := by
  unfold finishStep
  have hanf : apply_not_found it = it := anfFold_id META_KEYS it hP1
  by_cases h1 : ¬ has_all_meta it = true
  · rw [if_pos h1]
    dsimp only
    rw [hanf]
    rw [if_neg (by simp : ¬ (metaFields it ≠ metaFields it))]
    rw [setdefault_acc_id it hP2]
  · rw [if_neg h1]
    dsimp only
    rw [setdefault_acc_id it hP2]

theorem enrichStep_fix (itF mbF : String → String → Option Meta)
    (itLimit mbLimit idx : Nat) (s : ItState) (it : Item)
    (hg : GoodIt s.itCache s.mbCache it) :
    (enrichStep itF mbF itLimit mbLimit false idx s it).1 = it ∧
    (enrichStep itF mbF itLimit mbLimit false idx s it).2.itCache = s.itCache ∧
    (enrichStep itF mbF itLimit mbLimit false idx s it).2.mbCache = s.mbCache ∧
    (enrichStep itF mbF itLimit mbLimit false idx s it).2.itLookups = s.itLookups ∧
    (enrichStep itF mbF itLimit mbLimit false idx s it).2.mbLookups = s.mbLookups := by
  obtain ⟨hP1, hP2, hF3, hF4⟩ := hg
  unfold enrichStep
  by_cases h0 : pyStrip (orEmpty it.artist) = "" ∨ pyStrip (orEmpty it.title) = ""
  · rw [if_pos h0]
    refine ⟨?_, rfl, rfl, rfl, rfl⟩
    show setdefault_acc (apply_not_found it) = it
    rw [show apply_not_found it = it from anfFold_id META_KEYS it hP1,
      setdefault_acc_id it hP2]
  · rw [if_neg h0]
    dsimp only
    have h0a : pyStrip (orEmpty it.artist) ≠ "" := fun h => h0 (Or.inl h)
    have h0t : pyStrip (orEmpty it.title) ≠ "" := fun h => h0 (Or.inr h)
    obtain ⟨hi0, hi1, hi2, hi3, hi4⟩ :=
      itunesPhase_fix itF itLimit idx s it
        (pyStrip (orEmpty it.artist)) (pyStrip (orEmpty it.title))
        (cache_key (pyStrip (orEmpty it.artist)) (pyStrip (orEmpty it.title)))
        (hF3 h0a h0t)
    set a := pyStrip (orEmpty it.artist) with ha
    set t := pyStrip (orEmpty it.title) with ht
    set key := cache_key a t with hkey
    set r1 := itunesPhase itF itLimit false idx s it a t key with hr1
    rw [hi0]
    obtain ⟨hm0, hm1, hm2, hm3, hm4⟩ :=
      mbPhase_fix mbF mbLimit idx r1.2 it a t key hP2
        (by rw [hi2]; exact hF4 h0a h0t)
    set r2 := mbPhase mbF mbLimit false idx r1.2 it a t key with hr2
    rw [hm0]
    rw [finishStep_fix r2.2 it hP1 hP2]
    refine ⟨rfl, ?_, ?_, ?_, ?_⟩
    · show r2.2.itCache = s.itCache
      rw [hm1, hi1]
    · show r2.2.mbCache = s.mbCache
      rw [hm2, hi2]
    · show r2.2.itLookups = s.itLookups
      rw [hm3, hi3]
    · show r2.2.mbLookups = s.mbLookups
      rw [hm4, hi4]

theorem enrichStep_post (itF mbF : String → String → Option Meta)
    (itLimit mbLimit idx : Nat) (s : ItState) (it0 : Item)
    (hlt1 : (enrichStep itF mbF itLimit mbLimit false idx s it0).2.itLookups < itLimit)
    (hlt2 : (enrichStep itF mbF itLimit mbLimit false idx s it0).2.mbLookups < mbLimit) :
    GoodIt (enrichStep itF mbF itLimit mbLimit false idx s it0).2.itCache
      (enrichStep itF mbF itLimit mbLimit false idx s it0).2.mbCache
      (enrichStep itF mbF itLimit mbLimit false idx s it0).1 := by
  unfold enrichStep at hlt1 hlt2 ⊢
  by_cases h0 : pyStrip (orEmpty it0.artist) = "" ∨ pyStrip (orEmpty it0.title) = ""
  · rw [if_pos h0] at hlt1 hlt2 ⊢
    refine ⟨?_, ?_, ?_, ?_⟩
    · intro k hk
      show isNoneOrEmpty ((setdefault_acc (apply_not_found it0)).getKey k) = false
      rw [setdefault_acc_meta _ _ (meta_keys_ne_acc k hk)]
      exact anf_post it0 k hk
    · exact setdefault_post (apply_not_found it0)
    · intro hna hnt _
      exfalso
      rcases h0 with h | h
      · apply hna
        show pyStrip (orEmpty (setdefault_acc (apply_not_found it0)).artist) = ""
        rw [setdefault_acc_artist, anf_artist, h]
      · apply hnt
        show pyStrip (orEmpty (setdefault_acc (apply_not_found it0)).title) = ""
        rw [setdefault_acc_title, anf_title, h]
    · intro hna hnt _
      exfalso
      rcases h0 with h | h
      · apply hna
        show pyStrip (orEmpty (setdefault_acc (apply_not_found it0)).artist) = ""
        rw [setdefault_acc_artist, anf_artist, h]
      · apply hnt
        show pyStrip (orEmpty (setdefault_acc (apply_not_found it0)).title) = ""
        rw [setdefault_acc_title, anf_title, h]
  · rw [if_neg h0] at hlt1 hlt2 ⊢
    dsimp only at hlt1 hlt2 ⊢
    set a := pyStrip (orEmpty it0.artist) with ha
    set t := pyStrip (orEmpty it0.title) with ht
    set key := cache_key a t with hkey
    set r1 := itunesPhase itF itLimit false idx s it0 a t key with hr1
    obtain ⟨hme1, hme2, _⟩ :=
      mbPhase_effects mbF mbLimit false idx r1.2 r1.1 a t key
    have hfm0 : FieldOk r1.1 (mbPhase mbF mbLimit false idx r1.2 r1.1 a t key).1 :=
      fieldOk_mbPhase mbF mbLimit false idx r1.2 r1.1 a t key
    have hident : (mbPhase mbF mbLimit false idx r1.2 r1.1 a t key).1.artist = r1.1.artist ∧
        (mbPhase mbF mbLimit false idx r1.2 r1.1 a t key).1.title = r1.1.title :=
      mbPhase_ident mbF mbLimit false idx r1.2 r1.1 a t key
    set r2 := mbPhase mbF mbLimit false idx r1.2 r1.1 a t key with hr2
    obtain ⟨hfe1, hfe2, hfe3, hfe4⟩ := finishStep_effects r2.2 r2.1
    rw [hfe2, hme2] at hlt1
    rw [hfe4] at hlt2
    have hfm : FieldOk r1.1 (finishStep r2.2 r2.1).1 :=
      fieldOk_trans hfm0 (fieldOk_finishStep r2.2 r2.1)
    have hff : FieldOk r2.1 (finishStep r2.2 r2.1).1 := fieldOk_finishStep r2.2 r2.1
    have hart : (finishStep r2.2 r2.1).1.artist = it0.artist := by
      rw [(finishStep_ident r2.2 r2.1).1, hident.1,
        (itunesPhase_ident itF itLimit false idx s it0 a t key).1]
    have htit : (finishStep r2.2 r2.1).1.title = it0.title := by
      rw [(finishStep_ident r2.2 r2.1).2, hident.2,
        (itunesPhase_ident itF itLimit false idx s it0 a t key).2]
    have hkeq : cache_key (pyStrip (orEmpty (finishStep r2.2 r2.1).1.artist))
        (pyStrip (orEmpty (finishStep r2.2 r2.1).1.title)) = key := by
      rw [hart, htit]
    refine ⟨?_, ?_, ?_, ?_⟩
    · exact (finishStep_post r2.2 r2.1).1
    · exact (finishStep_post r2.2 r2.1).2
    · intro hna hnt hm
      have hm1 : has_all_meta r1.1 = false := by
        cases hv : has_all_meta r1.1
        · rfl
        · rw [has_all_meta_mono r1.1 _ hfm hv] at hm
          cases hm
      have hpost := itunesPhase_post itF itLimit idx s it0 a t key hlt1 hm1
      rw [hkeq, hfe1, hme1]
      rcases hpost with hmiss | ⟨m, hmeta, hcompat⟩
      · left
        exact hmiss
      · right
        exact ⟨m, hmeta, compat_lift m r1.1 _ META_KEYS hcompat hfm⟩
    · intro hna hnt hgf
      have hg2 : (still_missing r2.1 || isMissingVal r2.1.artist_country_code) = true := by
        cases hsm : still_missing r2.1
        · cases hac : isMissingVal r2.1.artist_country_code
          · exfalso
            have h1 := still_missing_mono r2.1 _ hff hsm
            have h2 := acc_missing_mono r2.1 _ hff hac
            rw [h1, h2] at hgf
            cases hgf
          · simp
        · simp
      have hpost := mbPhase_post mbF mbLimit idx r1.2 r1.1 a t key hlt2 hg2
      rw [hkeq, hfe3]
      rcases hpost with hmiss | ⟨m, hmeta, hc1, hc2⟩
      · left
        exact hmiss
      · right
        exact ⟨m, hmeta,
          compat_lift m r2.1 _ META_KEYS hc1 hff,
          compat_lift m r2.1 _ [MKey.artist_country_code] hc2 hff⟩

theorem itunesTry_itCache_ext (itF : String → String → Option Meta)
    (itLimit idx : Nat) (s : ItState) (it0 : Item) (a t k0 : String)
    (k : String) (e : ICVal)
    (hnone : cacheGet s.itCache k0 = none)
    (hget : cacheGet s.itCache k = some e) :
    cacheGet (itunesTry itF itLimit idx s it0 a t k0).2.itCache k = some e := by
  have hkne : k0 ≠ k := fun heq => by rw [heq, hget] at hnone; cases hnone
  unfold itunesTry
  by_cases h : s.itLookups < itLimit
  · rw [if_pos h]
    cases itF a t with
    | none =>
      show cacheGet (cacheSet s.itCache k0 ICVal.miss) k = some e
      rw [cacheGet_set_ne _ _ _ _ hkne]
      exact hget
    | some m =>
      show cacheGet (cacheSet s.itCache k0 (ICVal.meta m)) k = some e
      rw [cacheGet_set_ne _ _ _ _ hkne]
      exact hget
  · rw [if_neg h]
    exact hget

theorem itunesPhase_itCache_ext (itF : String → String → Option Meta)
    (itLimit idx : Nat) (s : ItState) (it0 : Item) (a t k0 : String)
    (k : String) (e : ICVal)
    (hget : cacheGet s.itCache k = some e) :
    cacheGet (itunesPhase itF itLimit false idx s it0 a t k0).2.itCache k = some e := by
  unfold itunesPhase
  by_cases h1 : (false || ¬ has_all_meta it0) = true
  · rw [if_pos h1]
    cases hst : cacheGet s.itCache k0 with
    | none => exact itunesTry_itCache_ext itF itLimit idx s it0 a t k0 k e hst hget
    | some cv =>
      cases cv with
      | miss =>
        dsimp only
        rw [if_pos (by decide : ¬ false = true)]
        exact hget
      | meta m =>
        dsimp only
        rw [if_neg (by decide : ¬ false = true)]
        exact hget
  · rw [if_neg h1]
    exact hget

theorem mbTry_mbCache_ext (mbF : String → String → Option Meta)
    (mbLimit idx : Nat) (s : ItState) (it1 : Item) (a t k0 : String)
    (k : String) (e : ICVal)
    (hnone : cacheGet s.mbCache k0 = none)
    (hget : cacheGet s.mbCache k = some e) :
    cacheGet (mbTry mbF mbLimit idx s it1 a t k0).2.mbCache k = some e := by
  have hkne : k0 ≠ k := fun heq => by rw [heq, hget] at hnone; cases hnone
  unfold mbTry
  by_cases h : s.mbLookups < mbLimit
  · rw [if_pos h]
    cases mbF a t with
    | none =>
      show cacheGet (cacheSet s.mbCache k0 ICVal.miss) k = some e
      rw [cacheGet_set_ne _ _ _ _ hkne]
      exact hget
    | some m =>
      show cacheGet (cacheSet s.mbCache k0 (ICVal.meta m)) k = some e
      rw [cacheGet_set_ne _ _ _ _ hkne]
      exact hget
  · rw [if_neg h]
    exact hget

theorem mbPhase_mbCache_ext (mbF : String → String → Option Meta)
    (mbLimit idx : Nat) (s : ItState) (it1 : Item) (a t k0 : String)
    (k : String) (e : ICVal)
    (hget : cacheGet s.mbCache k = some e) :
    cacheGet (mbPhase mbF mbLimit false idx s it1 a t k0).2.mbCache k = some e := by
  unfold mbPhase
  by_cases h1 : (still_missing it1 || isMissingVal it1.artist_country_code || false) = true
  · rw [if_pos h1]
    cases hst : cacheGet s.mbCache k0 with
    | none => exact mbTry_mbCache_ext mbF mbLimit idx s it1 a t k0 k e hst hget
    | some cv =>
      cases cv with
      | miss =>
        dsimp only
        rw [if_pos (by decide : ¬ false = true)]
        exact hget
      | meta m =>
        dsimp only
        rw [if_neg (by decide : ¬ false = true)]
        exact hget
  · rw [if_neg h1]
    exact hget

theorem enrichStep_itCache_ext (itF mbF : String → String → Option Meta)
    (itLimit mbLimit idx : Nat) (s : ItState) (it : Item) (k : String) (e : ICVal)
    (hget : cacheGet s.itCache k = some e) :
    cacheGet (enrichStep itF mbF itLimit mbLimit false idx s it).2.itCache k =
      some e := by
  unfold enrichStep
  by_cases h0 : pyStrip (orEmpty it.artist) = "" ∨ pyStrip (orEmpty it.title) = ""
  · rw [if_pos h0]
    exact hget
  · rw [if_neg h0]
    dsimp only
    set a := pyStrip (orEmpty it.artist) with ha
    set t := pyStrip (orEmpty it.title) with ht
    set key := cache_key a t with hkey
    set r1 := itunesPhase itF itLimit false idx s it a t key with hr1
    obtain ⟨hme1, _, _⟩ := mbPhase_effects mbF mbLimit false idx r1.2 r1.1 a t key
    set r2 := mbPhase mbF mbLimit false idx r1.2 r1.1 a t key with hr2
    obtain ⟨hfe1, _, _, _⟩ := finishStep_effects r2.2 r2.1
    rw [hfe1, hme1]
    exact itunesPhase_itCache_ext itF itLimit idx s it a t key k e hget

theorem enrichStep_mbCache_ext (itF mbF : String → String → Option Meta)
    (itLimit mbLimit idx : Nat) (s : ItState) (it : Item) (k : String) (e : ICVal)
    (hget : cacheGet s.mbCache k = some e) :
    cacheGet (enrichStep itF mbF itLimit mbLimit false idx s it).2.mbCache k =
      some e := by
  unfold enrichStep
  by_cases h0 : pyStrip (orEmpty it.artist) = "" ∨ pyStrip (orEmpty it.title) = ""
  · rw [if_pos h0]
    exact hget
  · rw [if_neg h0]
    dsimp only
    set a := pyStrip (orEmpty it.artist) with ha
    set t := pyStrip (orEmpty it.title) with ht
    set key := cache_key a t with hkey
    obtain ⟨hie1, _, _⟩ := itunesPhase_effects itF itLimit false idx s it a t key
    set r1 := itunesPhase itF itLimit false idx s it a t key with hr1
    set r2 := mbPhase mbF mbLimit false idx r1.2 r1.1 a t key with hr2
    obtain ⟨_, _, hfe3, _⟩ := finishStep_effects r2.2 r2.1
    rw [hfe3, hr2]
    apply mbPhase_mbCache_ext mbF mbLimit idx r1.2 r1.1 a t key k e
    rw [hie1]
    exact hget

theorem goodIt_mono (cit cit2 cmb cmb2 : List (String × ICVal)) (it : Item)
    (hi : ∀ k e, cacheGet cit k = some e → cacheGet cit2 k = some e)
    (hm : ∀ k e, cacheGet cmb k = some e → cacheGet cmb2 k = some e)
    (hg : GoodIt cit cmb it) : GoodIt cit2 cmb2 it := by
  obtain ⟨h1, h2, h3, h4⟩ := hg
  refine ⟨h1, h2, ?_, ?_⟩
  · intro hna hnt hm0
    rcases h3 hna hnt hm0 with hmiss | ⟨m, hmeta, hc⟩
    · left
      exact hi _ _ hmiss
    · right
      exact ⟨m, hi _ _ hmeta, hc⟩
  · intro hna hnt hg0
    rcases h4 hna hnt hg0 with hmiss | ⟨m, hmeta, hc1, hc2⟩
    · left
      exact hm _ _ hmiss
    · right
      exact ⟨m, hm _ _ hmeta, hc1, hc2⟩

theorem enrichRun_counts_mono (itF mbF : String → String → Option Meta)
    (itLimit mbLimit : Nat) (items : List Item) (idx : Nat) (s : ItState) :
    s.itLookups ≤
      (enrichRunAux itF mbF itLimit mbLimit false idx s items).2.itLookups ∧
    s.mbLookups ≤
      (enrichRunAux itF mbF itLimit mbLimit false idx s items).2.mbLookups := by
  induction items generalizing idx s with
  | nil => exact ⟨Nat.le_refl _, Nat.le_refl _⟩
  | cons it rest ih =>
    obtain ⟨he1, he2⟩ := enrichStep_effects itF mbF itLimit mbLimit false idx s it
    obtain ⟨ih1, ih2⟩ :=
      ih (idx + 1) (enrichStep itF mbF itLimit mbLimit false idx s it).2
    constructor
    · refine Nat.le_trans ?_ ih1
      rcases he1 with ⟨_, hl⟩ | ⟨_, hl⟩
      · rw [hl]
      · rw [hl]
        exact Nat.le_succ _
    · refine Nat.le_trans ?_ ih2
      rcases he2 with ⟨_, hl⟩ | ⟨_, hl⟩
      · rw [hl]
      · rw [hl]
        exact Nat.le_succ _

theorem enrichRun_itCache_ext (itF mbF : String → String → Option Meta)
    (itLimit mbLimit : Nat) (items : List Item) (idx : Nat) (s : ItState)
    (k : String) (e : ICVal) (hget : cacheGet s.itCache k = some e) :
    cacheGet (enrichRunAux itF mbF itLimit mbLimit false idx s items).2.itCache k =
      some e := by
  induction items generalizing idx s with
  | nil => exact hget
  | cons it rest ih =>
    exact ih (idx + 1) (enrichStep itF mbF itLimit mbLimit false idx s it).2
      (enrichStep_itCache_ext itF mbF itLimit mbLimit idx s it k e hget)

theorem enrichRun_mbCache_ext (itF mbF : String → String → Option Meta)
    (itLimit mbLimit : Nat) (items : List Item) (idx : Nat) (s : ItState)
    (k : String) (e : ICVal) (hget : cacheGet s.mbCache k = some e) :
    cacheGet (enrichRunAux itF mbF itLimit mbLimit false idx s items).2.mbCache k =
      some e := by
  induction items generalizing idx s with
  | nil => exact hget
  | cons it rest ih =>
    exact ih (idx + 1) (enrichStep itF mbF itLimit mbLimit false idx s it).2
      (enrichStep_mbCache_ext itF mbF itLimit mbLimit idx s it k e hget)

theorem enrichRun_post (itF mbF : String → String → Option Meta)
    (itLimit mbLimit : Nat) (items : List Item) (idx : Nat) (s : ItState)
    (h1 : (enrichRunAux itF mbF itLimit mbLimit false idx s items).2.itLookups < itLimit)
    (h2 : (enrichRunAux itF mbF itLimit mbLimit false idx s items).2.mbLookups < mbLimit) :
    ∀ x ∈ (enrichRunAux itF mbF itLimit mbLimit false idx s items).1,
      GoodIt (enrichRunAux itF mbF itLimit mbLimit false idx s items).2.itCache
        (enrichRunAux itF mbF itLimit mbLimit false idx s items).2.mbCache x := by
  induction items generalizing idx s with
  | nil => intro x hx; cases hx
  | cons it rest ih =>
    intro x hx
    have hshape : enrichRunAux itF mbF itLimit mbLimit false idx s (it :: rest) =
        ((enrichStep itF mbF itLimit mbLimit false idx s it).1 ::
          (enrichRunAux itF mbF itLimit mbLimit false (idx + 1)
            (enrichStep itF mbF itLimit mbLimit false idx s it).2 rest).1,
         (enrichRunAux itF mbF itLimit mbLimit false (idx + 1)
            (enrichStep itF mbF itLimit mbLimit false idx s it).2 rest).2) := rfl
    rw [hshape] at hx h1 h2 ⊢
    rcases List.mem_cons.mp hx with hx1 | hx2
    · subst hx1
      have hlt1 : (enrichStep itF mbF itLimit mbLimit false idx s it).2.itLookups < itLimit :=
        Nat.lt_of_le_of_lt
          (enrichRun_counts_mono itF mbF itLimit mbLimit rest (idx + 1)
            (enrichStep itF mbF itLimit mbLimit false idx s it).2).1 h1
      have hlt2 : (enrichStep itF mbF itLimit mbLimit false idx s it).2.mbLookups < mbLimit :=
        Nat.lt_of_le_of_lt
          (enrichRun_counts_mono itF mbF itLimit mbLimit rest (idx + 1)
            (enrichStep itF mbF itLimit mbLimit false idx s it).2).2 h2
      have hg := enrichStep_post itF mbF itLimit mbLimit idx s it hlt1 hlt2
      refine goodIt_mono _ _ _ _ _ ?_ ?_ hg
      · intro k e hk
        exact enrichRun_itCache_ext itF mbF itLimit mbLimit rest (idx + 1) _ k e hk
      · intro k e hk
        exact enrichRun_mbCache_ext itF mbF itLimit mbLimit rest (idx + 1) _ k e hk
    · exact ih (idx + 1) (enrichStep itF mbF itLimit mbLimit false idx s it).2 h1 h2 x hx2

theorem enrichRun_fix (itF mbF : String → String → Option Meta)
    (itLimit mbLimit : Nat) (items : List Item) (idx : Nat) (s : ItState)
    (hg : ∀ x ∈ items, GoodIt s.itCache s.mbCache x) :
    (enrichRunAux itF mbF itLimit mbLimit false idx s items).1 = items ∧
    (enrichRunAux itF mbF itLimit mbLimit false idx s items).2.itCache = s.itCache ∧
    (enrichRunAux itF mbF itLimit mbLimit false idx s items).2.mbCache = s.mbCache ∧
    (enrichRunAux itF mbF itLimit mbLimit false idx s items).2.itLookups = s.itLookups ∧
    (enrichRunAux itF mbF itLimit mbLimit false idx s items).2.mbLookups = s.mbLookups := by
  induction items generalizing idx s with
  | nil => exact ⟨rfl, rfl, rfl, rfl, rfl⟩
  | cons it rest ih =>
    obtain ⟨hs0, hs1, hs2, hs3, hs4⟩ :=
      enrichStep_fix itF mbF itLimit mbLimit idx s it (hg it (List.mem_cons_self it rest))
    obtain ⟨hr0, hr1, hr2, hr3, hr4⟩ :=
      ih (idx + 1) (enrichStep itF mbF itLimit mbLimit false idx s it).2
        (fun x hx => by rw [hs1, hs2]; exact hg x (List.mem_cons_of_mem it hx))
    refine ⟨?_, ?_, ?_, ?_, ?_⟩
    · show (enrichStep itF mbF itLimit mbLimit false idx s it).1 ::
        (enrichRunAux itF mbF itLimit mbLimit false (idx + 1)
          (enrichStep itF mbF itLimit mbLimit false idx s it).2 rest).1 = it :: rest
      rw [hs0, hr0]
    · show (enrichRunAux itF mbF itLimit mbLimit false (idx + 1)
          (enrichStep itF mbF itLimit mbLimit false idx s it).2 rest).2.itCache = s.itCache
      rw [hr1, hs1]
    · show (enrichRunAux itF mbF itLimit mbLimit false (idx + 1)
          (enrichStep itF mbF itLimit mbLimit false idx s it).2 rest).2.mbCache = s.mbCache
      rw [hr2, hs2]
    · show (enrichRunAux itF mbF itLimit mbLimit false (idx + 1)
          (enrichStep itF mbF itLimit mbLimit false idx s it).2 rest).2.itLookups = s.itLookups
      rw [hr3, hs3]
    · show (enrichRunAux itF mbF itLimit mbLimit false (idx + 1)
          (enrichStep itF mbF itLimit mbLimit false idx s it).2 rest).2.mbLookups = s.mbLookups
      rw [hr4, hs4]

/-- C8 counterexample: with the iteration budget exhausted mid-run, the first
enrich_artist_country run stamps NOT_FOUND on an untried record without
caching anything, so a second run over its output with its cache performs a
fresh lookup and changes that record: the run is not idempotent as claimed. -/
theorem c8_counterexample :
    (enrich_artist_country
        (enrich_artist_country [⟨some "Aha", none, ""⟩, ⟨some "Blur", none, ""⟩]
          [] 1 false (fun _ => some "NO")).1
        (enrich_artist_country [⟨some "Aha", none, ""⟩, ⟨some "Blur", none, ""⟩]
          [] 1 false (fun _ => some "NO")).2.cache
        1 false (fun _ => some "NO")).1 ≠
      (enrich_artist_country [⟨some "Aha", none, ""⟩, ⟨some "Blur", none, ""⟩]
        [] 1 false (fun _ => some "NO")).1 := by
  decide

/-- C8 (amended): idempotence holds provided the first run finished within
its lookup budgets.  Rerunning enrich_artist_country on its own output with
its own cache returns the records unchanged with zero lookups and zero newly
enriched records, and rerunning enrich_items on its own output with its own
caches returns the records unchanged, both caches unchanged, and zero
lookups against either source.  (Without the budget hypotheses the property
fails: see the counterexample.) -/
theorem c8_idempotent_amended
    (acItems : List ACItem) (acCache : List (String × CVal)) (acLimit : Nat)
    (acOracle : String → Option String)
    (items : List Item) (cit cmb : List (String × ICVal)) (itLimit mbLimit : Nat)
    (itF mbF : String → String → Option Meta)
    (hac : (enrich_artist_country acItems acCache acLimit false acOracle).2.lookups
      < acLimit)
    (hit : (enrich_items items cit cmb itLimit mbLimit false itF mbF).2.itLookups
      < itLimit)
    (hmb : (enrich_items items cit cmb itLimit mbLimit false itF mbF).2.mbLookups
      < mbLimit) :
    enrich_artist_country
        (enrich_artist_country acItems acCache acLimit false acOracle).1
        (enrich_artist_country acItems acCache acLimit false acOracle).2.cache
        acLimit false acOracle =
      ((enrich_artist_country acItems acCache acLimit false acOracle).1,
       ⟨(enrich_artist_country acItems acCache acLimit false acOracle).2.cache,
        0, 0⟩) ∧
    ((enrich_items
        (enrich_items items cit cmb itLimit mbLimit false itF mbF).1
        (enrich_items items cit cmb itLimit mbLimit false itF mbF).2.itCache
        (enrich_items items cit cmb itLimit mbLimit false itF mbF).2.mbCache
        itLimit mbLimit false itF mbF).1 =
      (enrich_items items cit cmb itLimit mbLimit false itF mbF).1 ∧
     (enrich_items
        (enrich_items items cit cmb itLimit mbLimit false itF mbF).1
        (enrich_items items cit cmb itLimit mbLimit false itF mbF).2.itCache
        (enrich_items items cit cmb itLimit mbLimit false itF mbF).2.mbCache
        itLimit mbLimit false itF mbF).2.itCache =
      (enrich_items items cit cmb itLimit mbLimit false itF mbF).2.itCache ∧
     (enrich_items
        (enrich_items items cit cmb itLimit mbLimit false itF mbF).1
        (enrich_items items cit cmb itLimit mbLimit false itF mbF).2.itCache
        (enrich_items items cit cmb itLimit mbLimit false itF mbF).2.mbCache
        itLimit mbLimit false itF mbF).2.mbCache =
      (enrich_items items cit cmb itLimit mbLimit false itF mbF).2.mbCache ∧
     (enrich_items
        (enrich_items items cit cmb itLimit mbLimit false itF mbF).1
        (enrich_items items cit cmb itLimit mbLimit false itF mbF).2.itCache
        (enrich_items items cit cmb itLimit mbLimit false itF mbF).2.mbCache
        itLimit mbLimit false itF mbF).2.itLookups = 0 ∧
     (enrich_items
        (enrich_items items cit cmb itLimit mbLimit false itF mbF).1
        (enrich_items items cit cmb itLimit mbLimit false itF mbF).2.itCache
        (enrich_items items cit cmb itLimit mbLimit false itF mbF).2.mbCache
        itLimit mbLimit false itF mbF).2.mbLookups = 0) := by
  constructor
  · have hpost := acRun_post acOracle acLimit acItems ⟨acCache, 0, 0⟩ hac
    exact acRun_fix acOracle acLimit
      (enrich_artist_country acItems acCache acLimit false acOracle).1
      ⟨(enrich_artist_country acItems acCache acLimit false acOracle).2.cache, 0, 0⟩
      (fun x hx => hpost x hx)
  · have hpost := enrichRun_post itF mbF itLimit mbLimit items 0
      ⟨cit, cmb, 0, 0, 0, [], []⟩ hit hmb
    have hfix := enrichRun_fix itF mbF itLimit mbLimit
      (enrich_items items cit cmb itLimit mbLimit false itF mbF).1 0
      ⟨(enrich_items items cit cmb itLimit mbLimit false itF mbF).2.itCache,
       (enrich_items items cit cmb itLimit mbLimit false itF mbF).2.mbCache,
       0, 0, 0, [], []⟩
      (fun x hx => hpost x hx)
    exact hfix

/-- Witness for C8 amended: a one-record run against each loop that stays
within its budgets (one artist-country lookup, one iTunes and one MusicBrainz
lookup out of two allowed each); the second run returns the records and
caches unchanged with zero lookups. -/
theorem c8_witness :
    (enrich_artist_country [⟨some "Queen", none, ""⟩] [] 2 false
        (fun _ => some "GB")).2.lookups < 2 ∧
    (enrich_items [⟨"01.01.2024", "12:00", some "Queen", some "Bohemian Rhapsody",
        none, none, none, none, none, none⟩] [] [] 2 2 false
        (fun _ _ => some ⟨some (JVal.jint 1975), some (JVal.jint 354000),
          some (JVal.jstr "Rock"), some (JVal.jstr "Opera"), some (JVal.jint 11),
          none, some (JVal.jint 1)⟩)
        (fun _ _ => some ⟨none, none, none, none, none,
          some (JVal.jstr "GB"), none⟩)).2.itLookups < 2 ∧
    (enrich_items [⟨"01.01.2024", "12:00", some "Queen", some "Bohemian Rhapsody",
        none, none, none, none, none, none⟩] [] [] 2 2 false
        (fun _ _ => some ⟨some (JVal.jint 1975), some (JVal.jint 354000),
          some (JVal.jstr "Rock"), some (JVal.jstr "Opera"), some (JVal.jint 11),
          none, some (JVal.jint 1)⟩)
        (fun _ _ => some ⟨none, none, none, none, none,
          some (JVal.jstr "GB"), none⟩)).2.mbLookups < 2 ∧
    enrich_artist_country
        (enrich_artist_country [⟨some "Queen", none, ""⟩] [] 2 false
          (fun _ => some "GB")).1
        (enrich_artist_country [⟨some "Queen", none, ""⟩] [] 2 false
          (fun _ => some "GB")).2.cache 2 false (fun _ => some "GB") =
      ((enrich_artist_country [⟨some "Queen", none, ""⟩] [] 2 false
          (fun _ => some "GB")).1,
       ⟨(enrich_artist_country [⟨some "Queen", none, ""⟩] [] 2 false
          (fun _ => some "GB")).2.cache, 0, 0⟩) ∧
    (enrich_items
        (enrich_items [⟨"01.01.2024", "12:00", some "Queen", some "Bohemian Rhapsody",
            none, none, none, none, none, none⟩] [] [] 2 2 false
            (fun _ _ => some ⟨some (JVal.jint 1975), some (JVal.jint 354000),
              some (JVal.jstr "Rock"), some (JVal.jstr "Opera"), some (JVal.jint 11),
              none, some (JVal.jint 1)⟩)
            (fun _ _ => some ⟨none, none, none, none, none,
              some (JVal.jstr "GB"), none⟩)).1
        (enrich_items [⟨"01.01.2024", "12:00", some "Queen", some "Bohemian Rhapsody",
            none, none, none, none, none, none⟩] [] [] 2 2 false
            (fun _ _ => some ⟨some (JVal.jint 1975), some (JVal.jint 354000),
              some (JVal.jstr "Rock"), some (JVal.jstr "Opera"), some (JVal.jint 11),
              none, some (JVal.jint 1)⟩)
            (fun _ _ => some ⟨none, none, none, none, none,
              some (JVal.jstr "GB"), none⟩)).2.itCache
        (enrich_items [⟨"01.01.2024", "12:00", some "Queen", some "Bohemian Rhapsody",
            none, none, none, none, none, none⟩] [] [] 2 2 false
            (fun _ _ => some ⟨some (JVal.jint 1975), some (JVal.jint 354000),
              some (JVal.jstr "Rock"), some (JVal.jstr "Opera"), some (JVal.jint 11),
              none, some (JVal.jint 1)⟩)
            (fun _ _ => some ⟨none, none, none, none, none,
              some (JVal.jstr "GB"), none⟩)).2.mbCache
        2 2 false
        (fun _ _ => some ⟨some (JVal.jint 1975), some (JVal.jint 354000),
          some (JVal.jstr "Rock"), some (JVal.jstr "Opera"), some (JVal.jint 11),
          none, some (JVal.jint 1)⟩)
        (fun _ _ => some ⟨none, none, none, none, none,
          some (JVal.jstr "GB"), none⟩)).1 =
      (enrich_items [⟨"01.01.2024", "12:00", some "Queen", some "Bohemian Rhapsody",
          none, none, none, none, none, none⟩] [] [] 2 2 false
          (fun _ _ => some ⟨some (JVal.jint 1975), some (JVal.jint 354000),
            some (JVal.jstr "Rock"), some (JVal.jstr "Opera"), some (JVal.jint 11),
            none, some (JVal.jint 1)⟩)
          (fun _ _ => some ⟨none, none, none, none, none,
            some (JVal.jstr "GB"), none⟩)).1 :=
  ⟨by decide, by decide, by decide,
   (c8_idempotent_amended [⟨some "Queen", none, ""⟩] [] 2 (fun _ => some "GB")
      [⟨"01.01.2024", "12:00", some "Queen", some "Bohemian Rhapsody",
        none, none, none, none, none, none⟩] [] [] 2 2
      (fun _ _ => some ⟨some (JVal.jint 1975), some (JVal.jint 354000),
        some (JVal.jstr "Rock"), some (JVal.jstr "Opera"), some (JVal.jint 11),
        none, some (JVal.jint 1)⟩)
      (fun _ _ => some ⟨none, none, none, none, none,
        some (JVal.jstr "GB"), none⟩)
      (by decide) (by decide) (by decide)).1,
   ((c8_idempotent_amended [⟨some "Queen", none, ""⟩] [] 2 (fun _ => some "GB")
      [⟨"01.01.2024", "12:00", some "Queen", some "Bohemian Rhapsody",
        none, none, none, none, none, none⟩] [] [] 2 2
      (fun _ _ => some ⟨some (JVal.jint 1975), some (JVal.jint 354000),
        some (JVal.jstr "Rock"), some (JVal.jstr "Opera"), some (JVal.jint 11),
        none, some (JVal.jint 1)⟩)
      (fun _ _ => some ⟨none, none, none, none, none,
        some (JVal.jstr "GB"), none⟩)
      (by decide) (by decide) (by decide)).2).1⟩
